import Mathlib

set_option autoImplicit false

/-
Verification of the "pit" version-control engine.

The Python source is shallowly embedded: byte sequences (Python `bytes` and
`str`) become `List Char` with one `Char` per byte, files become association
lists from paths to contents, and the content-addressed object store becomes
an association list from hash strings to stored (compressed) byte sequences,
where a write prepends an entry (so a later write to the same path shadows an
earlier one, as on a file system).  SHA-1 and zlib are external primitives of
the source; they are modelled by an `Oracle` carrying an arbitrary hash
function and an arbitrary compression codec, with the codec round-trip
(`decomp (comp b) = b`, true of zlib) taken as a hypothesis where needed.
The host is POSIX: `os.sep` is `/`.
-/

namespace Pit

abbrev Bytes := List Char

def bs (s : String) : Bytes := s.toList

def nlChar : Char := Char.ofNat 10

def tabChar : Char := Char.ofNat 9

def nullChar : Char := Char.ofNat 0

def spaceChar : Char := Char.ofNat 32

def slashChar : Char := Char.ofNat 47

/-- Characters stripped by Python `str.strip()`. -/
def isPySpace (c : Char) : Bool :=
  c.toNat = 32 || c.toNat = 9 || c.toNat = 10 || c.toNat = 13 || c.toNat = 11 || c.toNat = 12

/-- Python `s.split(sep)` for a one-character separator: splits at every
occurrence, keeping empty pieces; `"".split(sep) = [""]`. -/
def pySplitChar (sep : Char) : Bytes → List Bytes
  | [] => [[]]
  | c :: rest =>
    if c = sep then [] :: pySplitChar sep rest
    else
      match pySplitChar sep rest with
      | [] => [[c]]
      | r :: rs => (c :: r) :: rs

/-- Python `s.split(sep, 1)` unpacked into exactly two names: `none` models
the `ValueError` raised when the separator is absent. -/
def pySplitOnce (sep : Char) : Bytes → Option (Bytes × Bytes)
  | [] => none
  | c :: rest =>
    if c = sep then some ([], rest)
    else
      match pySplitOnce sep rest with
      | none => none
      | some (a, b) => some (c :: a, b)

/-- Python `s.split(sep, 3)` unpacked into exactly four names: `none` models
the `ValueError` raised when fewer than three separators occur. -/
def pySplit3 (sep : Char) (l : Bytes) : Option (Bytes × Bytes × Bytes × Bytes) :=
  match pySplitOnce sep l with
  | none => none
  | some (a, r₁) =>
    match pySplitOnce sep r₁ with
    | none => none
    | some (b, r₂) =>
      match pySplitOnce sep r₂ with
      | none => none
      | some (c, d) => some (a, b, c, d)

/-- Python `s.strip()`. -/
def pyStrip (l : Bytes) : Bytes :=
  ((l.dropWhile isPySpace).reverse.dropWhile isPySpace).reverse

/-- The final character of a byte string (`nullChar` when empty). -/
def pyLast : Bytes → Char
  | [] => nullChar
  | [a] => a
  | _ :: b :: t => pyLast (b :: t)

/-- Python `s.splitlines()` for content whose only line break is `\n`. -/
def pySplitLines (l : Bytes) : List Bytes :=
  if l.isEmpty then []
  else
    let ps := pySplitChar nlChar l
    if ps.getLast? = some [] then ps.dropLast else ps

/-- Python `sep.join(parts)`. -/
def pyJoin (sep : Bytes) : List Bytes → Bytes
  | [] => []
  | [x] => x
  | x :: xs => x ++ sep ++ pyJoin sep xs

/-- Python `s.find(c)` for a one-character needle, restricted to the found
case: `none` models the `-1` result. -/
def pyFindChar (t : Char) : Bytes → Option Nat
  | [] => none
  | c :: rest => if c = t then some 0 else (pyFindChar t rest).map (· + 1)

/-- Python `s.replace(old, new)` for one-character arguments. -/
def pyReplaceChar (old new : Char) (l : Bytes) : Bytes :=
  l.map fun c => if c = old then new else c

/-- Python `s.startswith(p)`. -/
def pyStartsWith (p l : Bytes) : Bool :=
  p.isPrefixOf l

/-- Decimal rendering of a natural number, as Python `str(n)`. -/
def natToDec (n : Nat) : Bytes :=
  if h : n < 10 then [Char.ofNat (48 + n)]
  else natToDec (n / 10) ++ [Char.ofNat (48 + n % 10)]
  decreasing_by exact Nat.div_lt_self (Nat.lt_of_lt_of_le (by omega) (Nat.le_of_not_lt h)) (by omega)

/-- Python string comparison (`<=`) by code point, used by `sorted`. -/
def bytesLe : Bytes → Bytes → Bool
  | [], _ => true
  | _ :: _, [] => false
  | a :: as, b :: bs => if a = b then bytesLe as bs else decide (a < b)

/-- Stable insertion used to model Python `sorted` on key-value pairs
(compares keys only; all our dictionaries have unique keys). -/
def insertSorted {α : Type} (x : Bytes × α) : List (Bytes × α) → List (Bytes × α)
  | [] => [x]
  | y :: rest => if bytesLe y.1 x.1 then y :: insertSorted x rest else x :: y :: rest

/-- Python `sorted(d.items())` for a dictionary rendered as an assoc list. -/
def sortByKey {α : Type} (l : List (Bytes × α)) : List (Bytes × α) :=
  l.foldl (fun acc x => insertSorted x acc) []

/-- First-match lookup in an assoc list (Python `d[k]` / `d.get(k)`). -/
def alGet {κ α : Type} [DecidableEq κ] : List (κ × α) → κ → Option α
  | [], _ => none
  | (k', v) :: rest, k => if k' = k then some v else alGet rest k

/-- Python `d[k] = v`: replace in place, else append at the end (dict
insertion order). -/
def alSet {κ α : Type} [DecidableEq κ] : List (κ × α) → κ → α → List (κ × α)
  | [], k, v => [(k, v)]
  | (k', v') :: rest, k, v =>
    if k' = k then (k, v) :: rest else (k', v') :: alSet rest k v

/-- Python `del d[k]` (no-op when absent, matching guarded deletes). -/
def alDel {κ α : Type} [DecidableEq κ] : List (κ × α) → κ → List (κ × α)
  | [], _ => []
  | (k', v') :: rest, k =>
    if k' = k then rest else (k', v') :: alDel rest k

def alHasKey {κ α : Type} [DecidableEq κ] (l : List (κ × α)) (k : κ) : Bool :=
  (alGet l k).isSome

/-- Python `d1 == d2` on dictionaries: equality as key-to-value maps. -/
def dictEq {κ α : Type} [DecidableEq κ] [DecidableEq α] (l₁ l₂ : List (κ × α)) : Bool :=
  l₁.all (fun p => decide (alGet l₂ p.1 = some p.2)) &&
    l₂.all (fun p => decide (alGet l₁ p.1 = some p.2))

/-- External primitives of the source: SHA-1 (`hashlib.sha1(...).hexdigest()`)
and zlib.  The hash function and codec are arbitrary; theorems assume of the
codec only its round-trip, which zlib satisfies. -/
structure Oracle where
  hashFn : Bytes → Bytes
  comp : Bytes → Bytes
  decomp : Bytes → Bytes

/-- The codec loses no information: true of zlib. -/
def zlibFaithful (o : Oracle) : Prop :=
  ∀ b : Bytes, o.decomp (o.comp b) = b

/-- A concrete stand-in oracle for witnesses: the "hash" spells each byte in
decimal separated by dots (so it is whitespace-free), and the codec is the
identity. -/
def witOracle : Oracle where
  hashFn b := b.foldr (fun c acc => natToDec c.toNat ++ Char.ofNat 46 :: acc) []
  comp := id
  decomp := id

/-- The object store: `.pit/objects/<h[:2]>/<h[2:]>`, keyed by the full hash;
entries hold the zlib-compressed bytes.  A write prepends, so lookup sees the
most recent write to a path, as on a file system. -/
abbrev Store := List (Bytes × Bytes)

/-- `"<kind> <length>\0"`. -/
def objHeader (objType : Bytes) (content : Bytes) : Bytes :=
  objType ++ spaceChar :: (natToDec content.length ++ [nullChar])

/-- `utils/objects.py hash_object`: prefixes the header, hashes, and when
`write` is set stores the compressed bytes at the hash's path (no existence
check and no temporary file: a direct `open(path, 'wb')`). -/
def hash_object (o : Oracle) (st : Store) (content : Bytes) (objType : Bytes)
    (write : Bool) : Store × Bytes :=
  let data := objHeader objType content ++ content
  let sha1 := o.hashFn data
  (if write then (sha1, o.comp data) :: st else st, sha1)

/-- `utils/objects.py read_object`: `none` models the `FileNotFoundError`
when the object is absent and the `ValueError` when the decompressed header
does not split at a space into exactly two pieces.  When no null byte occurs,
Python's `find` returns `-1`, making `header = data[:-1]` and
`content = data[0:]`; that branch is reproduced faithfully. -/
def read_object (o : Oracle) (st : Store) (sha1 : Bytes) : Option (Bytes × Bytes) :=
  match alGet st sha1 with
  | none => none
  | some stored =>
    let data := o.decomp stored
    let (header, content) :=
      match pyFindChar nullChar data with
      | none => (data.dropLast, data)
      | some i => (data.take i, data.drop (i + 1))
    match pySplitChar spaceChar header with
    | [t, _] => some (t, content)
    | _ => none

/-- Python `int(s)` on the decimal strings produced by the index writers.
`int()` raising on non-numeric text is not exercised by any state considered
here (every index file read below was produced by one of the modelled
writers, whose numeric fields are `natToDec` renderings), so the fallback
value is never reached. -/
def pyInt (b : Bytes) : Nat :=
  if b ≠ [] ∧ ∀ c ∈ b, 48 ≤ c.toNat ∧ c.toNat ≤ 57 then
    b.foldl (fun acc c => acc * 10 + (c.toNat - 48)) 0
  else 0

/-- `os.path.join` for the slash-joined relative paths this program builds
(the absolute-right-operand override included). -/
def pyPathJoin (a b : Bytes) : Bytes :=
  if pyStartsWith [slashChar] b then b
  else if a = [] then b
  else a ++ slashChar :: b

/-- The in-memory nested dictionary built by `build_tree_from_index`: a value
is either a blob-hash string or a nested dictionary, in insertion order. -/
inductive PyTree where
  | blob (h : Bytes)
  | dir (children : List (Bytes × PyTree))

/-- One `tree[...]` insertion walk of `build_tree_from_index`:
`current_level = current_level.setdefault(part, {})` down the directory
parts, then `current_level[parts[-1]] = hash_val`.  `none` models the
`TypeError`/`AttributeError` Python raises when the walk descends into a
string value. -/
def insertTreePath : List (Bytes × PyTree) → List Bytes → Bytes → Option (List (Bytes × PyTree))
  | _, [], _ => none
  | cs, [last], h => some (alSet cs last (PyTree.blob h))
  | cs, part :: rest, h =>
    match alGet cs part with
    | none =>
      match insertTreePath [] rest h with
      | none => none
      | some sub => some (cs ++ [(part, PyTree.dir sub)])
    | some (PyTree.dir sub) =>
      match insertTreePath sub rest h with
      | none => none
      | some sub' => some (alSet cs part (PyTree.dir sub'))
    | some (PyTree.blob _) => none

/-- Parsing one index line the way `build_tree_from_index` (and `add.py`)
does: four or more space-separated fields give the current format, otherwise
`line.strip().split(' ', 1)` (with `none` for the `ValueError` raised on a
separator-free line). -/
def parseIndexLineHash (line : Bytes) : Option (Bytes × Bytes) :=
  let stripped := pyStrip line
  let parts := pySplitChar spaceChar stripped
  if 4 ≤ parts.length then
    some (parts.headD [], pyJoin [spaceChar] (parts.drop 3))
  else
    match pySplitOnce spaceChar stripped with
    | none => none
    | some (h, p) => some (h, p)

/-- The line loop of `build_tree_from_index` over the index file's lines. -/
def buildTreeLines : List Bytes → List (Bytes × PyTree) → Option (List (Bytes × PyTree))
  | [], acc => some acc
  | line :: rest, acc =>
    match parseIndexLineHash line with
    | none => none
    | some (h, path) =>
      match insertTreePath acc (pySplitChar slashChar path) h with
      | none => none
      | some acc' => buildTreeLines rest acc'

/-- `utils/objects.py build_tree_from_index` on the raw bytes of
`.pit/index` (`none` when the file is absent, giving the empty tree). -/
def build_tree_from_index (indexFile : Option Bytes) : Option (List (Bytes × PyTree)) :=
  match indexFile with
  | none => some []
  | some content => buildTreeLines (pySplitLines content) []

/-- `"<mode> <type> <hash>\t<name>"`. -/
def entryLine (mode etype sha1 name : Bytes) : Bytes :=
  mode ++ spaceChar :: (etype ++ spaceChar :: (sha1 ++ tabChar :: name))

mutual

/-- `utils/objects.py write_tree`, fuelled for the nested recursion; the
fuel is always instantiated above the tree's depth, making the `0` branch
unreachable. -/
def write_tree (o : Oracle) (fuel : Nat) (st : Store) (cs : List (Bytes × PyTree)) :
    Store × Bytes :=
  match fuel with
  | 0 => (st, [])
  | f + 1 =>
    let r := writeTreeEntries o f st (sortByKey cs)
    hash_object o r.1 (pyJoin [nlChar] r.2) (bs (r"tree")) true
termination_by (fuel, 0)

/-- The entry loop of `write_tree` over the name-sorted children. -/
def writeTreeEntries (o : Oracle) (fuel : Nat) (st : Store) (l : List (Bytes × PyTree)) :
    Store × List Bytes :=
  match l with
  | [] => (st, [])
  | (name, PyTree.blob h) :: rest =>
    let r := writeTreeEntries o fuel st rest
    (r.1, entryLine (bs (r"100644")) (bs (r"blob")) h name :: r.2)
  | (name, PyTree.dir sub) :: rest =>
    let r₁ := write_tree o fuel st sub
    let r₂ := writeTreeEntries o fuel r₁.1 rest
    (r₂.1, entryLine (bs (r"040000")) (bs (r"tree")) r₁.2 name :: r₂.2)
termination_by (fuel, l.length + 1)

end

/-- The `tree <h>` header scan of `get_commit_tree_hash`
(`line.split(' ')[1]`). -/
def findTreeLine : List Bytes → Option Bytes
  | [] => none
  | line :: rest =>
    if pyStartsWith (bs (r"tree ")) line then
      some (((pySplitChar spaceChar line).drop 1).headD [])
    else findTreeLine rest

/-- `utils/objects.py get_commit_tree_hash` on a non-empty hash: the outer
`Option` models raised exceptions, the inner one Python's `None` result. -/
def get_commit_tree_hash (o : Oracle) (st : Store) (commit_hash : Bytes) :
    Option (Option Bytes) :=
  if commit_hash = [] then some none
  else
    match read_object o st commit_hash with
    | none => none
    | some (t, content) =>
      if t = bs (r"commit") then some (findTreeLine (pySplitLines content))
      else none

mutual

/-- `read_tree_recursive` inside `get_commit_files`, fuelled (the source
recursion is over the store's tree objects); `none` models any raised
error, including fuel exhaustion, which no theorem below reaches. -/
def read_tree_recursive (o : Oracle) (st : Store) (fuel : Nat) (tree_sha pathPre : Bytes)
    (files : List (Bytes × Bytes)) : Option (List (Bytes × Bytes)) :=
  match fuel with
  | 0 => none
  | f + 1 =>
    match read_object o st tree_sha with
    | none => none
    | some (t, content) =>
      if t = bs (r"tree") then readTreeLines o st f (pySplitLines content) pathPre files
      else none
termination_by (fuel, 0)

/-- The line loop of `read_tree_recursive`:
`_, entry_type, sha1, name = line.replace('\t', ' ').split(' ', 3)`. -/
def readTreeLines (o : Oracle) (st : Store) (fuel : Nat) (lines : List Bytes)
    (pathPre : Bytes) (files : List (Bytes × Bytes)) : Option (List (Bytes × Bytes)) :=
  match lines with
  | [] => some files
  | line :: rest =>
    match pySplit3 spaceChar (pyReplaceChar tabChar spaceChar line) with
    | none => none
    | some (_, etype, sha1, name) =>
      let current_path := pyPathJoin pathPre name
      if etype = bs (r"blob") then
        readTreeLines o st fuel rest pathPre (alSet files current_path sha1)
      else if etype = bs (r"tree") then
        match read_tree_recursive o st fuel sha1 current_path files with
        | none => none
        | some files' => readTreeLines o st fuel rest pathPre files'
      else readTreeLines o st fuel rest pathPre files
termination_by (fuel, lines.length + 1)

end

/-- `utils/objects.py get_commit_files` (`none` argument models a Python
`None` commit hash). -/
def get_commit_files (o : Oracle) (st : Store) (fuel : Nat) (ch : Option Bytes) :
    Option (List (Bytes × Bytes)) :=
  match ch with
  | none => some []
  | some c =>
    if c = [] then some []
    else
      match get_commit_tree_hash o st c with
      | none => none
      | some none => some []
      | some (some th) =>
        if th = [] then some []
        else read_tree_recursive o st fuel th [] []

/-- Characters on which Python `str.splitlines` breaks. -/
def lineBreakChar (c : Char) : Bool :=
  c.toNat = 10 || c.toNat = 13 || c.toNat = 11 || c.toNat = 12 || c.toNat = 28 ||
    c.toNat = 29 || c.toNat = 30 || c.toNat = 133 || c.toNat = 8232 || c.toNat = 8233

/-- A hash string as the parsers need it: non-empty, free of whitespace, line
breaks and null bytes (true of every 40-hex SHA-1 digest). -/
def hashSafe (h : Bytes) : Bool :=
  decide (h ≠ []) && h.all fun c => !(isPySpace c) && decide (c ≠ nullChar) && !(lineBreakChar c)

/-- A path component as the tree writer/reader round-trips it: non-empty and
free of tabs, nulls, slashes and line breaks (spaces are allowed). -/
def nameSafe (n : Bytes) : Bool :=
  decide (n ≠ []) && n.all fun c =>
    decide (c ≠ tabChar) && decide (c ≠ nullChar) && decide (c ≠ slashChar) && !(lineBreakChar c)

/-- A slash-separated relative path: every component is `nameSafe` and the
final character survives the `line.strip()` of the index parsers. -/
def pathWf (p : Bytes) : Bool :=
  (pySplitChar slashChar p).all nameSafe && !(isPySpace (pyLast p))

def properPre {α : Type} [DecidableEq α] (a b : List α) : Bool :=
  a.isPrefixOf b && decide (a.length < b.length)

/-- An index as a well-formed finite map: well-formed paths and hashes,
no duplicate paths, and no path a proper component-prefix of another (the
last two always hold of an index built from files on a disk). -/
def indexWf (d : List (Bytes × (Bytes × Nat × Nat))) : Bool :=
  d.all (fun e => pathWf e.1 && hashSafe e.2.1) &&
    decide ((d.map Prod.fst).Nodup) &&
    d.all (fun e₁ => d.all (fun e₂ =>
      decide (e₁.1 = e₂.1) ||
        !(properPre (pySplitChar slashChar e₁.1) (pySplitChar slashChar e₂.1))))

/-- One line of the current index format: `"<hash> <mtime_ns> <size> <path>"`. -/
def index_line (h : Bytes) (m s : Nat) (p : Bytes) : Bytes :=
  h ++ spaceChar :: (natToDec m ++ spaceChar :: (natToDec s ++ spaceChar :: p))

/-- `utils/index.py write_index`: the file content, one current-format line
per entry in path-sorted order. -/
def write_index_content (d : List (Bytes × (Bytes × Nat × Nat))) : Bytes :=
  List.flatten ((sortByKey d).map fun e => index_line e.2.1 e.2.2.1 e.2.2.2 e.1 ++ [nlChar])

/-- The node reached from a children dictionary by walking a non-empty list
of path components (dictionaries only; a blob en route blocks the walk). -/
def treeNode : List (Bytes × PyTree) → List Bytes → Option PyTree
  | _, [] => none
  | cs, [x] => alGet cs x
  | cs, x :: rest =>
    match alGet cs x with
    | some (PyTree.dir sub) => treeNode sub rest
    | _ => none

/-- The blob hash stored at a component path, when the walk ends at a blob. -/
def treeGet (cs : List (Bytes × PyTree)) (parts : List Bytes) : Option Bytes :=
  match treeNode cs parts with
  | some (PyTree.blob h) => some h
  | _ => none

/-- Well-formedness of a nested tree dictionary: safe names and hashes and no
duplicate keys at any level. -/
def treeWfL : List (Bytes × PyTree) → Bool
  | [] => true
  | (n, PyTree.blob h) :: rest => nameSafe n && hashSafe h && !(alHasKey rest n) && treeWfL rest
  | (n, PyTree.dir sub) :: rest => nameSafe n && !(alHasKey rest n) && treeWfL sub && treeWfL rest

/-- A value is well-formed for placement under a (safe) name. -/
def valWf : PyTree → Bool
  | PyTree.blob h => hashSafe h
  | PyTree.dir sub => treeWfL sub

/-- The insertion loop of `build_tree_from_index` viewed on already-parsed
entries (component list and hash per index line, in file order). -/
def buildEntries : List (List Bytes × Bytes) → List (Bytes × PyTree) →
    Option (List (Bytes × PyTree))
  | [], acc => some acc
  | (parts, h) :: rest, acc =>
    match insertTreePath acc parts h with
    | none => none
    | some acc' => buildEntries rest acc'

/-- A store in which no two entries disagree: every key carries one value
and every key is a safe hash string (no collisions among the hash function's
outputs on the data actually written; SHA-1 hex digests satisfy both). -/
def storeConsistent (st : Store) : Bool :=
  st.all fun e₁ => hashSafe e₁.1 &&
    st.all fun e₂ => decide (e₁.1 ≠ e₂.1) || decide (e₁.2 = e₂.2)

/-- Nesting depth of a children dictionary. -/
def treeDepthL : List (Bytes × PyTree) → Nat
  | [] => 0
  | (_, PyTree.blob _) :: rest => treeDepthL rest
  | (_, PyTree.dir sub) :: rest => max (treeDepthL sub + 1) (treeDepthL rest)

/-- The tree with every directory level sorted by name, mirroring the order
in which `write_tree` serializes and `get_commit_files` therefore reads. -/
def sortTreeL (fuel : Nat) (cs : List (Bytes × PyTree)) : List (Bytes × PyTree) :=
  match fuel with
  | 0 => cs
  | f + 1 =>
    (sortByKey cs).map fun e =>
      match e.2 with
      | PyTree.blob h => (e.1, PyTree.blob h)
      | PyTree.dir sub => (e.1, PyTree.dir (sortTreeL f sub))

/-- One level of `sortTreeL` applied to an already-sorted entry list. -/
def mapSortT (fuel : Nat) (l : List (Bytes × PyTree)) : List (Bytes × PyTree) :=
  l.map fun e =>
    match e.2 with
    | PyTree.blob h => (e.1, PyTree.blob h)
    | PyTree.dir sub => (e.1, PyTree.dir (sortTreeL fuel sub))

/-- The dictionary of flat paths produced by walking a (sorted) tree the way
`read_tree_recursive` does, threading the accumulated files dictionary. -/
def flattenF : Bytes → List (Bytes × PyTree) → List (Bytes × Bytes) → List (Bytes × Bytes)
  | _, [], files => files
  | pre, (n, PyTree.blob h) :: rest, files =>
    flattenF pre rest (alSet files (pyPathJoin pre n) h)
  | pre, (n, PyTree.dir sub) :: rest, files =>
    flattenF pre rest (flattenF (pyPathJoin pre n) sub files)

/-- Strip a directory prefix from a path: `some rest` when `q` lies under
`pre` (everything, when `pre` is the repository root `""`). -/
def stripPre (pre q : Bytes) : Option Bytes :=
  if pre = [] then some q
  else if (pre ++ [slashChar]).isPrefixOf q then some (q.drop (pre.length + 1)) else none

/-- Specification device for reading back a flat-walk dictionary: the value
`alGet` finds in `flattenF pre cs files` at a query path. -/
def flatLook (pre : Bytes) (cs : List (Bytes × PyTree)) (files : List (Bytes × Bytes))
    (q : Bytes) : Option Bytes :=
  match stripPre pre q with
  | some r =>
    match treeGet cs (pySplitChar slashChar r) with
    | some h => some h
    | none => alGet files q
  | none => alGet files q

/-- The per-entry transformation `sortTreeL` applies below one level. -/
def sortVal (f : Nat) : PyTree → PyTree
  | PyTree.blob h => PyTree.blob h
  | PyTree.dir sub => PyTree.dir (sortTreeL f sub)

/-- The depth contribution of one entry. -/
def entryDepth : Bytes × PyTree → Nat
  | (_, PyTree.blob _) => 0
  | (_, PyTree.dir sub) => treeDepthL sub + 1

/-- The parsed entry of one index line, as `build_tree_from_index` consumes
it (component list and hash). -/
def lineEntry (l : Bytes) : List Bytes × Bytes :=
  match parseIndexLineHash l with
  | some (h, p) => (pySplitChar slashChar p, h)
  | none => ([], [])

/-- Every store entry is a hash-keyed compressed record of some (non-empty)
data, as `hash_object` writes them. -/
def storeHashed (o : Oracle) (st : Store) : Prop :=
  ∀ e ∈ st, ∃ dt : Bytes, e = (o.hashFn dt, o.comp dt) ∧ dt ≠ []

/-- The decimal value of a digit string, inverse to `natToDec`. -/
def decVal (b : Bytes) : Nat :=
  b.foldl (fun a c => a * 10 + (c.toNat - 48)) 0

/-- `create_commit`'s payload (the parent-free case): the `'\n'.join` of the
tree line, author line, committer line, a blank line and the message. -/
def commitContent (tree_hash author_line committer_line message : Bytes) : Bytes :=
  pyJoin [nlChar] [bs (r"tree ") ++ tree_hash, author_line, committer_line, [], message]

/-- The C5 pipeline up to the stored commit: build the nested tree from the
index file, write it, and store a commit whose tree is the root hash. -/
def index_to_commit (o : Oracle) (f : Nat) (indexFile : Option Bytes)
    (author committer message : Bytes) : Option (Store × Bytes) :=
  match build_tree_from_index indexFile with
  | none => none
  | some cs =>
    some (hash_object o (write_tree o f [] cs).1
      (commitContent (write_tree o f [] cs).2 author committer message) (bs (r"commit")) true)

/-- The full C5 pipeline: the commit's file dictionary as `get_commit_files`
reads it back. -/
def index_to_commit_files (o : Oracle) (f : Nat) (indexFile : Option Bytes)
    (author committer message : Bytes) : Option (List (Bytes × Bytes)) :=
  match index_to_commit o f indexFile author committer message with
  | none => none
  | some sc => get_commit_files o sc.1 f (some sc.2)

/-- A small concrete index for the C5 witness: a path containing a space and
a nested-directory path. -/
def witIndex : List (Bytes × (Bytes × Nat × Nat)) :=
  [(bs (r"a b.txt"), (bs (r"h1"), 5, 7)), (bs (r"dir/c.txt"), (bs (r"h2"), 1, 2))]

/-- File-system operations `hash_object` can issue, for tracing its write
discipline. -/
inductive FsOp where
  | mkdir (path : Bytes)
  | writeFile (path : Bytes) (data : Bytes)
  | rename (src dst : Bytes)
deriving DecidableEq

/-- `.pit/objects/<sha1[:2]>/<sha1[2:]>`. -/
def objPath (sha1 : Bytes) : Bytes :=
  pyPathJoin (pyPathJoin (pyPathJoin (bs (r".pit")) (bs (r"objects"))) (sha1.take 2))
    (sha1.drop 2)

/-- The file-system trace of `utils/objects.py hash_object`: when `write` is
set it unconditionally runs `os.makedirs(..., exist_ok=True)` and then a
direct `open(path, 'wb')` write of the compressed data; nothing else. -/
def hash_object_ops (o : Oracle) (content objType : Bytes) (write : Bool) : List FsOp :=
  if write then
    [FsOp.mkdir (pyPathJoin (pyPathJoin (bs (r".pit")) (bs (r"objects")))
        ((o.hashFn (objHeader objType content ++ content)).take 2)),
      FsOp.writeFile (objPath (o.hashFn (objHeader objType content ++ content)))
        (o.comp (objHeader objType content ++ content))]
  else []

/-- The parent loop of `_find_common_ancestor`: mark unseen parents as
ancestors and enqueue them, in order. -/
def addNew : List Bytes → List Bytes → List Bytes → List Bytes × List Bytes
  | anc, queue, [] => (anc, queue)
  | anc, queue, p :: ps =>
    if p ∈ anc then addNew anc queue ps
    else addNew (p :: anc) (queue ++ [p]) ps

/-- One commit's processing inside `_find_common_ancestor` after the
ancestor-hit test: skip if visited, else mark visited and absorb parents. -/
def lcaVisit (P : Bytes → List Bytes) (visited queue anc : List Bytes) (current : Bytes) :
    List Bytes × List Bytes × List Bytes :=
  if current ∈ visited then (visited, queue, anc)
  else
    match addNew anc queue (P current) with
    | (anc₂, queue₂) => (current :: visited, queue₂, anc₂)

/-- The `while queue1 or queue2` loop of `merge.py _find_common_ancestor`,
fuelled; `P` abstracts `_get_commit_parents` over the repository. -/
def lcaLoop (P : Bytes → List Bytes) :
    Nat → List Bytes → List Bytes → List Bytes → List Bytes → List Bytes → Option Bytes
  | 0, _, _, _, _, _ => none
  | f + 1, visited, queue1, queue2, anc1, anc2 =>
    if queue1 = [] ∧ queue2 = [] then none
    else
      match queue1 with
      | current1 :: q1rest =>
        if current1 ∈ anc2 then some current1
        else
          match lcaVisit P visited q1rest anc1 current1 with
          | (visited₂, queue1₂, anc1₂) =>
            match queue2 with
            | current2 :: q2rest =>
              if current2 ∈ anc1₂ then some current2
              else
                match lcaVisit P visited₂ q2rest anc2 current2 with
                | (visited₃, queue2₃, anc2₃) =>
                  lcaLoop P f visited₃ queue1₂ queue2₃ anc1₂ anc2₃
            | [] => lcaLoop P f visited₂ queue1₂ [] anc1₂ anc2
      | [] =>
        match queue2 with
        | current2 :: q2rest =>
          if current2 ∈ anc1 then some current2
          else
            match lcaVisit P visited q2rest anc2 current2 with
            | (visited₃, queue2₃, anc2₃) =>
              lcaLoop P f visited₃ [] queue2₃ anc1 anc2₃
        | [] => none

/-- `merge.py _find_common_ancestor` (fuelled breadth-first search). -/
def find_common_ancestor (P : Bytes → List Bytes) (fuel : Nat) (c1 c2 : Bytes) :
    Option Bytes :=
  if c1 = c2 then some c1
  else lcaLoop P fuel [] [c1] [c2] [c1] [c2]

/-- Ancestry along parent edges: `Reach P a c` holds when `c` is reachable
from `a` by following `P` (the parent lists). -/
inductive Reach (P : Bytes → List Bytes) : Bytes → Bytes → Prop where
  | refl (a : Bytes) : Reach P a a
  | step {a b c : Bytes} : Reach P a b → c ∈ P b → Reach P a c

/-- A three-commit graph for the C9 witness: `a` and `b` share parent `r`. -/
def witParents : Bytes → List Bytes := fun x =>
  if x = bs (r"a") ∨ x = bs (r"b") then [bs (r"r")] else []

/-- The on-disk state of a repository: the object store, the raw contents of
`.pit/HEAD`, the branch ref files under `.pit/refs/heads/`, the raw
`.pit/index` bytes, the working directory as path-to-content, the user
config, and the files `.pit/MERGE_HEAD` and `.pit/logs/stash` (absent =
`none`). -/
structure Repo where
  store : Store
  headFile : Option Bytes
  branches : List (Bytes × Bytes)
  indexFile : Option Bytes
  workdir : List (Bytes × Bytes)
  config : Option (Bytes × Bytes)
  mergeHead : Option Bytes
  stashLog : Option Bytes

/-- `utils/repository.py get_head_commit`. -/
def get_head_commit (r : Repo) : Option Bytes :=
  match r.headFile with
  | none => none
  | some hc =>
    let head_content := pyStrip hc
    if pyStartsWith (bs (r"ref: ")) head_content then
      match pySplitOnce spaceChar head_content with
      | none => none
      | some (_, ref_path) =>
        match stripPre (bs (r"refs/heads")) ref_path with
        | none => none
        | some name =>
          match alGet r.branches name with
          | none => none
          | some content =>
            if content = [] then none
            else some (pyStrip content)
    else some (pyStrip head_content)

/-- `utils/repository.py get_current_branch`. -/
def get_current_branch (r : Repo) : Option Bytes :=
  match r.headFile with
  | none => none
  | some hc =>
    let head_content := pyStrip hc
    if pyStartsWith (bs (r"ref: refs/heads/")) head_content then
      some (pyStrip ((pySplitChar slashChar head_content).getLastD []))
    else none

/-- `utils/repository.py get_branch_commit` (no emptiness check: an existing
empty ref file yields the empty string, which callers test for truthiness). -/
def get_branch_commit (r : Repo) (name : Bytes) : Option Bytes :=
  match alGet r.branches name with
  | none => none
  | some content => some (pyStrip content)

/-- The modules `commands/init.py` imports: only `sys`. -/
def init_imports : List Bytes := [bs (r"sys")]

/-- The initialized-repository layout - empty store, `.pit/HEAD` pointing at
`refs/heads/master`, an empty `master` ref file, no index - with the user
config set, over a working directory `wd`.  This is the state the repo's own
tests assemble by hand (`tests/conftest.py`) and every later command starts
from; `init` itself fails to build it (see `init_run`). -/
def hand_init (wd : List (Bytes × Bytes)) : Repo :=
  { store := [], headFile := some (bs (r"ref: refs/heads/master") ++ [nlChar]),
    branches := [(bs (r"master"), [])], indexFile := none,
    workdir := wd, config := some (bs (r"u"), bs (r"u@x")), mergeHead := none,
    stashLog := none }

/-- `commands/init.py run`: the module imports only `sys`, so the body's
first expression `os.path.join(os.getcwd(), '.pit')` raises `NameError`
(`os` is not a name in the module), the surrounding `except Exception`
prints the error and calls `sys.exit(1)`, and no `.pit` is ever created -
`none` models that exit.  The `some` branch holds the state the body would
have built had `os` been imported; it is unreachable. -/
def init_run (wd : List (Bytes × Bytes)) : Option Repo :=
  if bs (r"os") ∈ init_imports then some (hand_init wd) else none

/-- `utils/ignore.py is_ignored` specialised to the four built-in patterns
(no `.pitignore` file): `fnmatch` against `.pit`, `.pit/*`, `*.pyc` and
`__pycache__`, on the whole path and on every component. -/
def is_ignored_default (p : Bytes) : Bool :=
  let hits := fun (s : Bytes) =>
    s = bs (r".pit") || pyStartsWith (bs (r".pit/")) s ||
      (bs (r".pyc")).isSuffixOf s || s = bs (r"__pycache__")
  hits p || (pySplitChar slashChar p).any hits

/-- The index-reading loop of `utils/index.py read_index`: four-or-more
fields are the current format, two or three fields the legacy format, and
shorter lines are skipped. -/
def read_index_lines :
    List Bytes → List (Bytes × (Bytes × Nat × Nat)) → List (Bytes × (Bytes × Nat × Nat))
  | [], acc => acc
  | l :: rest, acc =>
    let parts := pySplitChar spaceChar (pyStrip l)
    if 4 ≤ parts.length then
      read_index_lines rest (alSet acc (pyJoin [spaceChar] (parts.drop 3))
        (parts.headD [], pyInt ((parts.drop 1).headD []), pyInt ((parts.drop 2).headD [])))
    else if 2 ≤ parts.length then
      read_index_lines rest (alSet acc (pyJoin [spaceChar] (parts.drop 1))
        (parts.headD [], 0, 0))
    else read_index_lines rest acc

/-- `utils/index.py read_index` on the raw index bytes. -/
def read_index (file : Option Bytes) : List (Bytes × (Bytes × Nat × Nat)) :=
  match file with
  | none => []
  | some content => read_index_lines (pySplitLines content) []

/-- The index-reading loop of `commands/add.py run` (the legacy branch uses
`split(' ', 1)` and raises on a line without a space, modelled by `none`). -/
def add_read_lines :
    List Bytes → List (Bytes × (Bytes × Nat × Nat)) →
      Option (List (Bytes × (Bytes × Nat × Nat)))
  | [], acc => some acc
  | l :: rest, acc =>
    let parts := pySplitChar spaceChar (pyStrip l)
    if 4 ≤ parts.length then
      add_read_lines rest (alSet acc (pyJoin [spaceChar] (parts.drop 3))
        (parts.headD [], pyInt ((parts.drop 1).headD []), pyInt ((parts.drop 2).headD [])))
    else
      match pySplitOnce spaceChar (pyStrip l) with
      | none => none
      | some (h, p) => add_read_lines rest (alSet acc p (h, 0, 0))

def add_read_index (file : Option Bytes) :
    Option (List (Bytes × (Bytes × Nat × Nat))) :=
  match file with
  | none => some []
  | some content => add_read_lines (pySplitLines content) []

/-- `commands/add.py run` for one path: read the index (both formats), hash
and store the file's blob, update the entry with the disk stats, and rewrite
the whole index in the current four-field sorted format (`st_mtime_ns` is
the `mtime` argument; `st_size` is the content length). -/
def add_run_single (o : Oracle) (r : Repo) (path : Bytes) (mtime : Nat) : Option Repo :=
  match add_read_index r.indexFile with
  | none => none
  | some idx =>
    match alGet r.workdir path with
    | none => some { r with indexFile := some (write_index_content idx) }
    | some content =>
      if is_ignored_default path then
        some { r with indexFile := some (write_index_content idx) }
      else
        some { r with
          store := (hash_object o r.store content (bs (r"blob")) true).1,
          indexFile := some (write_index_content
            (alSet idx path ((hash_object o r.store content (bs (r"blob")) true).2,
              mtime, content.length))) }

/-- `commands/commit.py create_commit` (`ts`/`tz` stand for `time.time()` and
`time.strftime('%z')`; prints are not modelled; `none` models every raise). -/
def create_commit (o : Oracle) (r : Repo) (message : Bytes) (parents : List Bytes)
    (ts : Nat) (tz : Bytes) (tfuel : Nat) : Option (Repo × Bytes) :=
  match r.indexFile with
  | none => none
  | some icontent =>
    if icontent = [] then none
    else
      match build_tree_from_index (some icontent) with
      | none => none
      | some tree_dict =>
        match r.config with
        | none => none
        | some (un, ue) =>
          if un = [] ∨ ue = [] then none
          else
            let w := write_tree o tfuel r.store tree_dict
            let author := un ++ bs (r" <") ++ ue ++ bs (r"> ") ++
              natToDec ts ++ spaceChar :: tz
            let lines := (bs (r"tree ") ++ w.2) ::
              ((parents.filter fun p => !p.isEmpty).map fun p => bs (r"parent ") ++ p) ++
              [bs (r"author ") ++ author, bs (r"committer ") ++ author, [], message]
            let cc := pyJoin [nlChar] lines
            let ch := hash_object o w.1 cc (bs (r"commit")) true
            match get_current_branch r with
            | some bname =>
              some ({ r with
                      store := ch.1
                      branches := alSet r.branches bname (ch.2 ++ [nlChar]) }, ch.2)
            | none =>
              some ({ r with
                      store := ch.1
                      headFile := some (ch.2 ++ [nlChar]) }, ch.2)

/-- `commands/commit.py run`: parent list from HEAD, then `create_commit`. -/
def commit_run (o : Oracle) (r : Repo) (message : Bytes) (ts : Nat) (tz : Bytes)
    (tfuel : Nat) : Option (Repo × Bytes) :=
  let parents := match get_head_commit r with
    | some p => if p = [] then [] else [p]
    | none => []
  create_commit o r message parents ts tz tfuel

/-- The hash map of a full index dictionary (`{path: data[0]}`). -/
def hashes_of (idx : List (Bytes × (Bytes × Nat × Nat))) : List (Bytes × Bytes) :=
  idx.map fun e => (e.1, e.2.1)

/-- `commands/checkout.py load_index`: the legacy-only reading loop
(`line.strip().split(' ', 1)`); a line without a space raises (`none`). -/
def loadIndexLines : List Bytes → List (Bytes × Bytes) → Option (List (Bytes × Bytes))
  | [], acc => some acc
  | l :: rest, acc =>
    match pySplitOnce spaceChar (pyStrip l) with
    | none => none
    | some (h, p) => loadIndexLines rest (alSet acc p h)

def load_index (file : Option Bytes) : Option (List (Bytes × Bytes)) :=
  match file with
  | none => some []
  | some content => loadIndexLines (pySplitLines content) []

/-- The committed file set the checkout code uses as its baseline:
`get_commit_files(head) if head_commit else {}` (Python truthiness makes an
empty hash give `{}` as well). -/
def checkout_current_files (o : Oracle) (r : Repo) (fuel : Nat) :
    Option (List (Bytes × Bytes)) :=
  match get_head_commit r with
  | none => some []
  | some c => if c = [] then some [] else get_commit_files o r.store fuel (some c)

/-- The target side of `perform_checkout`:
`get_commit_files(target) if target_commit_hash else {}`. -/
def checkout_target_files (o : Oracle) (r : Repo) (target : Bytes) (fuel : Nat) :
    Option (List (Bytes × Bytes)) :=
  match get_branch_commit r target with
  | none => some []
  | some c => if c = [] then some [] else get_commit_files o r.store fuel (some c)

/-- `commands/checkout.py is_clean`: HEAD files versus the (legacy-parsed)
index as Python dicts, then the working-directory scan, then the
missing-file scan. -/
def is_clean (o : Oracle) (r : Repo) (fuel : Nat) : Option Bool :=
  match checkout_current_files o r fuel with
  | none => none
  | some head_files =>
    match load_index r.indexFile with
    | none => none
    | some index_files =>
      if !(dictEq head_files index_files) then some false
      else if r.workdir.any (fun e =>
          !(is_ignored_default e.1) &&
          (match alGet index_files e.1 with
           | some ih =>
             decide ((hash_object o r.store e.2 (bs (r"blob")) false).2 ≠ ih)
           | none => false)) then some false
      else if index_files.any (fun e => !(alHasKey r.workdir e.1)) then some false
      else some true

/-- The write loop of `update_working_directory`: write each target file
whose hash is new or changed (reading its blob; non-blob objects are
skipped with a warning; a missing object raises). -/
def applyWrites (o : Oracle) (st : Store) (current : List (Bytes × Bytes)) :
    List (Bytes × Bytes) → List (Bytes × Bytes) → Option (List (Bytes × Bytes))
  | [], wd => some wd
  | (p, h) :: rest, wd =>
    let should := match alGet current p with
      | none => true
      | some ch => decide (ch ≠ h)
    if should then
      match read_object o st h with
      | none => none
      | some (t, content) =>
        if t = bs (r"blob") then applyWrites o st current rest (alSet wd p content)
        else applyWrites o st current rest wd
    else applyWrites o st current rest wd

/-- The delete loop of `update_working_directory`: remove every current file
whose path is not in the target set. -/
def applyDeletes (current target : List (Bytes × Bytes))
    (wd : List (Bytes × Bytes)) : List (Bytes × Bytes) :=
  current.foldl (fun w e => if alHasKey target e.1 then w else alDel w e.1) wd

/-- `commands/checkout.py update_working_directory`. -/
def update_working_directory (o : Oracle) (st : Store)
    (current target wd : List (Bytes × Bytes)) : Option (List (Bytes × Bytes)) :=
  match applyWrites o st current target wd with
  | none => none
  | some wd₂ => some (applyDeletes current target wd₂)

/-- `commands/checkout.py update_index`: the index rewritten in the LEGACY
two-field format `"<sha1> <path>\n"`, sorted by path. -/
def update_index_content (files : List (Bytes × Bytes)) : Bytes :=
  List.flatten ((sortByKey files).map fun e => e.2 ++ spaceChar :: e.1 ++ [nlChar])

/-- `commands/checkout.py perform_checkout` (`none` models `sys.exit(1)` on a
dirty tree and any raise; prints are not modelled). -/
def perform_checkout (o : Oracle) (r : Repo) (target : Bytes) (fuel : Nat) :
    Option Repo :=
  match is_clean o r fuel with
  | none => none
  | some false => none
  | some true =>
    match checkout_target_files o r target fuel with
    | none => none
    | some target_files =>
      match checkout_current_files o r fuel with
      | none => none
      | some current_files =>
        match update_working_directory o r.store current_files target_files r.workdir with
        | none => none
        | some wd₂ =>
          some { r with
                 workdir := wd₂
                 indexFile := some (update_index_content target_files)
                 headFile := some (bs (r"ref: refs/heads/") ++ target ++ [nlChar]) }

/-- Scenario S1, step 0: the hand-initialized state over a directory holding
`a.txt` = `"hi"` (`init` itself exits 1 without creating it; see C1). -/
def s1_r0 : Repo := hand_init [(bs (r"a.txt"), bs (r"hi"))]

def s1_blob_data : Bytes := objHeader (bs (r"blob")) (bs (r"hi")) ++ bs (r"hi")

def s1_blob_hash (o : Oracle) : Bytes := o.hashFn s1_blob_data

def s1_index (o : Oracle) (mtime : Nat) : List (Bytes × (Bytes × Nat × Nat)) :=
  [(bs (r"a.txt"), (s1_blob_hash o, mtime, 2))]

/-- Scenario S1 after `add a.txt`. -/
def s1_r1 (o : Oracle) (mtime : Nat) : Repo :=
  { s1_r0 with
    store := [(s1_blob_hash o, o.comp s1_blob_data)]
    indexFile := some (write_index_content (s1_index o mtime)) }

def s1_tree_content (o : Oracle) : Bytes :=
  entryLine (bs (r"100644")) (bs (r"blob")) (s1_blob_hash o) (bs (r"a.txt"))

def s1_tree_data (o : Oracle) : Bytes :=
  objHeader (bs (r"tree")) (s1_tree_content o) ++ s1_tree_content o

def s1_tree_hash (o : Oracle) : Bytes := o.hashFn (s1_tree_data o)

def s1_author (ts : Nat) (tz : Bytes) : Bytes :=
  bs (r"u") ++ bs (r" <") ++ bs (r"u@x") ++ bs (r"> ") ++ natToDec ts ++ spaceChar :: tz

def s1_commit_content (o : Oracle) (ts : Nat) (tz : Bytes) : Bytes :=
  commitContent (s1_tree_hash o) (bs (r"author ") ++ s1_author ts tz)
    (bs (r"committer ") ++ s1_author ts tz) (bs (r"m"))

def s1_commit_data (o : Oracle) (ts : Nat) (tz : Bytes) : Bytes :=
  objHeader (bs (r"commit")) (s1_commit_content o ts tz) ++ s1_commit_content o ts tz

def s1_commit_hash (o : Oracle) (ts : Nat) (tz : Bytes) : Bytes :=
  o.hashFn (s1_commit_data o ts tz)

/-- Scenario S1 after `commit -m "m"`. -/
def s1_r2 (o : Oracle) (mtime ts : Nat) (tz : Bytes) : Repo :=
  { s1_r1 o mtime with
    store := [(s1_commit_hash o ts tz, o.comp (s1_commit_data o ts tz)),
      (s1_tree_hash o, o.comp (s1_tree_data o)),
      (s1_blob_hash o, o.comp s1_blob_data)]
    branches := [(bs (r"master"), s1_commit_hash o ts tz ++ [nlChar])] }

/-- The clean-tree predicate as the SPEC states it (for comparison with the
code's `is_clean`): the HEAD tree equals the index read in the current
on-disk format (`utils/index.py read_index`), every indexed path's
working-file hash equals its indexed hash, and no indexed path is missing
on disk. -/
def spec_clean (o : Oracle) (r : Repo) (fuel : Nat) : Option Bool :=
  match checkout_current_files o r fuel with
  | none => none
  | some head_files =>
    let index_files := hashes_of (read_index r.indexFile)
    if !(dictEq head_files index_files) then some false
    else if index_files.any (fun e =>
        match alGet r.workdir e.1 with
        | some content =>
          decide ((hash_object o r.store content (bs (r"blob")) false).2 ≠ e.2)
        | none => true) then some false
    else some true

/-- A post-`init` repository with a second (empty) branch `dev` for the C10
witness. -/
def witC10Repo : Repo :=
  { store := [], headFile := some (bs (r"ref: refs/heads/master") ++ [nlChar]),
    branches := [(bs (r"master"), []), (bs (r"dev"), [])], indexFile := none,
    workdir := [], config := some (bs (r"u"), bs (r"u@x")), mergeHead := none,
    stashLog := none }

/-- The index writer at the end of `merge.py _perform_three_way_merge` (and
of `_stage_file_version` and `_remove_file`): `f"{hash_val} {path}\n"` per
sorted entry — the legacy two-field format. -/
def merge_write_index (files : List (Bytes × Bytes)) : Bytes :=
  List.flatten ((sortByKey files).map fun e => e.2 ++ spaceChar :: e.1 ++ [nlChar])

/-- `merge.py _get_commit_parents`: the `parent` lines of a commit object
(`line.split(' ')[1]`); the bare `except` turns any raise into `[]`. -/
def get_commit_parents (o : Oracle) (st : Store) (commit_hash : Bytes) : List Bytes :=
  match read_object o st commit_hash with
  | none => []
  | some (t, content) =>
    if t = bs (r"commit") then
      ((pySplitLines content).filter fun line =>
        pyStartsWith (bs (r"parent ")) line).map
        fun line => ((pySplitChar spaceChar line).drop 1).headD []
    else []

/-- The result strings of `merge.py _merge_file`. -/
inductive MergeRes where
  | unchanged
  | added
  | deleted
  | modified
  | conflict
  deriving DecidableEq

/-- `merge.py _stage_file_version`: re-read the index with the legacy loop
(identical to `checkout.load_index`), set the entry, write the blob into the
working directory (non-blob objects are skipped), and rewrite the index in
the legacy two-field format.  `none` models a raise. -/
def stage_file_version (o : Oracle) (r : Repo) (p blob_hash : Bytes) : Option Repo :=
  match load_index r.indexFile with
  | none => none
  | some idx =>
    match read_object o r.store blob_hash with
    | none => none
    | some (t, content) =>
      some { r with
             workdir := if t = bs (r"blob") then alSet r.workdir p content
               else r.workdir
             indexFile := some (merge_write_index (alSet idx p blob_hash)) }

/-- `merge.py _remove_file`: re-read the index (legacy loop), drop the entry
if present, remove the working file if present, rewrite the index (legacy
format). -/
def remove_file (r : Repo) (p : Bytes) : Option Repo :=
  match load_index r.indexFile with
  | none => none
  | some idx =>
    some { r with
           workdir := alDel r.workdir p
           indexFile := some (merge_write_index (alDel idx p)) }

/-- `merge.py _merge_file`: the five-case three-way decision table on the
per-path hashes from the ancestor, HEAD and merge commits. -/
def merge_file (o : Oracle) (r : Repo) (p : Bytes) (aH hH mH : Option Bytes) :
    Option (MergeRes × Repo) :=
  if hH = mH then some (MergeRes.unchanged, r)
  else if hH = none ∧ mH = none then some (MergeRes.unchanged, r)
  else if hH = aH then
    match mH with
    | some mh =>
      match stage_file_version o r p mh with
      | none => none
      | some r₂ =>
        some (if aH = none then MergeRes.added else MergeRes.modified, r₂)
    | none =>
      match remove_file r p with
      | none => none
      | some r₂ => some (MergeRes.deleted, r₂)
  else if mH = aH then
    match hH with
    | some hh =>
      match stage_file_version o r p hh with
      | none => none
      | some r₂ => some (MergeRes.unchanged, r₂)
    | none =>
      match remove_file r p with
      | none => none
      | some r₂ => some (MergeRes.unchanged, r₂)
  else if hH ≠ mH then some (MergeRes.conflict, r)
  else some (MergeRes.unchanged, r)

/-- One side of `merge.py _create_conflict_file`: the blob's text when the
hash is truthy and readable as a blob, the placeholder line when the hash is
falsy, nothing when the object is not a blob; `none` models a raise. -/
def conflict_side (o : Oracle) (st : Store) (h : Option Bytes) (missing : Bytes) :
    Option (List Bytes) :=
  match h with
  | none => some [missing]
  | some hh =>
    if hh = [] then some [missing]
    else
      match read_object o st hh with
      | none => none
      | some (t, content) =>
        if t = bs (r"blob") then some [content] else some []

/-- `merge.py _create_conflict_file`: write the newline-joined marker file
(`<<<<<<< HEAD`, HEAD side, `=======`, merge side, `>>>>>>> <path>`) into
the working directory. -/
def create_conflict_file (o : Oracle) (r : Repo) (p : Bytes) (hH mH : Option Bytes) :
    Option Repo :=
  match conflict_side o r.store hH (bs (r"(file does not exist in HEAD)")) with
  | none => none
  | some headPart =>
    match conflict_side o r.store mH (bs (r"(file does not exist in merge branch)")) with
    | none => none
    | some mergePart =>
      some { r with workdir := alSet r.workdir p (pyJoin [nlChar]
        ((bs (r"<<<<<<< HEAD") :: headPart) ++
          bs (r"=======") :: mergePart ++ [bs (r">>>>>>> ") ++ p])) }

/-- Uniqueness of Python `set(...)` membership, order-irrelevant because the
result is sorted afterwards. -/
def dedupPaths : List Bytes → List Bytes
  | [] => []
  | p :: rest => if p ∈ rest then dedupPaths rest else p :: dedupPaths rest

/-- `sorted(set(ancestor) | set(head) | set(merge))` on path lists. -/
def sortedPaths (ps : List Bytes) : List Bytes :=
  (sortByKey ((dedupPaths ps).map fun q => (q, ()))).map Prod.fst

/-- The per-path loop of `_perform_three_way_merge`: merge each file,
collect conflicting paths, write each conflict's marker file (prints are
not modelled). -/
def mergeFilesLoop (o : Oracle) (fA fH fM : List (Bytes × Bytes)) :
    List Bytes → List Bytes → Repo → Option (List Bytes × Repo)
  | [], conflicts, r => some (conflicts, r)
  | p :: rest, conflicts, r =>
    match merge_file o r p (alGet fA p) (alGet fH p) (alGet fM p) with
    | none => none
    | some (res, r₂) =>
      if res = MergeRes.conflict then
        match create_conflict_file o r₂ p (alGet fH p) (alGet fM p) with
        | none => none
        | some r₃ => mergeFilesLoop o fA fH fM rest (conflicts ++ [p]) r₃
      else mergeFilesLoop o fA fH fM rest conflicts r₂

/-- `merge.py _perform_three_way_merge`: the three commit file sets, the
(staleness-prone) snapshot of the index, the per-path loop, and - only when
no path conflicted - the final legacy-format index write from the snapshot.
`false` is the conflicts return. -/
def perform_three_way_merge (o : Oracle) (r : Repo) (fuel : Nat)
    (ancestor_hash head_hash mrg_hash : Bytes) : Option (Bool × Repo) :=
  match get_commit_files o r.store fuel (some ancestor_hash) with
  | none => none
  | some ancestor_files =>
    match get_commit_files o r.store fuel (some head_hash) with
    | none => none
    | some head_files =>
      match get_commit_files o r.store fuel (some mrg_hash) with
      | none => none
      | some merge_files =>
        match load_index r.indexFile with
        | none => none
        | some current_index =>
          match mergeFilesLoop o ancestor_files head_files merge_files
              (sortedPaths (ancestor_files.map Prod.fst ++
                head_files.map Prod.fst ++ merge_files.map Prod.fst)) [] r with
          | none => none
          | some (conflicts, r₂) =>
            if conflicts ≠ [] then some (false, r₂)
            else some (true,
              { r₂ with indexFile := some (merge_write_index current_index) })

/-- The tail of `merge.py run` once the common ancestor is in hand: a failed
three-way merge prints and exits 1 without creating a commit (`(none, r₂)`);
a successful one creates the merge commit with both parents (`(some ch, r₃)`).
The outer `none` models a raise (caught, also exit 1). -/
def merge_run_tail (o : Oracle) (r : Repo) (fuel : Nat)
    (ancestor headc mergec branch_to_merge current_branch : Bytes)
    (ts : Nat) (tz : Bytes) (tfuel : Nat) : Option (Option Bytes × Repo) :=
  match perform_three_way_merge o r fuel ancestor headc mergec with
  | none => none
  | some (false, r₂) => some (none, r₂)
  | some (true, r₂) =>
    match create_commit o r₂ (bs (r"Merge branch ") ++ Char.ofNat 39 ::
        (branch_to_merge ++ Char.ofNat 39 :: (bs (r" into ") ++ current_branch)))
        [headc, mergec] ts tz tfuel with
    | none => none
    | some (r₃, ch) => some (some ch, r₃)

/-- A literal store for the merge witness (codec `id`, as `witOracle` has):
an ancestor commit with no tree line, head and merge commits whose trees
bind `a.txt` to different blobs. -/
def witMergeStore : Store :=
  [(bs (r"ca"), bs (r"commit 0") ++ [nullChar]),
   (bs (r"chh"), bs (r"commit 0") ++ nullChar :: bs (r"tree t1")),
   (bs (r"cmm"), bs (r"commit 0") ++ nullChar :: bs (r"tree t2")),
   (bs (r"t1"), bs (r"tree 0") ++ nullChar :: bs (r"100644 blob b1 a.txt")),
   (bs (r"t2"), bs (r"tree 0") ++ nullChar :: bs (r"100644 blob b2 a.txt")),
   (bs (r"b1"), bs (r"blob 0") ++ nullChar :: bs (r"one")),
   (bs (r"b2"), bs (r"blob 0") ++ nullChar :: bs (r"two"))]

/-- The repository around `witMergeStore`: `master` at the head commit, `dev`
at the merge commit, no index file, no `MERGE_HEAD`. -/
def witMergeRepo : Repo :=
  { store := witMergeStore
    headFile := some (bs (r"ref: refs/heads/master") ++ [nlChar])
    branches := [(bs (r"master"), bs (r"chh") ++ [nlChar]),
      (bs (r"dev"), bs (r"cmm") ++ [nlChar])]
    indexFile := none
    workdir := [(bs (r"a.txt"), bs (r"one"))]
    config := some (bs (r"u"), bs (r"u@x"))
    mergeHead := none
    stashLog := none }

/-- Modelled from the spec: `objects.build_tree_from_dict`, which `stash.py`
calls but `utils/objects.py` never defines.  The spec says a stash commit's
tree is "the tree of the current index" (resp. the working directory), so
the model performs the same nested-dictionary insertion `build_tree_from_index`
performs, from the in-memory `{path: (hash, mtime, size)}` dictionary.  The
entry loop: -/
def buildDictEntries : List (Bytes × (Bytes × Nat × Nat)) → List (Bytes × PyTree) →
    Option (List (Bytes × PyTree))
  | [], acc => some acc
  | (p, data) :: rest, acc =>
    match insertTreePath acc (pySplitChar slashChar p) data.1 with
    | none => none
    | some acc₂ => buildDictEntries rest acc₂

/-- Modelled from the spec: see `buildDictEntries`. -/
def build_tree_from_dict (d : List (Bytes × (Bytes × Nat × Nat))) :
    Option (List (Bytes × PyTree)) :=
  buildDictEntries d []

/-- `utils/diff.py compare_states` on `{path: hash}` dictionaries:
`(added, deleted, modified)`, each sorted. -/
def sortPathList (l : List Bytes) : List Bytes :=
  (sortByKey (l.map fun q => (q, ()))).map Prod.fst

def compare_states (s1 s2 : List (Bytes × Bytes)) :
    List Bytes × List Bytes × List Bytes :=
  (sortPathList ((s2.map Prod.fst).filter fun q => !alHasKey s1 q),
   sortPathList ((s1.map Prod.fst).filter fun q => !alHasKey s2 q),
   sortPathList (((s1.map Prod.fst).filter fun q => alHasKey s2 q).filter
     fun q => decide (alGet s1 q ≠ alGet s2 q)))

/-- `stash.py _create_stash_commit`: author from the config with the
`'Pit User' <pit@example.com>` fallbacks, commit text from tree, parents,
author/committer and message, persisted with `hash_object`. -/
def create_stash_commit (o : Oracle) (st : Store) (tree_hash : Bytes)
    (parents : List Bytes) (message : Bytes) (cfg : Option (Bytes × Bytes))
    (ts : Nat) (tz : Bytes) : Store × Bytes :=
  let un := match cfg with | none => [] | some c => c.1
  let ue := match cfg with | none => [] | some c => c.2
  let author := (if un = [] then bs (r"Pit User") else un) ++ bs (r" <") ++
    (if ue = [] then bs (r"pit@example.com") else ue) ++ bs (r"> ") ++
    natToDec ts ++ spaceChar :: tz
  hash_object o st (pyJoin [nlChar] ((bs (r"tree ") ++ tree_hash) ::
    parents.map (fun q => bs (r"parent ") ++ q) ++
    [bs (r"author ") ++ author, bs (r"committer ") ++ author, [], message]))
    (bs (r"commit")) true

/-- The `os.walk` capture loop of `stash.py push`: walk the working files,
skip ignored and neither-tracked-nor-staged paths, hash-and-persist each
blob and record it with its disk stats (`mtimeOf`/`sizeOf` stand for
`os.stat`). -/
def stashScan (o : Oracle) (tracked staged : List Bytes)
    (mtimeOf sizeOf : Bytes → Nat) :
    List (Bytes × Bytes) → Store → List (Bytes × (Bytes × Nat × Nat)) →
      Store × List (Bytes × (Bytes × Nat × Nat))
  | [], st, wi => (st, wi)
  | (p, content) :: rest, st, wi =>
    if is_ignored_default p then stashScan o tracked staged mtimeOf sizeOf rest st wi
    else if p ∈ tracked ∨ p ∈ staged then
      let hw := hash_object o st content (bs (r"blob")) true
      stashScan o tracked staged mtimeOf sizeOf rest hw.1
        (alSet wi p (hw.2, mtimeOf p, sizeOf p))
    else stashScan o tracked staged mtimeOf sizeOf rest st wi

/-- The HEAD-restore loop shared by `stash.py push` (reset step) and `pop`
(workdir restore): write each entry's object content into the working
directory; a missing object raises (`none`). -/
def restoreFiles (o : Oracle) (st : Store) :
    List (Bytes × Bytes) → List (Bytes × Bytes) → Option (List (Bytes × Bytes))
  | [], wd => some wd
  | (p, h) :: rest, wd =>
    match read_object o st h with
    | none => none
    | some (_, content) => restoreFiles o st rest (alSet wd p content)

/-- The index content `stash.py push` writes while resetting to HEAD:
`f"{hash_val} 0 0 {path}\n"` per sorted HEAD entry. -/
def reset_index_content (files : List (Bytes × Bytes)) : Bytes :=
  List.flatten ((sortByKey files).map fun e =>
    e.2 ++ spaceChar :: (bs (r"0 0 ") ++ e.1) ++ [nlChar])

/-- The index content `stash.py pop` writes: per sorted index-parent entry,
disk stats when the stashed workdir hash matches and the file exists, zeros
otherwise. -/
def pop_index_content (index_files workdir_files wd : List (Bytes × Bytes))
    (mtimeOf sizeOf : Bytes → Nat) : Bytes :=
  List.flatten ((sortByKey index_files).map fun e =>
    (if alGet workdir_files e.1 = some e.2 ∧ alHasKey wd e.1 then
      index_line e.2 (mtimeOf e.1) (sizeOf e.1) e.1
    else index_line e.2 0 0 e.1) ++ [nlChar])

/-- `stash.py push` (`objects.read_index` does not exist in
`utils/objects.py`; it is modelled from the spec as the central index
reader `utils/index.py read_index`, and `objects.build_tree_from_dict` as
`build_tree_from_dict` above).  `args.message` is `argmsg`; `none` models a
raise. -/
def stash_push (o : Oracle) (r : Repo) (fuel tfuel ts : Nat) (tz : Bytes)
    (mtimeOf sizeOf : Bytes → Nat) (argmsg : Option Bytes) : Option Repo :=
  let headTruthy : Option Bytes := match get_head_commit r with
    | some h => if h = [] then none else some h
    | none => none
  let index_files := read_index r.indexFile
  match build_tree_from_dict index_files with
  | none => none
  | some tree_dict_idx =>
    let w1 := write_tree o tfuel r.store tree_dict_idx
    let idx_parents := match headTruthy with | some h => [h] | none => []
    let branchStr := match get_current_branch r with
      | some b => b
      | none => bs (r"None")
    let head7 := match headTruthy with
      | some h => h.take 7
      | none => bs (r"initial")
    let c1 := create_stash_commit o w1.1 w1.2 idx_parents
      (bs (r"index on ") ++ branchStr ++ bs (r": ") ++ head7) r.config ts tz
    match (match headTruthy with
           | some h => get_commit_files o c1.1 fuel (some h)
           | none => some []) with
    | none => none
    | some head_files =>
      let scan := stashScan o (head_files.map Prod.fst) (index_files.map Prod.fst)
        mtimeOf sizeOf r.workdir c1.1 index_files
      let workdir_index := scan.2.filter fun e => alHasKey r.workdir e.1
      match build_tree_from_dict workdir_index with
      | none => none
      | some tree_dict_wd =>
        let w2 := write_tree o tfuel scan.1 tree_dict_wd
        let msg := match argmsg with
          | some m => if m = [] then bs (r"WIP on ") ++ branchStr ++ bs (r": ") ++ head7
            else m
          | none => bs (r"WIP on ") ++ branchStr ++ bs (r": ") ++ head7
        let c2 := create_stash_commit o w2.1 w2.2 (idx_parents ++ [c1.2]) msg
          r.config ts tz
        let newLog := some ((match r.stashLog with | none => [] | some l => l) ++
          c2.2 ++ [nlChar])
        match headTruthy with
        | none => some { r with store := c2.1, stashLog := newLog }
        | some _ =>
          match restoreFiles o c2.1 head_files r.workdir with
          | none => none
          | some wd₁ =>
            some { r with
                   store := c2.1
                   indexFile := some (reset_index_content head_files)
                   workdir := workdir_index.foldl (fun w e =>
                     if alHasKey head_files e.1 then w else alDel w e.1) wd₁
                   stashLog := newLog }

/-- `stash.py _is_clean` (it too calls the missing `objects.read_index`,
modelled from the spec as the central reader): HEAD-vs-index then
index-vs-workdir via `compare_states`. -/
def stash_is_clean (o : Oracle) (r : Repo) (fuel : Nat) : Option Bool :=
  match (match get_head_commit r with
         | some h => if h = [] then some [] else get_commit_files o r.store fuel (some h)
         | none => some []) with
  | none => none
  | some files1 =>
    let files2 := hashes_of (read_index r.indexFile)
    let staged := compare_states files1 files2
    if staged.1 ≠ [] ∨ staged.2.1 ≠ [] ∨ staged.2.2 ≠ [] then some false
    else
      let working := (r.workdir.filter fun e => !is_ignored_default e.1).map
        fun e => (e.1, (hash_object o r.store e.2 (bs (r"blob")) false).2)
      let unstaged := compare_states files2 working
      if unstaged.2.2 ≠ [] ∨ unstaged.2.1 ≠ [] then some false
      else some true

/-- `stash.py pop`: absent or empty stack returns unchanged; a dirty tree
prints and returns unchanged; otherwise restore the stashed working
directory, rebuild the index from the second parent's tree and drop the
stack entry. -/
def stash_pop (o : Oracle) (r : Repo) (fuel : Nat)
    (mtimeOf sizeOf : Bytes → Nat) : Option Repo :=
  match r.stashLog with
  | none => some r
  | some log =>
    let lines := pySplitLines log
    if lines = [] then some r
    else
      let stash_hash := lines.getLastD []
      match stash_is_clean o r fuel with
      | none => none
      | some false => some r
      | some true =>
        match read_object o r.store stash_hash with
        | none => none
        | some (_, content) =>
          let parents := ((pySplitLines content).filter fun line =>
            pyStartsWith (bs (r"parent ")) line).map fun line =>
              ((pySplitChar spaceChar line).drop 1).headD []
          let index_parent := if parents.length < 2 then none
            else some (parents.getD 1 [])
          match get_commit_files o r.store fuel (some stash_hash) with
          | none => none
          | some workdir_files =>
            match restoreFiles o r.store workdir_files r.workdir with
            | none => none
            | some wd₂ =>
              match (match index_parent with
                     | none => some r.indexFile
                     | some ip =>
                       if ip = [] then some r.indexFile
                       else
                         match get_commit_files o r.store fuel (some ip) with
                         | none => none
                         | some index_files =>
                           some (some (pop_index_content index_files workdir_files
                             wd₂ mtimeOf sizeOf))) with
              | none => none
              | some newIndex =>
                some { r with
                       workdir := wd₂
                       indexFile := newIndex
                       stashLog := some (pyJoin [nlChar] lines.dropLast ++
                         (if lines.dropLast ≠ [] then [nlChar] else [])) }

/-- The witness repository for C8: fresh `init`-style HEAD (empty `master`
ref), one staged file recorded in the current index format, present in the
working directory, nothing stashed. -/
def witStashRepo : Repo :=
  { store := []
    headFile := some (bs (r"ref: refs/heads/master") ++ [nlChar])
    branches := [(bs (r"master"), [])]
    indexFile := some (bs (r"hb 5 3 b.txt") ++ [nlChar])
    workdir := [(bs (r"b.txt"), bs (r"new"))]
    config := some (bs (r"u"), bs (r"u@x"))
    mergeHead := none
    stashLog := none }


theorem alGet_cons_self {α : Type} (k : Bytes) (v : α) (st : List (Bytes × α)) :
    alGet ((k, v) :: st) k = some v := by
  simp [alGet]

theorem take_len_append {α : Type} (l₁ l₂ : List α) : (l₁ ++ l₂).take l₁.length = l₁ := by
  induction l₁ with
  | nil => simp
  | cons a r ih => simp [ih]

theorem drop_len_succ_append {α : Type} (l₁ : List α) (x : α) (l₂ : List α) :
    (l₁ ++ x :: l₂).drop (l₁.length + 1) = l₂ := by
  induction l₁ with
  | nil => simp
  | cons a r ih => simp [ih]

theorem pyFindChar_append (t : Char) (l₁ l₂ : Bytes) (h : ∀ c ∈ l₁, c ≠ t) :
    pyFindChar t (l₁ ++ t :: l₂) = some l₁.length := by
  induction l₁ with
  | nil => simp [pyFindChar]
  | cons c rest ih =>
    have hc : c ≠ t := h c (by simp)
    simp [pyFindChar, hc, ih (fun x hx => h x (by simp [hx]))]

theorem pySplitChar_ne_nil (sep : Char) (l : Bytes) : pySplitChar sep l ≠ [] := by
  cases l with
  | nil => simp [pySplitChar]
  | cons c rest =>
    simp only [pySplitChar]
    split
    · simp
    · split <;> simp

theorem pySplitChar_no_sep (sep : Char) (l : Bytes) (h : ∀ c ∈ l, c ≠ sep) :
    pySplitChar sep l = [l] := by
  induction l with
  | nil => rfl
  | cons c rest ih =>
    have hc : c ≠ sep := h c (by simp)
    have hrest := ih (fun x hx => h x (by simp [hx]))
    simp [pySplitChar, hc, hrest]

theorem pySplitChar_append_sep (sep : Char) (l₁ l₂ : Bytes) (h : ∀ c ∈ l₁, c ≠ sep) :
    pySplitChar sep (l₁ ++ sep :: l₂) = l₁ :: pySplitChar sep l₂ := by
  induction l₁ with
  | nil => simp [pySplitChar]
  | cons c rest ih =>
    have hc : c ≠ sep := h c (by simp)
    have hrest := ih (fun x hx => h x (by simp [hx]))
    simp only [List.cons_append, pySplitChar, if_neg hc]
    rw [show rest.append (sep :: l₂) = rest ++ sep :: l₂ from rfl, hrest]

theorem char_digit_range (m : Nat) (h : m < 10) :
    48 ≤ (Char.ofNat (48 + m)).toNat ∧ (Char.ofNat (48 + m)).toNat ≤ 57 := by
  interval_cases m <;> decide

theorem natToDec_digit (n : Nat) : ∀ c ∈ natToDec n, 48 ≤ c.toNat ∧ c.toNat ≤ 57 := by
  induction n using Nat.strong_induction_on with
  | _ n ih =>
    rw [natToDec]
    split
    · next h =>
      intro c hc
      simp only [List.mem_singleton] at hc
      subst hc
      exact char_digit_range n h
    · next h =>
      intro c hc
      rcases List.mem_append.mp hc with h1 | h2
      · exact ih (n / 10) (Nat.div_lt_self (by omega) (by omega)) c h1
      · simp only [List.mem_singleton] at h2
        subst h2
        exact char_digit_range (n % 10) (Nat.mod_lt _ (by omega))

theorem digit_char_props (c : Char) (h48 : 48 ≤ c.toNat) (h57 : c.toNat ≤ 57) :
    isPySpace c = false ∧ c ≠ nullChar ∧ c ≠ spaceChar ∧ c ≠ tabChar ∧
      c ≠ nlChar ∧ c ≠ slashChar := by
  refine ⟨?_, ?_, ?_, ?_, ?_, ?_⟩
  · simp only [isPySpace, Bool.or_eq_false_iff, decide_eq_false_iff_not]
    omega
  all_goals
    intro he
    subst he
    revert h48 h57
    decide

/-- Reading the most recent store entry when its data has the shape
`<kind> <digits>\0<payload>` with a whitespace-free kind and digits. -/
theorem read_object_cons_wf (o : Oracle) (st : Store) (hsh k dig x : Bytes)
    (hz : zlibFaithful o)
    (hknn : ∀ c ∈ k, c ≠ nullChar ∧ c ≠ spaceChar)
    (hdignn : ∀ c ∈ dig, c ≠ nullChar ∧ c ≠ spaceChar) :
    read_object o ((hsh, o.comp ((k ++ spaceChar :: dig) ++ nullChar :: x)) :: st)
      hsh = some (k, x) := by
  have hprenn : ∀ c ∈ k ++ spaceChar :: dig, c ≠ nullChar := by
    intro c hc
    rcases List.mem_append.mp hc with h1 | h2
    · exact (hknn c h1).1
    · rcases List.mem_cons.mp h2 with h3 | h4
      · subst h3; decide
      · exact (hdignn c h4).1
  have hd := hz ((k ++ spaceChar :: dig) ++ nullChar :: x)
  simp only [read_object, alGet_cons_self, hd]
  rw [pyFindChar_append _ _ _ hprenn]
  simp only [take_len_append, drop_len_succ_append]
  rw [pySplitChar_append_sep _ _ _ (fun c hc => (hknn c hc).2),
    pySplitChar_no_sep _ _ (fun c hc => (hdignn c hc).2)]

/-- C4: reading back a persisted object returns exactly the kind and payload
that were hashed, including when the payload contains null bytes.  The only
assumptions are that the kind is one of the three object kinds and that the
compression codec is lossless (true of zlib). -/
theorem read_after_write_roundtrip (o : Oracle) (st : Store) (x k : Bytes)
    (hz : zlibFaithful o)
    (hk : k = bs (r"blob") ∨ k = bs (r"tree") ∨ k = bs (r"commit")) :
    read_object o (hash_object o st x k true).1 (hash_object o st x k true).2 =
      some (k, x) := by
  have hknn : ∀ c ∈ k, c ≠ nullChar ∧ c ≠ spaceChar := by
    rcases hk with h | h | h <;> subst h <;> decide
  have hdig := natToDec_digit x.length
  have hdignn : ∀ c ∈ natToDec x.length, c ≠ nullChar ∧ c ≠ spaceChar := by
    intro c hc
    have := digit_char_props c (hdig c hc).1 (hdig c hc).2
    exact ⟨this.2.1, this.2.2.1⟩
  have hdata : objHeader k x ++ x =
      (k ++ spaceChar :: natToDec x.length) ++ nullChar :: x := by
    simp [objHeader, List.append_assoc]
  have h1 : (hash_object o st x k true).1 =
      (o.hashFn ((k ++ spaceChar :: natToDec x.length) ++ nullChar :: x),
        o.comp ((k ++ spaceChar :: natToDec x.length) ++ nullChar :: x)) :: st := by
    simp only [hash_object, hdata, if_true]
  have h2 : (hash_object o st x k true).2 =
      o.hashFn ((k ++ spaceChar :: natToDec x.length) ++ nullChar :: x) := by
    simp only [hash_object, hdata]
  rw [h1, h2]
  exact read_object_cons_wf o st _ k (natToDec x.length) x hz hknn hdignn

/-- Witness for C4 at a concrete payload containing a null byte, with the
identity codec standing in for zlib. -/
theorem read_after_write_roundtrip_wit :
    zlibFaithful witOracle ∧
      read_object witOracle
          (hash_object witOracle [] [nullChar, Char.ofNat 104] (bs (r"blob")) true).1
          (hash_object witOracle [] [nullChar, Char.ofNat 104] (bs (r"blob")) true).2 =
        some (bs (r"blob"), [nullChar, Char.ofNat 104]) :=
  ⟨fun _ => rfl,
    read_after_write_roundtrip witOracle [] [nullChar, Char.ofNat 104] (bs (r"blob"))
      (fun _ => rfl) (Or.inl rfl)⟩

section AssocLemmas

variable {κ α : Type} [DecidableEq κ]

theorem alGet_alSet (l : List (κ × α)) (k : κ) (v : α) (q : κ) :
    alGet (alSet l k v) q = if k = q then some v else alGet l q := by
  induction l with
  | nil => by_cases h : k = q <;> simp [alSet, alGet, h]
  | cons p rest ih =>
    obtain ⟨k', v'⟩ := p
    by_cases h1 : k' = k
    · subst h1
      by_cases h2 : k' = q <;> simp [alSet, alGet, h2, ih]
    · by_cases h2 : k' = q
      · subst h2
        have : ¬ k = k' := fun he => h1 he.symm
        simp [alSet, alGet, h1, this]
      · simp [alSet, alGet, h1, h2, ih]

theorem alGet_append (l₁ l₂ : List (κ × α)) (q : κ) :
    alGet (l₁ ++ l₂) q =
      match alGet l₁ q with
      | some v => some v
      | none => alGet l₂ q := by
  induction l₁ with
  | nil => simp [alGet]
  | cons p rest ih =>
    obtain ⟨k', v'⟩ := p
    by_cases h : k' = q <;> simp [alGet, h, ih]

theorem alGet_eq_none_of_not_mem_keys (l : List (κ × α)) (q : κ)
    (h : q ∉ l.map Prod.fst) : alGet l q = none := by
  induction l with
  | nil => rfl
  | cons p rest ih =>
    obtain ⟨k', v'⟩ := p
    simp only [List.map_cons, List.mem_cons] at h
    push_neg at h
    have hne : ¬ k' = q := fun he => h.1 he.symm
    simp [alGet, hne, ih h.2]

theorem alGet_mem (l : List (κ × α)) (q : κ) (v : α) (h : alGet l q = some v) :
    (q, v) ∈ l := by
  induction l with
  | nil => simp [alGet] at h
  | cons p rest ih =>
    obtain ⟨k', v'⟩ := p
    by_cases hk : k' = q
    · subst hk
      have hv : v' = v := by simpa [alGet] using h
      subst hv
      simp
    · simp only [alGet, if_neg hk] at h
      exact List.mem_cons_of_mem _ (ih h)

theorem mem_of_alGet_isSome (l : List (κ × α)) (q : κ) (h : (alGet l q).isSome) :
    q ∈ l.map Prod.fst := by
  rcases ho : alGet l q with _ | v
  · rw [ho] at h; simp at h
  · exact List.mem_map.mpr ⟨(q, v), alGet_mem l q v ho, rfl⟩

end AssocLemmas

theorem insertSorted_perm {α : Type} (x : Bytes × α) (l : List (Bytes × α)) :
    List.Perm (insertSorted x l) (x :: l) := by
  induction l with
  | nil => simp [insertSorted]
  | cons y rest ih =>
    simp only [insertSorted]
    split
    · exact ((ih.cons y).trans (List.Perm.swap x y rest)).symm.symm
    · exact List.Perm.refl _

theorem sortByKey_perm {α : Type} (l : List (Bytes × α)) :
    List.Perm (sortByKey l) l := by
  have key : ∀ (l acc : List (Bytes × α)),
      List.Perm (l.foldl (fun acc x => insertSorted x acc) acc) (l ++ acc) := by
    intro l
    induction l with
    | nil => intro acc; simp
    | cons x rest ih =>
      intro acc
      have h1 : List.Perm (rest.foldl (fun acc x => insertSorted x acc) (insertSorted x acc))
          (rest ++ insertSorted x acc) := ih (insertSorted x acc)
      have h2 : List.Perm (rest ++ insertSorted x acc) (rest ++ x :: acc) :=
        List.Perm.append_left rest (insertSorted_perm x acc)
      have h3 : List.Perm (rest ++ x :: acc) (x :: (rest ++ acc)) := List.perm_middle
      exact ((h1.trans h2).trans h3)
  simpa using key l []

theorem mem_sortByKey {α : Type} {x : Bytes × α} {l : List (Bytes × α)} :
    x ∈ sortByKey l ↔ x ∈ l :=
  (sortByKey_perm l).mem_iff

theorem pySplitOnce_append (sep : Char) (a b : Bytes) (h : ∀ c ∈ a, c ≠ sep) :
    pySplitOnce sep (a ++ sep :: b) = some (a, b) := by
  induction a with
  | nil => simp [pySplitOnce]
  | cons c rest ih =>
    have hc : c ≠ sep := h c (by simp)
    simp [pySplitOnce, hc, ih (fun x hx => h x (by simp [hx]))]

theorem pyJoin_pySplitChar (sep : Char) (l : Bytes) :
    pyJoin [sep] (pySplitChar sep l) = l := by
  induction l with
  | nil => rfl
  | cons c rest ih =>
    by_cases hc : c = sep
    · subst hc
      rcases hps : pySplitChar c rest with _ | ⟨r, rs⟩
      · exact absurd hps (pySplitChar_ne_nil c rest)
      · rw [hps] at ih
        simp [pySplitChar, pyJoin, hps, ih]
    · rcases hps : pySplitChar sep rest with _ | ⟨r, rs⟩
      · exact absurd hps (pySplitChar_ne_nil sep rest)
      · rw [hps] at ih
        cases rs with
        | nil => simp_all [pySplitChar, pyJoin, hps]
        | cons r₂ rs₂ => simp_all [pySplitChar, pyJoin, hps]

theorem pySplitChar_concatNl (ls : List Bytes)
    (h : ∀ e ∈ ls, ∀ c ∈ e, c ≠ nlChar) :
    pySplitChar nlChar (List.flatten (ls.map fun e => e ++ [nlChar])) = ls ++ [[]] := by
  induction ls with
  | nil => rfl
  | cons a rest ih =>
    have hshape : List.flatten ((a :: rest).map fun e => e ++ [nlChar]) =
        a ++ nlChar :: List.flatten (rest.map fun e => e ++ [nlChar]) := by
      simp
    rw [hshape, pySplitChar_append_sep nlChar a _ (h a (by simp)),
      ih fun e he => h e (by simp [he])]
    rfl

theorem pySplitLines_concatNl (ls : List Bytes)
    (h : ∀ e ∈ ls, ∀ c ∈ e, c ≠ nlChar) :
    pySplitLines (List.flatten (ls.map fun e => e ++ [nlChar])) = ls := by
  cases ls with
  | nil => rfl
  | cons a rest =>
    have hne : List.flatten ((a :: rest).map fun e => e ++ [nlChar]) ≠ [] := by
      simp
    rw [pySplitLines, if_neg (by simp),
      pySplitChar_concatNl _ h]
    rw [if_pos (List.getLast?_concat (a :: rest))]
    exact List.dropLast_concat

theorem dropWhile_cons_safe (c : Char) (xs : Bytes) (hc : isPySpace c = false) :
    (c :: xs).dropWhile isPySpace = c :: xs := by
  rw [List.dropWhile_cons, if_neg (by simp [hc])]

theorem pyLast_concat (l : Bytes) (a : Char) : pyLast (l ++ [a]) = a := by
  induction l with
  | nil => rfl
  | cons x t ih =>
    cases t with
    | nil => rfl
    | cons y u => exact ih

theorem pyLast_append_right (l₁ l₂ : Bytes) (h : l₂ ≠ []) :
    pyLast (l₁ ++ l₂) = pyLast l₂ := by
  rcases List.eq_nil_or_concat l₂ with rfl | ⟨l', a, rfl⟩
  · exact absurd rfl h
  · rw [List.concat_eq_append, ← List.append_assoc, pyLast_concat, pyLast_concat]

theorem headD_append_left (l₁ l₂ : Bytes) (d : Char) (h : l₁ ≠ []) :
    (l₁ ++ l₂).headD d = l₁.headD d := by
  cases l₁ with
  | nil => exact absurd rfl h
  | cons a t => rfl

theorem pyStrip_eq_self (l : Bytes) (h1 : isPySpace (l.headD nullChar) = false)
    (h2 : isPySpace (pyLast l) = false) : pyStrip l = l := by
  unfold pyStrip
  cases l with
  | nil => rfl
  | cons c xs =>
    rw [dropWhile_cons_safe c xs h1]
    rcases List.eq_nil_or_concat (c :: xs) with he | ⟨l', a, he⟩
    · simp at he
    · rw [List.concat_eq_append] at he
      rw [he] at h2 ⊢
      have ha : isPySpace a = false := by
        rw [pyLast_concat] at h2
        exact h2
      rw [List.reverse_append, List.reverse_singleton, List.singleton_append,
        dropWhile_cons_safe a _ ha]
      simp

theorem hashSafe_chars (h : Bytes) (hs : hashSafe h = true) :
    ∀ c ∈ h, isPySpace c = false ∧ c ≠ spaceChar ∧ c ≠ nlChar ∧ c ≠ tabChar ∧
      c ≠ nullChar := by
  intro c hc
  simp only [hashSafe, Bool.and_eq_true, List.all_eq_true] at hs
  have := hs.2 c hc
  simp only [Bool.and_eq_true, Bool.not_eq_true', decide_eq_true_eq] at this
  refine ⟨this.1.1, ?_, ?_, ?_, this.1.2⟩
  · intro he; subst he; revert this; decide
  · intro he; subst he; revert this; decide
  · intro he; subst he; revert this; decide

theorem hashSafe_ne_nil (h : Bytes) (hs : hashSafe h = true) : h ≠ [] := by
  simp only [hashSafe, Bool.and_eq_true, decide_eq_true_eq] at hs
  exact hs.1

theorem nameSafe_chars (n : Bytes) (hs : nameSafe n = true) :
    ∀ c ∈ n, c ≠ tabChar ∧ c ≠ nullChar ∧ c ≠ slashChar ∧ c ≠ nlChar := by
  intro c hc
  simp only [nameSafe, Bool.and_eq_true, List.all_eq_true] at hs
  have := hs.2 c hc
  simp only [Bool.and_eq_true, Bool.not_eq_true', decide_eq_true_eq] at this
  refine ⟨this.1.1.1, this.1.1.2, this.1.2, ?_⟩
  intro he; subst he; revert this; decide

theorem nameSafe_ne_nil (n : Bytes) (hs : nameSafe n = true) : n ≠ [] := by
  simp only [nameSafe, Bool.and_eq_true, decide_eq_true_eq] at hs
  exact hs.1

theorem natToDec_ne_space (n : Nat) : ∀ c ∈ natToDec n, c ≠ spaceChar := by
  intro c hc
  exact (digit_char_props c (natToDec_digit n c hc).1 (natToDec_digit n c hc).2).2.2.1

theorem pathWf_ne_nil (p : Bytes) (hp : pathWf p = true) : p ≠ [] := by
  intro he
  subst he
  revert hp
  decide

theorem pathWf_getLast (p : Bytes) (hp : pathWf p = true) :
    isPySpace (pyLast p) = false := by
  simp only [pathWf, Bool.and_eq_true, Bool.not_eq_true'] at hp
  exact hp.2

/-- Parsing one freshly written current-format index line recovers the hash
and the path exactly (also when the path contains spaces). -/
theorem parseIndexLineHash_index_line (h : Bytes) (m s : Nat) (p : Bytes)
    (hh : hashSafe h = true) (hp : pathWf p = true) :
    parseIndexLineHash (index_line h m s p) = some (h, p) := by
  have hhead : isPySpace ((index_line h m s p).headD nullChar) = false := by
    rw [index_line, headD_append_left _ _ _ (hashSafe_ne_nil h hh)]
    cases h with
    | nil => exact absurd rfl (hashSafe_ne_nil [] hh)
    | cons c t => exact (hashSafe_chars _ hh c (by simp)).1
  have hlast : isPySpace (pyLast (index_line h m s p)) = false := by
    rw [index_line]
    rw [show h ++ spaceChar :: (natToDec m ++ spaceChar :: (natToDec s ++ spaceChar :: p)) =
      (h ++ spaceChar :: (natToDec m ++ spaceChar :: (natToDec s ++ [spaceChar]))) ++ p by
        simp]
    rw [pyLast_append_right _ _ (pathWf_ne_nil p hp)]
    exact pathWf_getLast p hp
  have hstrip : pyStrip (index_line h m s p) = index_line h m s p :=
    pyStrip_eq_self _ hhead hlast
  have hsplit : pySplitChar spaceChar (index_line h m s p) =
      h :: natToDec m :: natToDec s :: pySplitChar spaceChar p := by
    rw [index_line,
      pySplitChar_append_sep spaceChar h _ (fun c hc => (hashSafe_chars h hh c hc).2.1),
      pySplitChar_append_sep spaceChar _ _ (natToDec_ne_space m),
      pySplitChar_append_sep spaceChar _ _ (natToDec_ne_space s)]
  have hplen : pySplitChar spaceChar p ≠ [] := pySplitChar_ne_nil spaceChar p
  rw [parseIndexLineHash]
  simp only [hstrip, hsplit]
  rw [if_pos (by
    rcases hq : pySplitChar spaceChar p with _ | ⟨q, qs⟩
    · exact absurd hq hplen
    · simp [List.length_cons])]
  simp [pyJoin_pySplitChar]

theorem treeNode_nil (cs : List (Bytes × PyTree)) : treeNode cs [] = none := rfl

theorem treeNode_single (cs : List (Bytes × PyTree)) (x : Bytes) :
    treeNode cs [x] = alGet cs x := rfl

theorem treeNode_cons₂ (cs : List (Bytes × PyTree)) (x y : Bytes) (rest : List Bytes) :
    treeNode cs (x :: y :: rest) =
      match alGet cs x with
      | some (PyTree.dir sub) => treeNode sub (y :: rest)
      | _ => none := rfl

theorem treeGet_congr {cs₁ cs₂ : List (Bytes × PyTree)} {q₁ q₂ : List Bytes}
    (h : treeNode cs₁ q₁ = treeNode cs₂ q₂) : treeGet cs₁ q₁ = treeGet cs₂ q₂ := by
  simp [treeGet, h]

theorem treeGet_of_blob {cs : List (Bytes × PyTree)} {q : List Bytes} {h : Bytes}
    (hb : treeNode cs q = some (PyTree.blob h)) : treeGet cs q = some h := by
  simp [treeGet, hb]

theorem treeGet_eq_none_of_node {cs : List (Bytes × PyTree)} {q : List Bytes}
    (hb : ∀ b, treeNode cs q ≠ some (PyTree.blob b)) : treeGet cs q = none := by
  rw [treeGet]
  rcases hn : treeNode cs q with _ | t
  · rfl
  · cases t with
    | blob b => exact absurd hn (hb b)
    | dir sub => rfl

theorem treeNode_nilcs (q : List Bytes) : treeNode [] q = none := by
  cases q with
  | nil => rfl
  | cons x q₂ => cases q₂ <;> simp [treeNode_single, treeNode_cons₂, alGet]

theorem treeGet_nilcs (q : List Bytes) : treeGet [] q = none := by
  rw [treeGet, treeNode_nilcs]

theorem treeNode_step {cs : List (Bytes × PyTree)} {part : Bytes} {sub : List (Bytes × PyTree)}
    (hg : alGet cs part = some (PyTree.dir sub)) (pre : List Bytes) (hne : pre ≠ []) :
    treeNode cs (part :: pre) = treeNode sub pre := by
  cases pre with
  | nil => exact absurd rfl hne
  | cons y q => rw [treeNode_cons₂, hg]

theorem insertTreePath_single (cs : List (Bytes × PyTree)) (last h : Bytes) :
    insertTreePath cs [last] h = some (alSet cs last (PyTree.blob h)) := rfl

theorem insertTreePath_cons₂ (cs : List (Bytes × PyTree)) (part r : Bytes) (rs : List Bytes)
    (h : Bytes) :
    insertTreePath cs (part :: r :: rs) h =
      match alGet cs part with
      | none =>
        match insertTreePath [] (r :: rs) h with
        | none => none
        | some sub => some (cs ++ [(part, PyTree.dir sub)])
      | some (PyTree.dir sub) =>
        match insertTreePath sub (r :: rs) h with
        | none => none
        | some sub' => some (alSet cs part (PyTree.dir sub'))
      | some (PyTree.blob _) => none := rfl

/-- Behaviour of one `build_tree_from_index` insertion on a tree whose walk
to the new path meets no blob and whose final slot is not a directory: the
insertion succeeds, stores the hash at the path, changes no other path's
blob lookup, and creates nodes only along the inserted path. -/
theorem insertTreePath_spec :
    ∀ (parts : List Bytes) (cs : List (Bytes × PyTree)) (h : Bytes),
      parts ≠ [] →
      (∀ pre, pre ≠ [] → pre.length < parts.length → pre <+: parts →
        ∀ b, treeNode cs pre ≠ some (PyTree.blob b)) →
      (∀ sub, treeNode cs parts ≠ some (PyTree.dir sub)) →
      ∃ cs', insertTreePath cs parts h = some cs' ∧
        treeNode cs' parts = some (PyTree.blob h) ∧
        (∀ q, q ≠ parts → treeGet cs' q = treeGet cs q) ∧
        (∀ q, treeNode cs' q ≠ none → treeNode cs q ≠ none ∨ q <+: parts) := by
  intro parts
  induction parts with
  | nil => intro cs h hne _ _; exact absurd rfl hne
  | cons part rest ih =>
    intro cs h _ hpre hfin
    cases rest with
    | nil =>
      refine ⟨alSet cs part (PyTree.blob h), insertTreePath_single cs part h, ?_, ?_, ?_⟩
      · rw [treeNode_single, alGet_alSet, if_pos rfl]
      · intro q hq
        cases q with
        | nil => rfl
        | cons x q₂ =>
          cases q₂ with
          | nil =>
            have hx : x ≠ part := fun he => hq (by rw [he])
            apply treeGet_congr
            rw [treeNode_single, treeNode_single, alGet_alSet, if_neg (fun he => hx he.symm)]
          | cons y q₃ =>
            by_cases hx : x = part
            · subst hx
              have h1 : treeNode (alSet cs x (PyTree.blob h)) (x :: y :: q₃) = none := by
                rw [treeNode_cons₂, alGet_alSet, if_pos rfl]
              have h2 : treeNode cs (x :: y :: q₃) = none := by
                rw [treeNode_cons₂]
                rcases hg : alGet cs x with _ | t
                · rfl
                · cases t with
                  | blob b => rfl
                  | dir sub =>
                    exact absurd (by rw [treeNode_single]; exact hg) (hfin sub)
              rw [treeGet, treeGet, h1, h2]
            · apply treeGet_congr
              rw [treeNode_cons₂, treeNode_cons₂, alGet_alSet, if_neg (fun he => hx he.symm)]
      · intro q hq
        cases q with
        | nil => rw [treeNode_nil] at hq; exact absurd rfl hq
        | cons x q₂ =>
          cases q₂ with
          | nil =>
            by_cases hx : x = part
            · subst hx; right; exact List.prefix_refl _
            · left
              rw [treeNode_single, alGet_alSet, if_neg (fun he => hx he.symm)] at hq
              rw [treeNode_single]; exact hq
          | cons y q₃ =>
            by_cases hx : x = part
            · subst hx
              rw [treeNode_cons₂, alGet_alSet, if_pos rfl] at hq
              exact absurd rfl hq
            · left
              rw [treeNode_cons₂, alGet_alSet, if_neg (fun he => hx he.symm)] at hq
              rw [treeNode_cons₂]; exact hq
    | cons r rs =>
      rcases hg : alGet cs part with _ | t
      · obtain ⟨sub, hins, hb, hc, hd⟩ := ih [] h (by simp)
          (by intro pre hne hlen hprefix b; rw [treeNode_nilcs]; simp)
          (by intro sub; rw [treeNode_nilcs]; simp)
        have hga : ∀ x, alGet (cs ++ [(part, PyTree.dir sub)]) x =
            match alGet cs x with
            | some v => some v
            | none => if part = x then some (PyTree.dir sub) else none := by
          intro x
          rw [alGet_append]
          rcases alGet cs x with _ | v <;> simp [alGet]
        refine ⟨cs ++ [(part, PyTree.dir sub)], ?_, ?_, ?_, ?_⟩
        · rw [insertTreePath_cons₂, hg, hins]
        · rw [treeNode_cons₂, hga, hg]
          simp only [if_pos rfl]
          exact hb
        · intro q hq
          cases q with
          | nil => rfl
          | cons x q₂ =>
            by_cases hx : x = part
            · subst hx
              cases q₂ with
              | nil =>
                have h1 : treeNode (cs ++ [(x, PyTree.dir sub)]) [x] =
                    some (PyTree.dir sub) := by
                  rw [treeNode_single, hga, hg]; simp
                have h2 : treeNode cs [x] = none := by
                  rw [treeNode_single]; exact hg
                simp only [treeGet, h1, h2]
              | cons y q₃ =>
                have h1 : treeNode (cs ++ [(x, PyTree.dir sub)]) (x :: y :: q₃) =
                    treeNode sub (y :: q₃) := by
                  rw [treeNode_cons₂, hga, hg]; simp
                have h2 : treeNode cs (x :: y :: q₃) = none := by
                  rw [treeNode_cons₂, hg]
                have h3 : treeGet sub (y :: q₃) = treeGet [] (y :: q₃) := by
                  apply hc
                  intro he
                  exact hq (by rw [he])
                have h4 : treeGet (cs ++ [(x, PyTree.dir sub)]) (x :: y :: q₃) =
                    treeGet sub (y :: q₃) := treeGet_congr h1
                rw [h4, h3, treeGet_nilcs, treeGet, h2]
            · have hpx : ¬ part = x := fun he => hx he.symm
              have halx : alGet (cs ++ [(part, PyTree.dir sub)]) x = alGet cs x := by
                rw [hga]
                rcases alGet cs x with _ | v
                · simp [hpx]
                · simp
              apply treeGet_congr
              cases q₂ with
              | nil => rw [treeNode_single, treeNode_single, halx]
              | cons y q₃ => rw [treeNode_cons₂, treeNode_cons₂, halx]
        · intro q hq
          cases q with
          | nil => rw [treeNode_nil] at hq; exact absurd rfl hq
          | cons x q₂ =>
            by_cases hx : x = part
            · subst hx
              cases q₂ with
              | nil => right; exact ⟨r :: rs, rfl⟩
              | cons y q₃ =>
                have h1 : treeNode (cs ++ [(x, PyTree.dir sub)]) (x :: y :: q₃) =
                    treeNode sub (y :: q₃) := by
                  rw [treeNode_cons₂, hga, hg]; simp
                rw [h1] at hq
                rcases hd (y :: q₃) hq with h2 | h2
                · rw [treeNode_nilcs] at h2; exact absurd rfl h2
                · right
                  exact (List.cons_prefix_cons).mpr ⟨rfl, h2⟩
            · left
              have hpx : ¬ part = x := fun he => hx he.symm
              have halx : alGet (cs ++ [(part, PyTree.dir sub)]) x = alGet cs x := by
                rw [hga]
                rcases alGet cs x with _ | v
                · simp [hpx]
                · simp
              cases q₂ with
              | nil => rw [treeNode_single, halx] at hq; rw [treeNode_single]; exact hq
              | cons y q₃ => rw [treeNode_cons₂, halx] at hq; rw [treeNode_cons₂]; exact hq
      · cases t with
        | blob b =>
          exact absurd (by rw [treeNode_single]; exact hg)
            (hpre [part] (by simp) (by simp) ⟨r :: rs, rfl⟩ b)
        | dir sub =>
          obtain ⟨sub', hins, hb, hc, hd⟩ := ih sub h (by simp)
            (by
              intro pre hne hlen hprefix b hblob
              exact hpre (part :: pre) (by simp) (by simpa using Nat.succ_lt_succ hlen)
                ((List.cons_prefix_cons).mpr ⟨rfl, hprefix⟩) b
                (by rw [treeNode_step hg pre hne]; exact hblob))
            (by
              intro sub₂ hdir
              exact hfin sub₂ (by rw [treeNode_step hg (r :: rs) (by simp)]; exact hdir))
          refine ⟨alSet cs part (PyTree.dir sub'), ?_, ?_, ?_, ?_⟩
          · rw [insertTreePath_cons₂, hg]
            simp [hins]
          · rw [treeNode_cons₂, alGet_alSet, if_pos rfl]
            exact hb
          · intro q hq
            cases q with
            | nil => rfl
            | cons x q₂ =>
              by_cases hx : x = part
              · subst hx
                cases q₂ with
                | nil =>
                  have h1 : treeNode (alSet cs x (PyTree.dir sub')) [x] =
                      some (PyTree.dir sub') := by
                    rw [treeNode_single, alGet_alSet, if_pos rfl]
                  have h2 : treeNode cs [x] = some (PyTree.dir sub) := by
                    rw [treeNode_single]; exact hg
                  simp only [treeGet, h1, h2]
                | cons y q₃ =>
                  have h1 : treeNode (alSet cs x (PyTree.dir sub')) (x :: y :: q₃) =
                      treeNode sub' (y :: q₃) := by
                    rw [treeNode_cons₂, alGet_alSet, if_pos rfl]
                  have h2 : treeNode cs (x :: y :: q₃) = treeNode sub (y :: q₃) := by
                    rw [treeNode_cons₂, hg]
                  have h3 : treeGet sub' (y :: q₃) = treeGet sub (y :: q₃) := by
                    apply hc
                    intro he
                    exact hq (by rw [he])
                  rw [treeGet, h1, treeGet, h2, ← treeGet, ← treeGet, h3]
              · apply treeGet_congr
                have halx : alGet (alSet cs part (PyTree.dir sub')) x = alGet cs x := by
                  rw [alGet_alSet, if_neg (fun he => hx he.symm)]
                cases q₂ with
                | nil => rw [treeNode_single, treeNode_single, halx]
                | cons y q₃ => rw [treeNode_cons₂, treeNode_cons₂, halx]
          · intro q hq
            cases q with
            | nil => rw [treeNode_nil] at hq; exact absurd rfl hq
            | cons x q₂ =>
              by_cases hx : x = part
              · subst hx
                cases q₂ with
                | nil =>
                  left
                  rw [treeNode_single, hg]
                  simp
                | cons y q₃ =>
                  have h1 : treeNode (alSet cs x (PyTree.dir sub')) (x :: y :: q₃) =
                      treeNode sub' (y :: q₃) := by
                    rw [treeNode_cons₂, alGet_alSet, if_pos rfl]
                  rw [h1] at hq
                  rcases hd (y :: q₃) hq with h2 | h2
                  · left
                    rw [treeNode_cons₂, hg]
                    exact h2
                  · right
                    exact (List.cons_prefix_cons).mpr ⟨rfl, h2⟩
              · left
                have halx : alGet (alSet cs part (PyTree.dir sub')) x = alGet cs x := by
                  rw [alGet_alSet, if_neg (fun he => hx he.symm)]
                cases q₂ with
                | nil => rw [treeNode_single, halx] at hq; rw [treeNode_single]; exact hq
                | cons y q₃ => rw [treeNode_cons₂, halx] at hq; rw [treeNode_cons₂]; exact hq

theorem alGet_of_mem_nodup {κ α : Type} [DecidableEq κ] {l : List (κ × α)} {k : κ} {v : α}
    (hm : (k, v) ∈ l) (hn : (l.map Prod.fst).Nodup) : alGet l k = some v := by
  induction l with
  | nil => simp at hm
  | cons p rest ih =>
    obtain ⟨k', v'⟩ := p
    have hn₂ : (k' :: rest.map Prod.fst).Nodup := by simpa using hn
    have hnk : k' ∉ rest.map Prod.fst := (List.nodup_cons.mp hn₂).1
    have hn' : (rest.map Prod.fst).Nodup := (List.nodup_cons.mp hn₂).2
    rcases List.mem_cons.mp hm with he | hm'
    · rw [Prod.mk.injEq] at he
      rw [alGet, if_pos he.1.symm, he.2]
    · have hk : k' ≠ k := by
        intro he
        apply hnk
        rw [he]
        exact List.mem_map.mpr ⟨(k, v), hm', rfl⟩
      rw [alGet, if_neg hk]
      exact ih hm' hn'

theorem treeWfL_nil : treeWfL [] = true := by rw [treeWfL]

theorem treeWfL_cons_blob (n h : Bytes) (rest : List (Bytes × PyTree)) :
    treeWfL ((n, PyTree.blob h) :: rest) =
      (nameSafe n && hashSafe h && !(alHasKey rest n) && treeWfL rest) := by
  rw [treeWfL]

theorem treeWfL_cons_dir (n : Bytes) (sub rest : List (Bytes × PyTree)) :
    treeWfL ((n, PyTree.dir sub) :: rest) =
      (nameSafe n && !(alHasKey rest n) && treeWfL sub && treeWfL rest) := by
  rw [treeWfL]

theorem treeWfL_cons (n : Bytes) (t : PyTree) (rest : List (Bytes × PyTree))
    (hn : nameSafe n = true) (hv : valWf t = true) (hk : alHasKey rest n = false)
    (hr : treeWfL rest = true) : treeWfL ((n, t) :: rest) = true := by
  cases t with
  | blob h =>
    have hv' : hashSafe h = true := hv
    rw [treeWfL_cons_blob]
    simp [hn, hv', hk, hr]
  | dir sub =>
    have hv' : treeWfL sub = true := hv
    rw [treeWfL_cons_dir]
    simp [hn, hv', hk, hr]

theorem treeWfL_cons_parts (n : Bytes) (t : PyTree) (rest : List (Bytes × PyTree))
    (hwf : treeWfL ((n, t) :: rest) = true) :
    nameSafe n = true ∧ valWf t = true ∧ alHasKey rest n = false ∧ treeWfL rest = true := by
  cases t with
  | blob h =>
    rw [treeWfL_cons_blob] at hwf
    simp only [Bool.and_eq_true, Bool.not_eq_true'] at hwf
    exact ⟨hwf.1.1.1, hwf.1.1.2, hwf.1.2, hwf.2⟩
  | dir sub =>
    rw [treeWfL_cons_dir] at hwf
    simp only [Bool.and_eq_true, Bool.not_eq_true'] at hwf
    exact ⟨hwf.1.1.1, hwf.1.2, hwf.1.1.2, hwf.2⟩

theorem alSet_wf (cs : List (Bytes × PyTree)) (k : Bytes) (v : PyTree)
    (hwf : treeWfL cs = true) (hk : nameSafe k = true) (hv : valWf v = true) :
    treeWfL (alSet cs k v) = true := by
  induction cs with
  | nil =>
    show treeWfL [(k, v)] = true
    exact treeWfL_cons k v [] hk hv (by rw [alHasKey, alGet]; rfl) treeWfL_nil
  | cons p rest ih =>
    obtain ⟨k', v'⟩ := p
    obtain ⟨hn', hv', hk', hr'⟩ := treeWfL_cons_parts k' v' rest hwf
    by_cases he : k' = k
    · subst he
      rw [show alSet ((k', v') :: rest) k' v = (k', v) :: rest from by simp [alSet]]
      exact treeWfL_cons k' v rest hn' hv hk' hr'
    · rw [show alSet ((k', v') :: rest) k v = (k', v') :: alSet rest k v from by
        simp [alSet, he]]
      apply treeWfL_cons k' v' _ hn' hv' _ (ih hr')
      rw [alHasKey, alGet_alSet]
      rw [if_neg (fun hke => he hke.symm)]
      rw [alHasKey] at hk'
      exact hk'

theorem append_one_wf (cs : List (Bytes × PyTree)) (k : Bytes) (v : PyTree)
    (hwf : treeWfL cs = true) (habs : alGet cs k = none)
    (hk : nameSafe k = true) (hv : valWf v = true) :
    treeWfL (cs ++ [(k, v)]) = true := by
  induction cs with
  | nil =>
    show treeWfL [(k, v)] = true
    exact treeWfL_cons k v [] hk hv (by rw [alHasKey, alGet]; rfl) treeWfL_nil
  | cons p rest ih =>
    obtain ⟨k', v'⟩ := p
    obtain ⟨hn', hv', hk', hr'⟩ := treeWfL_cons_parts k' v' rest hwf
    have hne : k' ≠ k := by
      intro he
      rw [alGet, if_pos he] at habs
      cases habs
    rw [List.cons_append]
    apply treeWfL_cons k' v' _ hn' hv' _ (ih hr' (by rw [alGet, if_neg hne] at habs; exact habs))
    rw [alHasKey, alGet_append]
    rw [alHasKey] at hk'
    rcases hgr : alGet rest k' with _ | w
    · have hkk : ¬ k = k' := fun he => hne he.symm
      show (alGet [(k, v)] k').isSome = false
      rw [alGet, if_neg hkk, alGet]
      rfl
    · rw [hgr] at hk'; simp at hk'

theorem treeWfL_alGet {cs : List (Bytes × PyTree)} {k : Bytes} {t : PyTree}
    (hwf : treeWfL cs = true) (hg : alGet cs k = some t) : valWf t = true := by
  induction cs with
  | nil => cases hg
  | cons p rest ih =>
    obtain ⟨k', v'⟩ := p
    obtain ⟨_, hv', _, hr'⟩ := treeWfL_cons_parts k' v' rest hwf
    by_cases he : k' = k
    · rw [alGet, if_pos he] at hg
      cases hg
      exact hv'
    · rw [alGet, if_neg he] at hg
      exact ih hr' hg

theorem insertTreePath_wf :
    ∀ (parts : List Bytes) (cs : List (Bytes × PyTree)) (h : Bytes)
      (cs' : List (Bytes × PyTree)),
      treeWfL cs = true → (∀ n ∈ parts, nameSafe n = true) → hashSafe h = true →
      insertTreePath cs parts h = some cs' → treeWfL cs' = true := by
  intro parts
  induction parts with
  | nil => intro cs h cs' _ _ _ hins; cases hins
  | cons part rest ih =>
    intro cs h cs' hwf hns hh hins
    cases rest with
    | nil =>
      rw [insertTreePath_single] at hins
      cases hins
      exact alSet_wf cs part (PyTree.blob h) hwf (hns part (by simp)) hh
    | cons r rs =>
      rw [insertTreePath_cons₂] at hins
      rcases hg : alGet cs part with _ | t
      · rw [hg] at hins
        rcases hsub : insertTreePath [] (r :: rs) h with _ | sub
        · rw [hsub] at hins; cases hins
        · rw [hsub] at hins
          cases hins
          have hsubwf : treeWfL sub = true :=
            ih [] h sub treeWfL_nil (fun n hn => hns n (by simp [hn])) hh hsub
          exact append_one_wf cs part (PyTree.dir sub) hwf hg (hns part (by simp)) hsubwf
      · cases t with
        | blob b => rw [hg] at hins; cases hins
        | dir sub =>
          rw [hg] at hins
          have hins₂ :
              (match insertTreePath sub (r :: rs) h with
                | none => (none : Option (List (Bytes × PyTree)))
                | some sub' => some (alSet cs part (PyTree.dir sub'))) = some cs' := hins
          rcases hsub : insertTreePath sub (r :: rs) h with _ | sub'
          · rw [hsub] at hins₂; cases hins₂
          · rw [hsub] at hins₂
            cases hins₂
            have hsubwf : treeWfL sub = true := treeWfL_alGet hwf hg
            exact alSet_wf cs part (PyTree.dir sub')
              hwf (hns part (by simp))
              (ih sub h sub' hsubwf (fun n hn => hns n (by simp [hn])) hh hsub)

/-- Folding well-formed, pairwise prefix-free entries into the nested tree
succeeds and produces a well-formed tree whose blob lookups are exactly the
entry map. -/
theorem buildEntries_spec (full : List (List Bytes × Bytes))
    (hwfe : ∀ e ∈ full, e.1 ≠ [] ∧ (∀ n ∈ e.1, nameSafe n = true) ∧ hashSafe e.2 = true)
    (hpair : ∀ e₁ ∈ full, ∀ e₂ ∈ full, e₁.1 ≠ e₂.1 → ¬ e₁.1 <+: e₂.1)
    (hnd : (full.map Prod.fst).Nodup) :
    ∀ (todo done : List (List Bytes × Bytes)) (cs : List (Bytes × PyTree)),
      full = done ++ todo →
      treeWfL cs = true →
      (∀ q, treeGet cs q = alGet done q) →
      (∀ q, treeNode cs q ≠ none → ∃ e ∈ done, q <+: e.1) →
      ∃ t, buildEntries todo cs = some t ∧ treeWfL t = true ∧
        (∀ q, treeGet t q = alGet full q) ∧
        (∀ q, treeNode t q ≠ none → ∃ e ∈ full, q <+: e.1) := by
  intro todo
  induction todo with
  | nil =>
    intro done cs hfull hwf hget hnode
    rw [List.append_nil] at hfull
    subst hfull
    exact ⟨cs, rfl, hwf, hget, hnode⟩
  | cons e todo' ih =>
    intro done cs hfull hwf hget hnode
    obtain ⟨parts, h⟩ := e
    have hme : (parts, h) ∈ full := by rw [hfull]; simp
    obtain ⟨hpne, hpns, hph⟩ := hwfe _ hme
    have hmapfull : full.map Prod.fst = done.map Prod.fst ++ parts :: todo'.map Prod.fst := by
      rw [hfull]; simp
    have hnotdone : parts ∉ done.map Prod.fst := by
      intro hmem
      rw [hmapfull] at hnd
      rcases (List.nodup_append.mp hnd) with ⟨_, _, hdisj⟩
      exact hdisj hmem (by simp)
    have hnddone : (done.map Prod.fst).Nodup := by
      rw [hmapfull] at hnd
      exact (List.nodup_append.mp hnd).1
    obtain ⟨cs', hins, hb, hc, hd⟩ := insertTreePath_spec parts cs h hpne
      (by
        intro pre hne hlen hprefix b hblob
        have hg : alGet done pre = some b := by
          rw [← hget]
          exact treeGet_of_blob hblob
        have hmem : (pre, b) ∈ done := alGet_mem done pre b hg
        have hmemf : (pre, b) ∈ full := by rw [hfull]; exact List.mem_append_left _ hmem
        have hneq : pre ≠ parts := by
          intro he
          rw [he] at hlen
          omega
        exact hpair (pre, b) hmemf (parts, h) hme hneq hprefix)
      (by
        intro sub hdir
        have hnn : treeNode cs parts ≠ none := by rw [hdir]; simp
        obtain ⟨ed, hed, hedpre⟩ := hnode parts hnn
        by_cases he : ed.1 = parts
        · have hgd : alGet done parts = some ed.2 := by
            have : (parts, ed.2) ∈ done := by
              rw [← he]
              exact hed
            exact alGet_of_mem_nodup this hnddone
          have : treeGet cs parts = some ed.2 := by rw [hget]; exact hgd
          rw [treeGet, hdir] at this
          cases this
        · have hmedf : ed ∈ full := by rw [hfull]; exact List.mem_append_left _ hed
          exact hpair (parts, h) hme ed hmedf (fun hpe => he hpe.symm) hedpre)
    have hwf' : treeWfL cs' = true := insertTreePath_wf parts cs h cs' hwf hpns hph hins
    have hstep : buildEntries ((parts, h) :: todo') cs = buildEntries todo' cs' := by
      rw [buildEntries, hins]
    rw [hstep]
    apply ih (done ++ [(parts, h)]) cs' (by rw [hfull]; simp) hwf'
    · intro q
      by_cases hq : q = parts
      · subst hq
        rw [treeGet_of_blob hb, alGet_append,
          alGet_eq_none_of_not_mem_keys done q hnotdone]
        rw [alGet, if_pos rfl]
      · rw [hc q hq, hget q, alGet_append]
        rcases hgd : alGet done q with _ | v
        · rw [alGet, if_neg (fun he => hq he.symm), alGet]
        · rfl
    · intro q hq
      rcases hd q hq with h1 | h1
      · obtain ⟨ed, hed, hedpre⟩ := hnode q h1
        exact ⟨ed, List.mem_append_left _ hed, hedpre⟩
      · exact ⟨(parts, h), by simp, h1⟩

theorem sortTreeL_succ (f : Nat) (cs : List (Bytes × PyTree)) :
    sortTreeL (f + 1) cs = mapSortT f (sortByKey cs) := rfl

theorem storeConsistent_hashSafe {st : Store} {h d : Bytes}
    (hc : storeConsistent st = true) (hm : (h, d) ∈ st) : hashSafe h = true := by
  simp only [storeConsistent, List.all_eq_true, Bool.and_eq_true] at hc
  exact (hc (h, d) hm).1

theorem storeConsistent_alGet {st : Store} {h d : Bytes}
    (hc : storeConsistent st = true) (hm : (h, d) ∈ st) : alGet st h = some d := by
  induction st with
  | nil => simp at hm
  | cons e rest ih =>
    obtain ⟨h', d'⟩ := e
    by_cases he : h' = h
    · subst he
      rw [alGet, if_pos rfl]
      simp only [storeConsistent, List.all_eq_true, Bool.and_eq_true] at hc
      have hdd := (hc (h', d') (by simp)).2 (h', d) hm
      simp only [Bool.or_eq_true, decide_eq_true_eq] at hdd
      rcases hdd with hne | heq
      · exact absurd rfl hne
      · rw [heq]
    · rw [alGet, if_neg he]
      rcases List.mem_cons.mp hm with hee | hm'
      · rw [Prod.mk.injEq] at hee
        exact absurd hee.1.symm he
      · apply ih ?_ hm'
        simp only [storeConsistent, List.all_eq_true, Bool.and_eq_true] at hc ⊢
        intro e₁ he₁
        refine ⟨(hc e₁ (by simp [he₁])).1, ?_⟩
        intro e₂ he₂
        exact (hc e₁ (by simp [he₁])).2 e₂ (by simp [he₂])

/-- Reading any store entry whose data has the object shape, in a consistent
store. -/
theorem read_object_mem_wf (o : Oracle) (st : Store) (hsh k dig x : Bytes)
    (hz : zlibFaithful o) (hcons : storeConsistent st = true)
    (hmem : (hsh, o.comp ((k ++ spaceChar :: dig) ++ nullChar :: x)) ∈ st)
    (hknn : ∀ c ∈ k, c ≠ nullChar ∧ c ≠ spaceChar)
    (hdignn : ∀ c ∈ dig, c ≠ nullChar ∧ c ≠ spaceChar) :
    read_object o st hsh = some (k, x) := by
  have hprenn : ∀ c ∈ k ++ spaceChar :: dig, c ≠ nullChar := by
    intro c hc
    rcases List.mem_append.mp hc with h1 | h2
    · exact (hknn c h1).1
    · rcases List.mem_cons.mp h2 with h3 | h4
      · subst h3; decide
      · exact (hdignn c h4).1
  have hga := storeConsistent_alGet hcons hmem
  have hd := hz ((k ++ spaceChar :: dig) ++ nullChar :: x)
  simp only [read_object, hga, hd]
  rw [pyFindChar_append _ _ _ hprenn]
  simp only [take_len_append, drop_len_succ_append]
  rw [pySplitChar_append_sep _ _ _ (fun c hc => (hknn c hc).2),
    pySplitChar_no_sep _ _ (fun c hc => (hdignn c hc).2)]

theorem write_tree_succ (o : Oracle) (f : Nat) (st : Store) (cs : List (Bytes × PyTree)) :
    write_tree o (f + 1) st cs =
      hash_object o (writeTreeEntries o f st (sortByKey cs)).1
        (pyJoin [nlChar] (writeTreeEntries o f st (sortByKey cs)).2) (bs (r"tree")) true := by
  rw [write_tree]

theorem write_tree_zero (o : Oracle) (st : Store) (cs : List (Bytes × PyTree)) :
    write_tree o 0 st cs = (st, []) := by
  rw [write_tree]

theorem writeTreeEntries_nil (o : Oracle) (f : Nat) (st : Store) :
    writeTreeEntries o f st [] = (st, []) := by
  rw [writeTreeEntries]

theorem writeTreeEntries_blob (o : Oracle) (f : Nat) (st : Store) (n h : Bytes)
    (rest : List (Bytes × PyTree)) :
    writeTreeEntries o f st ((n, PyTree.blob h) :: rest) =
      ((writeTreeEntries o f st rest).1,
        entryLine (bs (r"100644")) (bs (r"blob")) h n :: (writeTreeEntries o f st rest).2) := by
  rw [writeTreeEntries]

theorem writeTreeEntries_dir (o : Oracle) (f : Nat) (st : Store) (n : Bytes)
    (sub rest : List (Bytes × PyTree)) :
    writeTreeEntries o f st ((n, PyTree.dir sub) :: rest) =
      ((writeTreeEntries o f (write_tree o f st sub).1 rest).1,
        entryLine (bs (r"040000")) (bs (r"tree")) (write_tree o f st sub).2 n ::
          (writeTreeEntries o f (write_tree o f st sub).1 rest).2) := by
  rw [writeTreeEntries]

/-- `write_tree` and its entry loop only prepend to the store. -/
theorem write_mono (o : Oracle) :
    ∀ f : Nat, (∀ st cs, ∃ new, (write_tree o f st cs).1 = new ++ st) ∧
      (∀ st l, ∃ new, (writeTreeEntries o f st l).1 = new ++ st) := by
  intro f
  induction f with
  | zero =>
    have htree : ∀ (st : Store) (cs : List (Bytes × PyTree)),
        ∃ new, (write_tree o 0 st cs).1 = new ++ st := by
      intro st cs
      refine ⟨[], ?_⟩
      rw [write_tree_zero]
      rfl
    refine ⟨htree, ?_⟩
    intro st l
    induction l generalizing st with
    | nil => exact ⟨[], by rw [writeTreeEntries_nil]; rfl⟩
    | cons e rest ih =>
      obtain ⟨n, t⟩ := e
      cases t with
      | blob h =>
        obtain ⟨new, hnew⟩ := ih st
        exact ⟨new, by rw [writeTreeEntries_blob]; exact hnew⟩
      | dir sub =>
        obtain ⟨new₁, hnew₁⟩ := htree st sub
        obtain ⟨new₂, hnew₂⟩ := ih (write_tree o 0 st sub).1
        exact ⟨new₂ ++ new₁, by
          rw [writeTreeEntries_dir, hnew₂, hnew₁, List.append_assoc]⟩
  | succ f ihf =>
    have htree : ∀ (st : Store) (cs : List (Bytes × PyTree)),
        ∃ new, (write_tree o (f + 1) st cs).1 = new ++ st := by
      intro st cs
      obtain ⟨new, hnew⟩ := ihf.2 st (sortByKey cs)
      rw [write_tree_succ, hash_object]
      simp only [if_true]
      rw [hnew]
      exact ⟨_ :: new, rfl⟩
    refine ⟨htree, ?_⟩
    intro st l
    induction l generalizing st with
    | nil => exact ⟨[], by rw [writeTreeEntries_nil]; rfl⟩
    | cons e rest ih =>
      obtain ⟨n, t⟩ := e
      cases t with
      | blob h =>
        obtain ⟨new, hnew⟩ := ih st
        exact ⟨new, by rw [writeTreeEntries_blob]; exact hnew⟩
      | dir sub =>
        obtain ⟨new₁, hnew₁⟩ := htree st sub
        obtain ⟨new₂, hnew₂⟩ := ih (write_tree o (f + 1) st sub).1
        exact ⟨new₂ ++ new₁, by
          rw [writeTreeEntries_dir, hnew₂, hnew₁, List.append_assoc]⟩

theorem alGet_isSome_of_mem_keys {κ α : Type} [DecidableEq κ] (l : List (κ × α)) (k : κ)
    (h : k ∈ l.map Prod.fst) : (alGet l k).isSome := by
  induction l with
  | nil => simp at h
  | cons p rest ih =>
    obtain ⟨k', v⟩ := p
    by_cases he : k' = k
    · rw [alGet, if_pos he]; rfl
    · rw [alGet, if_neg he]
      apply ih
      have h₂ : k ∈ k' :: rest.map Prod.fst := h
      rcases List.mem_cons.mp h₂ with h1 | h1
      · exact absurd h1.symm he
      · exact h1

theorem alHasKey_false_iff {κ α : Type} [DecidableEq κ] (l : List (κ × α)) (k : κ) :
    alHasKey l k = false ↔ k ∉ l.map Prod.fst := by
  constructor
  · intro h hm
    have := alGet_isSome_of_mem_keys l k hm
    rw [alHasKey] at h
    rw [h] at this
    cases this
  · intro h
    rw [alHasKey, alGet_eq_none_of_not_mem_keys l k h]
    rfl

theorem treeWfL_iff (l : List (Bytes × PyTree)) :
    treeWfL l = true ↔
      (l.map Prod.fst).Nodup ∧ ∀ e ∈ l, nameSafe e.1 = true ∧ valWf e.2 = true := by
  induction l with
  | nil => simp [treeWfL_nil]
  | cons e rest ih =>
    obtain ⟨n, t⟩ := e
    constructor
    · intro hwf
      obtain ⟨hn, hv, hk, hr⟩ := treeWfL_cons_parts n t rest hwf
      obtain ⟨hnd, hall⟩ := ih.mp hr
      refine ⟨?_, ?_⟩
      · simp only [List.map_cons, List.nodup_cons]
        exact ⟨(alHasKey_false_iff rest n).mp hk, hnd⟩
      · intro e he
        rcases List.mem_cons.mp he with he₁ | he₂
        · subst he₁; exact ⟨hn, hv⟩
        · exact hall e he₂
    · intro ⟨hnd, hall⟩
      simp only [List.map_cons, List.nodup_cons] at hnd
      exact treeWfL_cons n t rest (hall (n, t) (by simp)).1 (hall (n, t) (by simp)).2
        ((alHasKey_false_iff rest n).mpr hnd.1)
        (ih.mpr ⟨hnd.2, fun e he => hall e (by simp [he])⟩)

theorem treeWfL_sortByKey {cs : List (Bytes × PyTree)} (hwf : treeWfL cs = true) :
    treeWfL (sortByKey cs) = true := by
  obtain ⟨hnd, hall⟩ := (treeWfL_iff cs).mp hwf
  apply (treeWfL_iff (sortByKey cs)).mpr
  refine ⟨?_, fun e he => hall e (mem_sortByKey.mp he)⟩
  exact ((sortByKey_perm cs).map Prod.fst).nodup_iff.mpr hnd

theorem alGet_perm_nodup {κ α : Type} [DecidableEq κ] {l₁ l₂ : List (κ × α)}
    (hp : List.Perm l₁ l₂) (hn : (l₁.map Prod.fst).Nodup) (k : κ) :
    alGet l₁ k = alGet l₂ k := by
  have hn₂ : (l₂.map Prod.fst).Nodup := (hp.map Prod.fst).nodup_iff.mp hn
  rcases h : alGet l₁ k with _ | v
  · rcases h₂ : alGet l₂ k with _ | w
    · rfl
    · have := alGet_of_mem_nodup (hp.symm.subset (alGet_mem l₂ k w h₂)) hn
      rw [h] at this
      cases this
  · exact (alGet_of_mem_nodup (hp.subset (alGet_mem l₁ k v h)) hn₂).symm

theorem treeNode_sortByKey {cs : List (Bytes × PyTree)} (hnd : (cs.map Prod.fst).Nodup)
    (q : List Bytes) : treeNode (sortByKey cs) q = treeNode cs q := by
  have hg := alGet_perm_nodup (sortByKey_perm cs)
    (((sortByKey_perm cs).map Prod.fst).nodup_iff.mpr hnd)
  cases q with
  | nil => rfl
  | cons x q₂ =>
    cases q₂ with
    | nil => rw [treeNode_single, treeNode_single, hg x]
    | cons y q₃ => rw [treeNode_cons₂, treeNode_cons₂, hg x]

theorem treeGet_sortByKey {cs : List (Bytes × PyTree)} (hnd : (cs.map Prod.fst).Nodup)
    (q : List Bytes) : treeGet (sortByKey cs) q = treeGet cs q :=
  treeGet_congr (treeNode_sortByKey hnd q)

theorem treeDepthL_nil : treeDepthL [] = 0 := by rw [treeDepthL]

theorem treeDepthL_blob (n h : Bytes) (rest : List (Bytes × PyTree)) :
    treeDepthL ((n, PyTree.blob h) :: rest) = treeDepthL rest := by rw [treeDepthL]

theorem treeDepthL_dir (n : Bytes) (sub rest : List (Bytes × PyTree)) :
    treeDepthL ((n, PyTree.dir sub) :: rest) =
      max (treeDepthL sub + 1) (treeDepthL rest) := by rw [treeDepthL]

theorem treeDepthL_mem_dir {cs : List (Bytes × PyTree)} {n : Bytes}
    {sub : List (Bytes × PyTree)} (hm : (n, PyTree.dir sub) ∈ cs) :
    treeDepthL sub + 1 ≤ treeDepthL cs := by
  induction cs with
  | nil => simp at hm
  | cons e rest ih =>
    obtain ⟨n', t⟩ := e
    rcases List.mem_cons.mp hm with he | hm'
    · rw [Prod.mk.injEq] at he
      rw [← he.2, treeDepthL_dir]
      exact Nat.le_max_left _ _
    · cases t with
      | blob h => rw [treeDepthL_blob]; exact ih hm'
      | dir sub₂ =>
        rw [treeDepthL_dir]
        exact Nat.le_trans (ih hm') (Nat.le_max_right _ _)

theorem pySplitChar_mem_no_sep (sep : Char) (l : Bytes) :
    ∀ e ∈ pySplitChar sep l, ∀ c ∈ e, c ≠ sep := by
  induction l with
  | nil =>
    intro e he
    simp only [pySplitChar, List.mem_singleton] at he
    subst he
    simp
  | cons c rest ih =>
    intro e he c₂ hc₂
    by_cases hc : c = sep
    · rw [pySplitChar, if_pos hc] at he
      rcases List.mem_cons.mp he with he₁ | he₂
      · subst he₁; simp at hc₂
      · exact ih e he₂ c₂ hc₂
    · rw [pySplitChar, if_neg hc] at he
      rcases hps : pySplitChar sep rest with _ | ⟨p, ps⟩
      · exact absurd hps (pySplitChar_ne_nil sep rest)
      · rw [hps] at he
        rcases List.mem_cons.mp he with he₁ | he₂
        · subst he₁
          rcases List.mem_cons.mp hc₂ with hc₃ | hc₄
          · subst hc₃; exact hc
          · exact ih p (by rw [hps]; simp) c₂ hc₄
        · exact ih e (by rw [hps]; simp [he₂]) c₂ hc₂

theorem pySplitChar_eq_singleton {sep : Char} {r n : Bytes}
    (h : pySplitChar sep r = [n]) : r = n := by
  have := pyJoin_pySplitChar sep r
  rw [h] at this
  exact this.symm

theorem stripPre_nilPre (q : Bytes) : stripPre [] q = some q := by
  rw [stripPre, if_pos rfl]

theorem stripPre_some_iff {pre q r : Bytes} (hpre : pre ≠ []) :
    stripPre pre q = some r ↔ q = pre ++ slashChar :: r := by
  rw [stripPre, if_neg hpre]
  constructor
  · intro h
    split at h
    · next hp =>
      obtain ⟨t, ht⟩ := List.isPrefixOf_iff_prefix.mp hp
      have hq : q = pre ++ slashChar :: t := by rw [← ht]; simp
      cases h
      rw [hq, drop_len_succ_append]
    · cases h
  · intro h
    subst h
    rw [if_pos (by
      apply List.isPrefixOf_iff_prefix.mpr
      exact ⟨r, by simp⟩)]
    rw [drop_len_succ_append]

theorem stripPre_pyPathJoin (pre n : Bytes) (hn : ¬ pyStartsWith [slashChar] n = true) :
    stripPre pre (pyPathJoin pre n) = some n := by
  by_cases hp : pre = []
  · subst hp
    rw [pyPathJoin, if_neg hn, if_pos rfl, stripPre_nilPre]
  · rw [pyPathJoin, if_neg hn, if_neg hp, (stripPre_some_iff hp)]

theorem pyPathJoin_eq (pre n : Bytes) (hn : ¬ pyStartsWith [slashChar] n = true) :
    pyPathJoin pre n = if pre = [] then n else pre ++ slashChar :: n := by
  rw [pyPathJoin, if_neg hn]

theorem pyPathJoin_ne_nil (pre n : Bytes) (hn : ¬ pyStartsWith [slashChar] n = true)
    (hne : n ≠ []) : pyPathJoin pre n ≠ [] := by
  rw [pyPathJoin_eq pre n hn]
  by_cases hp : pre = []
  · rw [if_pos hp]; exact hne
  · rw [if_neg hp]
    intro hcontr
    exact hp (List.append_eq_nil.mp hcontr).1

theorem stripPre_pyPathJoin_iff (pre n q r' : Bytes)
    (hn : ¬ pyStartsWith [slashChar] n = true) (hne : n ≠ []) :
    stripPre (pyPathJoin pre n) q = some r' ↔ stripPre pre q = some (n ++ slashChar :: r') := by
  by_cases hp : pre = []
  · subst hp
    rw [pyPathJoin, if_neg hn, if_pos rfl, stripPre_nilPre]
    rw [stripPre_some_iff hne]
    constructor
    · intro h; rw [h]
    · intro h; cases h; rfl
  · rw [pyPathJoin, if_neg hn, if_neg hp]
    rw [stripPre_some_iff (by simp), stripPre_some_iff hp]
    constructor
    · intro h; rw [h]; simp
    · intro h; rw [h]; simp

theorem pySplitChar_pyJoin (sep : Char) (es : List Bytes) (hne : es ≠ [])
    (h : ∀ e ∈ es, ∀ c ∈ e, c ≠ sep) :
    pySplitChar sep (pyJoin [sep] es) = es := by
  induction es with
  | nil => exact absurd rfl hne
  | cons a rest ih =>
    cases rest with
    | nil =>
      show pySplitChar sep (pyJoin [sep] [a]) = [a]
      rw [pyJoin]
      exact pySplitChar_no_sep sep a (h a (by simp))
    | cons b rest₂ =>
      have hshape : pyJoin [sep] (a :: b :: rest₂) = a ++ sep :: pyJoin [sep] (b :: rest₂) := by
        show a ++ [sep] ++ pyJoin [sep] (b :: rest₂) = a ++ sep :: pyJoin [sep] (b :: rest₂)
        simp
      rw [hshape, pySplitChar_append_sep sep a _ (h a (by simp)),
        ih (by simp) (fun e he => h e (by simp [he]))]

theorem pySplitLines_pyJoin (es : List Bytes)
    (h : ∀ e ∈ es, e ≠ [] ∧ ∀ c ∈ e, c ≠ nlChar) :
    pySplitLines (pyJoin [nlChar] es) = es := by
  cases hes : es with
  | nil => rfl
  | cons a rest =>
    have hane := (h a (by rw [hes]; simp)).1
    have hjne : pyJoin [nlChar] (a :: rest) ≠ [] := by
      cases rest with
      | nil => exact hane
      | cons b rest₂ =>
        show a ++ [nlChar] ++ pyJoin [nlChar] (b :: rest₂) ≠ []
        intro hcontr
        rcases List.append_eq_nil.mp hcontr with ⟨h1, _⟩
        rcases List.append_eq_nil.mp h1 with ⟨h2, _⟩
        exact hane h2
    rw [pySplitLines, if_neg (by simpa using hjne),
      pySplitChar_pyJoin nlChar (a :: rest) (by simp)
        (fun e he => (h e (by rw [hes]; exact he)).2)]
    rw [if_neg ?hlast]
    case hlast =>
      intro hcontr
      rcases hg : (a :: rest).getLast? with _ | e
      · rw [hg] at hcontr; cases hcontr
      · rw [hg] at hcontr
        cases hcontr
        have hx : ([] : Bytes) ∈ (a :: rest).getLast? := by rw [hg]; rfl
        obtain ⟨hne', heq⟩ := List.mem_getLast?_eq_getLast hx
        have hmem : ([] : Bytes) ∈ a :: rest := by
          rw [heq]
          exact List.getLast_mem hne'
        exact (h [] (by rw [hes]; exact hmem)).1 rfl

theorem pyReplaceChar_id (old new : Char) (l : Bytes) (h : ∀ c ∈ l, c ≠ old) :
    pyReplaceChar old new l = l := by
  induction l with
  | nil => rfl
  | cons c rest ih =>
    rw [pyReplaceChar, List.map_cons, if_neg (h c (by simp))]
    have := ih (fun x hx => h x (by simp [hx]))
    rw [pyReplaceChar] at this
    rw [this]

theorem pySplit3_entryLine (mode etype sha1 name : Bytes)
    (hm : ∀ c ∈ mode, c ≠ spaceChar ∧ c ≠ tabChar)
    (he : ∀ c ∈ etype, c ≠ spaceChar ∧ c ≠ tabChar)
    (hs : ∀ c ∈ sha1, c ≠ spaceChar ∧ c ≠ tabChar)
    (hn : ∀ c ∈ name, c ≠ tabChar) :
    pySplit3 spaceChar (pyReplaceChar tabChar spaceChar (entryLine mode etype sha1 name)) =
      some (mode, etype, sha1, name) := by
  have h₁ := pyReplaceChar_id tabChar spaceChar mode (fun c hc => (hm c hc).2)
  have h₂ := pyReplaceChar_id tabChar spaceChar etype (fun c hc => (he c hc).2)
  have h₃ := pyReplaceChar_id tabChar spaceChar sha1 (fun c hc => (hs c hc).2)
  have h₄ := pyReplaceChar_id tabChar spaceChar name hn
  have hrepl : pyReplaceChar tabChar spaceChar (entryLine mode etype sha1 name) =
      mode ++ spaceChar :: (etype ++ spaceChar :: (sha1 ++ spaceChar :: name)) := by
    simp only [entryLine, pyReplaceChar, List.map_append, List.map_cons] at h₁ h₂ h₃ h₄ ⊢
    rw [h₁, h₂, h₃, h₄]
    simp [ite_self]
  rw [hrepl]
  simp only [pySplit3,
    pySplitOnce_append spaceChar mode _ (fun c hc => (hm c hc).1),
    pySplitOnce_append spaceChar etype _ (fun c hc => (he c hc).1),
    pySplitOnce_append spaceChar sha1 _ (fun c hc => (hs c hc).1)]

theorem read_tree_recursive_succ (o : Oracle) (st : Store) (fuel : Nat)
    (tree_sha pathPre : Bytes) (files : List (Bytes × Bytes)) :
    read_tree_recursive o st (fuel + 1) tree_sha pathPre files =
      match read_object o st tree_sha with
      | none => none
      | some (t, content) =>
        if t = bs (r"tree") then readTreeLines o st fuel (pySplitLines content) pathPre files
        else none := by
  rw [read_tree_recursive]

theorem readTreeLines_nil (o : Oracle) (st : Store) (fuel : Nat) (pathPre : Bytes)
    (files : List (Bytes × Bytes)) :
    readTreeLines o st fuel [] pathPre files = some files := by
  rw [readTreeLines]

theorem readTreeLines_cons (o : Oracle) (st : Store) (fuel : Nat) (line : Bytes)
    (rest : List Bytes) (pathPre : Bytes) (files : List (Bytes × Bytes)) :
    readTreeLines o st fuel (line :: rest) pathPre files =
      match pySplit3 spaceChar (pyReplaceChar tabChar spaceChar line) with
      | none => none
      | some (_, etype, sha1, name) =>
        if etype = bs (r"blob") then
          readTreeLines o st fuel rest pathPre (alSet files (pyPathJoin pathPre name) sha1)
        else if etype = bs (r"tree") then
          match read_tree_recursive o st fuel sha1 (pyPathJoin pathPre name) files with
          | none => none
          | some files' => readTreeLines o st fuel rest pathPre files'
        else readTreeLines o st fuel rest pathPre files := by
  rw [readTreeLines]

theorem flattenF_nil (pre : Bytes) (files : List (Bytes × Bytes)) :
    flattenF pre [] files = files := by rw [flattenF]

theorem flattenF_blob (pre n h : Bytes) (rest : List (Bytes × PyTree))
    (files : List (Bytes × Bytes)) :
    flattenF pre ((n, PyTree.blob h) :: rest) files =
      flattenF pre rest (alSet files (pyPathJoin pre n) h) := by rw [flattenF]

theorem flattenF_dir (pre n : Bytes) (sub rest : List (Bytes × PyTree))
    (files : List (Bytes × Bytes)) :
    flattenF pre ((n, PyTree.dir sub) :: rest) files =
      flattenF pre rest (flattenF (pyPathJoin pre n) sub files) := by rw [flattenF]

theorem mapSortT_nil (f : Nat) : mapSortT f [] = [] := rfl

theorem mapSortT_blob (f : Nat) (n h : Bytes) (rest : List (Bytes × PyTree)) :
    mapSortT f ((n, PyTree.blob h) :: rest) = (n, PyTree.blob h) :: mapSortT f rest := rfl

theorem mapSortT_dir (f : Nat) (n : Bytes) (sub rest : List (Bytes × PyTree)) :
    mapSortT f ((n, PyTree.dir sub) :: rest) =
      (n, PyTree.dir (sortTreeL f sub)) :: mapSortT f rest := rfl

theorem entryLine_wf (mode etype sha1 name : Bytes)
    (hmo : ∀ c ∈ mode, c ≠ nlChar) (het : ∀ c ∈ etype, c ≠ nlChar)
    (hsh : ∀ c ∈ sha1, c ≠ nlChar) (hna : ∀ c ∈ name, c ≠ nlChar)
    (hmm : mode ≠ []) :
    entryLine mode etype sha1 name ≠ [] ∧
      ∀ c ∈ entryLine mode etype sha1 name, c ≠ nlChar := by
  constructor
  · rw [entryLine]
    intro hcontr
    exact hmm (List.append_eq_nil.mp hcontr).1
  · intro c hc
    simp only [entryLine, List.mem_append, List.mem_cons] at hc
    rcases hc with h1 | h1
    · exact hmo c h1
    · rcases h1 with h1 | h1
      · subst h1; decide
      · rcases h1 with h1 | h1
        · exact het c h1
        · rcases h1 with h1 | h1
          · subst h1; decide
          · rcases h1 with h1 | h1
            · exact hsh c h1
            · rcases h1 with h1 | h1
              · subst h1; decide
              · exact hna c h1

/-- Reading back a written tree from any consistent later store reproduces
the sorted flat walk: joint claim for `write_tree` and its entry loop, by
induction on the writing fuel. -/
theorem write_read_spec (o : Oracle) (hz : zlibFaithful o) :
    ∀ f : Nat,
      (∀ (st : Store) (cs : List (Bytes × PyTree)) (stF : Store) (g : Nat) (pre : Bytes)
          (files : List (Bytes × Bytes)),
        treeWfL cs = true → treeDepthL cs < f → treeDepthL cs < g →
        storeConsistent stF = true →
        (∀ e ∈ (write_tree o f st cs).1, e ∈ stF) →
        read_tree_recursive o stF g ((write_tree o f st cs).2) pre files =
          some (flattenF pre (sortTreeL f cs) files)) ∧
      (∀ (st : Store) (l : List (Bytes × PyTree)) (stF : Store) (g : Nat) (pre : Bytes)
          (files : List (Bytes × Bytes)),
        treeWfL l = true →
        (∀ n sub, (n, PyTree.dir sub) ∈ l → treeDepthL sub < f ∧ treeDepthL sub < g) →
        storeConsistent stF = true →
        (∀ e ∈ (writeTreeEntries o f st l).1, e ∈ stF) →
        readTreeLines o stF g ((writeTreeEntries o f st l).2) pre files =
          some (flattenF pre (mapSortT f l) files) ∧
        (∀ line ∈ (writeTreeEntries o f st l).2, line ≠ [] ∧ ∀ c ∈ line, c ≠ nlChar)) := by
  intro f
  induction f with
  | zero =>
    constructor
    · intro st cs stF g pre files _ hdep
      omega
    · intro st l stF g pre files hwf hdep hcons hmem
      induction l generalizing st files with
      | nil =>
        rw [writeTreeEntries_nil]
        refine ⟨?_, ?_⟩
        · rw [readTreeLines_nil, mapSortT_nil, flattenF_nil]
        · intro line hl; simp at hl
      | cons e rest ih =>
        obtain ⟨n, t⟩ := e
        cases t with
        | dir sub => exact absurd (hdep n sub (by simp)).1 (by omega)
        | blob h =>
          obtain ⟨hn, hv, hk, hr⟩ := treeWfL_cons_parts n (PyTree.blob h) rest hwf
          have hv' : hashSafe h = true := hv
          rw [writeTreeEntries_blob]
          have hline := pySplit3_entryLine (bs (r"100644")) (bs (r"blob")) h n
            (by decide) (by decide)
            (fun c hc => ⟨(hashSafe_chars h hv' c hc).2.1, (hashSafe_chars h hv' c hc).2.2.2.1⟩)
            (fun c hc => (nameSafe_chars n hn c hc).1)
          obtain ⟨ihr, ihl⟩ := ih st (alSet files (pyPathJoin pre n) h) hr
            (fun n₂ sub₂ hm₂ => hdep n₂ sub₂ (by simp [hm₂]))
            (by rw [writeTreeEntries_blob] at hmem; exact hmem)
          refine ⟨?_, ?_⟩
          · rw [readTreeLines_cons]
            simp only [hline]
            rw [if_pos trivial]
            rw [mapSortT_blob, flattenF_blob]
            exact ihr
          · intro line hl
            rcases List.mem_cons.mp hl with he | hm₂
            · subst he
              exact entryLine_wf _ _ h n (by decide) (by decide)
                (fun c hc => (hashSafe_chars h hv' c hc).2.2.1)
                (fun c hc => (nameSafe_chars n hn c hc).2.2.2) (by decide)
            · exact ihl line hm₂
  | succ f ihf =>
    have htreeF : ∀ (st : Store) (cs : List (Bytes × PyTree)) (stF : Store) (g : Nat)
        (pre : Bytes) (files : List (Bytes × Bytes)),
        treeWfL cs = true → treeDepthL cs < f + 1 → treeDepthL cs < g →
        storeConsistent stF = true →
        (∀ e ∈ (write_tree o (f + 1) st cs).1, e ∈ stF) →
        read_tree_recursive o stF g ((write_tree o (f + 1) st cs).2) pre files =
          some (flattenF pre (sortTreeL (f + 1) cs) files) := by
      intro st cs stF g pre files hwf hdepf hdepg hcons hmem
      cases g with
      | zero => omega
      | succ g =>
        have hwfs : treeWfL (sortByKey cs) = true := treeWfL_sortByKey hwf
        have hdeps : ∀ n sub, (n, PyTree.dir sub) ∈ sortByKey cs →
            treeDepthL sub < f ∧ treeDepthL sub < g := by
          intro n sub hm
          have := treeDepthL_mem_dir (mem_sortByKey.mp hm)
          omega
        have hmem₂ : ∀ e ∈ (writeTreeEntries o f st (sortByKey cs)).1, e ∈ stF := by
          intro e he
          apply hmem
          rw [write_tree_succ, hash_object]
          simp only [if_true]
          exact List.mem_cons_of_mem _ he
        obtain ⟨hread, hlines⟩ := ihf.2 st (sortByKey cs) stF g pre files hwfs hdeps hcons hmem₂
        have hrootmem : ((write_tree o (f + 1) st cs).2,
            o.comp (objHeader (bs (r"tree"))
                (pyJoin [nlChar] (writeTreeEntries o f st (sortByKey cs)).2) ++
              pyJoin [nlChar] (writeTreeEntries o f st (sortByKey cs)).2)) ∈ stF := by
          apply hmem
          rw [write_tree_succ, hash_object]
          simp only [if_true]
          exact List.mem_cons_self _ _
        have hdata : objHeader (bs (r"tree"))
              (pyJoin [nlChar] (writeTreeEntries o f st (sortByKey cs)).2) ++
            pyJoin [nlChar] (writeTreeEntries o f st (sortByKey cs)).2 =
            (bs (r"tree") ++ spaceChar ::
              natToDec (pyJoin [nlChar] (writeTreeEntries o f st (sortByKey cs)).2).length) ++
            nullChar :: pyJoin [nlChar] (writeTreeEntries o f st (sortByKey cs)).2 := by
          simp [objHeader, List.append_assoc]
        have hro : read_object o stF ((write_tree o (f + 1) st cs).2) =
            some (bs (r"tree"), pyJoin [nlChar] (writeTreeEntries o f st (sortByKey cs)).2) := by
          apply read_object_mem_wf o stF _ _ _ _ hz hcons (by rw [← hdata]; exact hrootmem)
          · decide
          · intro c hc
            have := natToDec_digit _ c hc
            exact ⟨(digit_char_props c this.1 this.2).2.1, (digit_char_props c this.1 this.2).2.2.1⟩
        rw [read_tree_recursive_succ]
        simp only [hro]
        rw [if_pos trivial]
        rw [pySplitLines_pyJoin _ hlines]
        rw [hread, sortTreeL_succ]
    refine ⟨htreeF, ?_⟩
    intro st l stF g pre files hwf hdep hcons hmem
    induction l generalizing st files with
    | nil =>
      rw [writeTreeEntries_nil]
      refine ⟨?_, ?_⟩
      · rw [readTreeLines_nil, mapSortT_nil, flattenF_nil]
      · intro line hl; simp at hl
    | cons e rest ih =>
      obtain ⟨n, t⟩ := e
      cases t with
      | blob h =>
        obtain ⟨hn, hv, hk, hr⟩ := treeWfL_cons_parts n (PyTree.blob h) rest hwf
        have hv' : hashSafe h = true := hv
        rw [writeTreeEntries_blob]
        have hline := pySplit3_entryLine (bs (r"100644")) (bs (r"blob")) h n
          (by decide) (by decide)
          (fun c hc => ⟨(hashSafe_chars h hv' c hc).2.1, (hashSafe_chars h hv' c hc).2.2.2.1⟩)
          (fun c hc => (nameSafe_chars n hn c hc).1)
        obtain ⟨ihr, ihl⟩ := ih st (alSet files (pyPathJoin pre n) h) hr
          (fun n₂ sub₂ hm₂ => hdep n₂ sub₂ (by simp [hm₂]))
          (by rw [writeTreeEntries_blob] at hmem; exact hmem)
        refine ⟨?_, ?_⟩
        · rw [readTreeLines_cons]
          simp only [hline]
          rw [if_pos trivial]
          rw [mapSortT_blob, flattenF_blob]
          exact ihr
        · intro line hl
          rcases List.mem_cons.mp hl with he | hm₂
          · subst he
            exact entryLine_wf _ _ h n (by decide) (by decide)
              (fun c hc => (hashSafe_chars h hv' c hc).2.2.1)
              (fun c hc => (nameSafe_chars n hn c hc).2.2.2) (by decide)
          · exact ihl line hm₂
      | dir sub =>
        obtain ⟨hn, hv, hk, hr⟩ := treeWfL_cons_parts n (PyTree.dir sub) rest hwf
        have hv' : treeWfL sub = true := hv
        obtain ⟨hdsubf, hdsubg⟩ := hdep n sub (by simp)
        rw [writeTreeEntries_dir]
        have hsubmem : ∀ e ∈ (write_tree o (f + 1) st sub).1, e ∈ stF := by
          intro e he
          apply hmem
          rw [writeTreeEntries_dir]
          obtain ⟨new, hnew⟩ := (write_mono o (f + 1)).2 (write_tree o (f + 1) st sub).1 rest
          rw [hnew]
          exact List.mem_append_right _ he
        have hsubhash : hashSafe ((write_tree o (f + 1) st sub).2) = true := by
          have hhead : ((write_tree o (f + 1) st sub).2,
              o.comp (objHeader (bs (r"tree"))
                  (pyJoin [nlChar] (writeTreeEntries o f st (sortByKey sub)).2) ++
                pyJoin [nlChar] (writeTreeEntries o f st (sortByKey sub)).2)) ∈
              (write_tree o (f + 1) st sub).1 := by
            rw [write_tree_succ, hash_object]
            simp only [if_true]
            exact List.mem_cons_self _ _
          exact storeConsistent_hashSafe hcons (hsubmem _ hhead)
        have hline := pySplit3_entryLine (bs (r"040000")) (bs (r"tree"))
          ((write_tree o (f + 1) st sub).2) n
          (by decide) (by decide)
          (fun c hc => ⟨(hashSafe_chars _ hsubhash c hc).2.1,
            (hashSafe_chars _ hsubhash c hc).2.2.2.1⟩)
          (fun c hc => (nameSafe_chars n hn c hc).1)
        have hsubread := htreeF st sub stF g (pyPathJoin pre n) files hv'
          (by omega) hdsubg hcons hsubmem
        obtain ⟨ihr, ihl⟩ := ih (write_tree o (f + 1) st sub).1
          (flattenF (pyPathJoin pre n) (sortTreeL (f + 1) sub) files) hr
          (fun n₂ sub₂ hm₂ => hdep n₂ sub₂ (by simp [hm₂]))
          (by rw [writeTreeEntries_dir] at hmem; exact hmem)
        refine ⟨?_, ?_⟩
        · rw [readTreeLines_cons]
          simp only [hline]
          first
          | rw [if_neg (fun hcontr => hcontr : ¬ False)]
          | rw [if_neg (by decide : ¬ (bs (r"tree") = bs (r"blob")))]
          rw [if_pos trivial]
          simp only [hsubread]
          rw [mapSortT_dir, flattenF_dir]
          exact ihr
        · intro line hl
          rcases List.mem_cons.mp hl with he | hm₂
          · subst he
            exact entryLine_wf _ _ _ n (by decide) (by decide)
              (fun c hc => (hashSafe_chars _ hsubhash c hc).2.2.1)
              (fun c hc => (nameSafe_chars n hn c hc).2.2.2) (by decide)
          · exact ihl line hm₂

theorem alHasKey_false_alGet {κ α : Type} [DecidableEq κ] {l : List (κ × α)} {k : κ}
    (h : alHasKey l k = false) : alGet l k = none := by
  rcases hg : alGet l k with _ | v
  · rfl
  · rw [alHasKey, hg] at h
    cases h

theorem treeNode_cons_ne {n : Bytes} {t : PyTree} {rest : List (Bytes × PyTree)}
    {p : Bytes} {ps : List Bytes} (h : n ≠ p) :
    treeNode ((n, t) :: rest) (p :: ps) = treeNode rest (p :: ps) := by
  cases ps with
  | nil => rw [treeNode_single, treeNode_single, alGet, if_neg h]
  | cons y ys => rw [treeNode_cons₂, treeNode_cons₂, alGet, if_neg h]

theorem treeNode_head_none {cs : List (Bytes × PyTree)} {p : Bytes} {ps : List Bytes}
    (h : alGet cs p = none) : treeNode cs (p :: ps) = none := by
  cases ps with
  | nil => rw [treeNode_single, h]
  | cons y ys => rw [treeNode_cons₂, h]

theorem stripPre_self {a : Bytes} (ha : a ≠ []) : stripPre a a = none := by
  rw [stripPre, if_neg ha, if_neg ?hp]
  case hp =>
    intro hcontr
    have hlen := (List.isPrefixOf_iff_prefix.mp hcontr).length_le
    simp only [List.length_append, List.length_singleton] at hlen
    omega

theorem nameSafe_not_slash_start {n : Bytes} (hn : nameSafe n = true) :
    ¬ pyStartsWith [slashChar] n = true := by
  intro hcontr
  rw [pyStartsWith] at hcontr
  obtain ⟨t, ht⟩ := List.isPrefixOf_iff_prefix.mp hcontr
  have hm : slashChar ∈ n := by rw [← ht]; simp
  exact (nameSafe_chars n hn slashChar hm).2.2.1 rfl

theorem nameSafe_split_self {n : Bytes} (hn : nameSafe n = true) :
    pySplitChar slashChar n = [n] :=
  pySplitChar_no_sep slashChar n (fun c hc => (nameSafe_chars n hn c hc).2.2.1)

theorem stripPre_eq_pathJoin {pre n q : Bytes} (hn : ¬ pyStartsWith [slashChar] n = true)
    (h : stripPre pre q = some n) : q = pyPathJoin pre n := by
  rw [pyPathJoin_eq pre n hn]
  by_cases hp : pre = []
  · subst hp
    rw [if_pos rfl]
    rw [stripPre_nilPre] at h
    cases h
    rfl
  · rw [if_neg hp]
    exact (stripPre_some_iff hp).mp h

theorem flatLook_strip_none {pre : Bytes} {cs : List (Bytes × PyTree)}
    {files : List (Bytes × Bytes)} {q : Bytes} (h : stripPre pre q = none) :
    flatLook pre cs files q = alGet files q := by
  rw [flatLook, h]

theorem flatLook_strip_some {pre : Bytes} {cs : List (Bytes × PyTree)}
    {files : List (Bytes × Bytes)} {q r : Bytes} (h : stripPre pre q = some r) :
    flatLook pre cs files q =
      match treeGet cs (pySplitChar slashChar r) with
      | some h => some h
      | none => alGet files q := by
  rw [flatLook, h]

/-- FLAT: pointwise description of the dictionary a flat walk accumulates, for
any well-formed children dictionary. -/
theorem flattenF_alGet :
    ∀ d : Nat, ∀ cs : List (Bytes × PyTree), treeDepthL cs < d → treeWfL cs = true →
      ∀ pre files q, alGet (flattenF pre cs files) q = flatLook pre cs files q := by
  intro d
  induction d with
  | zero =>
    intro cs hd
    omega
  | succ d ih =>
    intro cs
    induction cs with
    | nil =>
      intro _ _ pre files q
      rw [flattenF_nil]
      rcases hsp : stripPre pre q with _ | r
      · rw [flatLook_strip_none hsp]
      · rw [flatLook_strip_some hsp, treeGet_nilcs]
    | cons e rest ihr =>
      obtain ⟨n, t⟩ := e
      cases t with
      | blob h =>
        intro hd hwf pre files q
        rw [treeWfL_cons_blob] at hwf
        simp only [Bool.and_eq_true, Bool.not_eq_true'] at hwf
        obtain ⟨⟨⟨hn, hh⟩, hkey⟩, hwfr⟩ := hwf
        rw [treeDepthL_blob] at hd
        have hnss := nameSafe_not_slash_start hn
        rw [flattenF_blob,
          ihr hd hwfr pre (alSet files (pyPathJoin pre n) h) q]
        rcases hsp : stripPre pre q with _ | r
        · rw [flatLook_strip_none hsp, flatLook_strip_none hsp, alGet_alSet,
            if_neg ?hne]
          case hne =>
            intro he
            rw [← he, stripPre_pyPathJoin pre n hnss] at hsp
            cases hsp
        · rw [flatLook_strip_some hsp, flatLook_strip_some hsp]
          by_cases hq : q = pyPathJoin pre n
          · have hrn : r = n := by
              rw [hq, stripPre_pyPathJoin pre n hnss] at hsp
              cases hsp
              rfl
            rw [hrn, nameSafe_split_self hn]
            have hget : treeGet ((n, PyTree.blob h) :: rest) [n] = some h :=
              treeGet_of_blob (by rw [treeNode_single, alGet_cons_self])
            have hgr : treeGet rest [n] = none :=
              treeGet_eq_none_of_node (by
                intro b hb
                rw [treeNode_single, alHasKey_false_alGet hkey] at hb
                cases hb)
            rw [hget, hgr, alGet_alSet, if_pos hq.symm]
          · rcases hps : pySplitChar slashChar r with _ | ⟨p₁, ps⟩
            · exact absurd hps (pySplitChar_ne_nil slashChar r)
            · have hsame : treeGet ((n, PyTree.blob h) :: rest) (p₁ :: ps) =
                  treeGet rest (p₁ :: ps) := by
                by_cases hp₁ : n = p₁
                · subst hp₁
                  cases ps with
                  | nil =>
                    have hrn : r = n := pySplitChar_eq_singleton hps
                    rw [hrn] at hsp
                    exact absurd (stripPre_eq_pathJoin hnss hsp) hq
                  | cons y ys =>
                    rw [@treeGet_eq_none_of_node ((n, PyTree.blob h) :: rest) _ ?hl,
                      treeGet_eq_none_of_node ?hr]
                    case hl =>
                      intro b hb
                      rw [treeNode_cons₂, alGet_cons_self] at hb
                      cases hb
                    case hr =>
                      intro b hb
                      rw [treeNode_head_none (alHasKey_false_alGet hkey)] at hb
                      cases hb
                · exact treeGet_congr (treeNode_cons_ne hp₁)
              rw [hsame]
              rcases hg : treeGet rest (p₁ :: ps) with _ | h'
              · rw [alGet_alSet, if_neg (fun he => hq he.symm)]
              · rfl
      | dir sub =>
        intro hd hwf pre files q
        rw [treeWfL_cons_dir] at hwf
        simp only [Bool.and_eq_true, Bool.not_eq_true'] at hwf
        obtain ⟨⟨⟨hn, hkey⟩, hwfs⟩, hwfr⟩ := hwf
        rw [treeDepthL_dir] at hd
        have hds : treeDepthL sub < d := by omega
        have hdr : treeDepthL rest < d + 1 := by omega
        have hnss := nameSafe_not_slash_start hn
        have hnne := nameSafe_ne_nil n hn
        rw [flattenF_dir,
          ihr hdr hwfr pre (flattenF (pyPathJoin pre n) sub files) q]
        have hinner := ih sub hds hwfs (pyPathJoin pre n) files q
        rcases hsp : stripPre pre q with _ | r
        · have hspj : stripPre (pyPathJoin pre n) q = none := by
            rcases hg : stripPre (pyPathJoin pre n) q with _ | r'
            · rfl
            · rw [(stripPre_pyPathJoin_iff pre n q r' hnss hnne).mp hg] at hsp
              cases hsp
          rw [flatLook_strip_none hsp, flatLook_strip_none hsp, hinner,
            flatLook_strip_none hspj]
        · rw [flatLook_strip_some hsp, flatLook_strip_some hsp]
          rcases hps : pySplitChar slashChar r with _ | ⟨p₁, ps⟩
          · exact absurd hps (pySplitChar_ne_nil slashChar r)
          · by_cases hp₁ : n = p₁
            · subst hp₁
              have hgr : treeGet rest (n :: ps) = none :=
                treeGet_eq_none_of_node (by
                  intro b hb
                  rw [treeNode_head_none (alHasKey_false_alGet hkey)] at hb
                  cases hb)
              rw [hgr, hinner]
              cases ps with
              | nil =>
                have hrn : r = n := pySplitChar_eq_singleton hps
                rw [hrn] at hsp
                have hqk : q = pyPathJoin pre n := stripPre_eq_pathJoin hnss hsp
                have hspj : stripPre (pyPathJoin pre n) q = none := by
                  rw [hqk]
                  exact stripPre_self (pyPathJoin_ne_nil pre n hnss hnne)
                rw [flatLook_strip_none hspj]
                have hcs : treeGet ((n, PyTree.dir sub) :: rest) [n] = none :=
                  treeGet_eq_none_of_node (by
                    intro b hb
                    rw [treeNode_single, alGet_cons_self] at hb
                    cases hb)
                rw [hcs]
              | cons y ys =>
                have hcomp : ∀ e ∈ pySplitChar slashChar r, ∀ c ∈ e, c ≠ slashChar :=
                  pySplitChar_mem_no_sep slashChar r
                have hrshape : r = n ++ slashChar :: pyJoin [slashChar] (y :: ys) := by
                  have hj := pyJoin_pySplitChar slashChar r
                  rw [hps] at hj
                  rw [← hj]
                  show n ++ [slashChar] ++ pyJoin [slashChar] (y :: ys) =
                    n ++ slashChar :: pyJoin [slashChar] (y :: ys)
                  simp
                have hsplitr' : pySplitChar slashChar (pyJoin [slashChar] (y :: ys)) =
                    y :: ys := by
                  apply pySplitChar_pyJoin slashChar (y :: ys) (by simp)
                  intro e he
                  exact hcomp e (by rw [hps]; simp [he])
                have hspj : stripPre (pyPathJoin pre n) q =
                    some (pyJoin [slashChar] (y :: ys)) := by
                  apply (stripPre_pyPathJoin_iff pre n q _ hnss hnne).mpr
                  rw [hsp, hrshape]
                rw [flatLook_strip_some hspj, hsplitr']
                have hcs : treeGet ((n, PyTree.dir sub) :: rest) (n :: y :: ys) =
                    treeGet sub (y :: ys) :=
                  treeGet_congr
                    (treeNode_step (alGet_cons_self n (PyTree.dir sub) rest) (y :: ys)
                      (by simp))
                rw [hcs]
            · have hsame : treeGet ((n, PyTree.dir sub) :: rest) (p₁ :: ps) =
                  treeGet rest (p₁ :: ps) := treeGet_congr (treeNode_cons_ne hp₁)
              rw [hsame]
              rcases hg : treeGet rest (p₁ :: ps) with _ | h'
              · rw [hinner]
                have hspj : stripPre (pyPathJoin pre n) q = none := by
                  rcases hg₂ : stripPre (pyPathJoin pre n) q with _ | r'
                  · rfl
                  · have := (stripPre_pyPathJoin_iff pre n q r' hnss hnne).mp hg₂
                    rw [hsp] at this
                    cases this
                    rw [pySplitChar_append_sep slashChar n _
                      (fun c hc => (nameSafe_chars n hn c hc).2.2.1)] at hps
                    cases hps
                    exact absurd rfl hp₁
                rw [flatLook_strip_none hspj]
              · rfl

theorem mapSortT_eq_map (f : Nat) (l : List (Bytes × PyTree)) :
    mapSortT f l = l.map fun e => (e.1, sortVal f e.2) := by
  induction l with
  | nil => rfl
  | cons e rest ih =>
    obtain ⟨n, t⟩ := e
    cases t with
    | blob h => rw [mapSortT_blob, List.map_cons, ih]; rfl
    | dir sub => rw [mapSortT_dir, List.map_cons, ih]; rfl

theorem alGet_map_keyval {κ α β : Type} [DecidableEq κ] (g : α → β) (l : List (κ × α))
    (k : κ) : alGet (l.map fun e => (e.1, g e.2)) k = Option.map g (alGet l k) := by
  induction l with
  | nil => rfl
  | cons e rest ih =>
    obtain ⟨k', v⟩ := e
    rw [List.map_cons]
    show alGet ((k', g v) :: List.map (fun e => (e.1, g e.2)) rest) k =
      Option.map g (alGet ((k', v) :: rest) k)
    by_cases he : k' = k
    · rw [alGet, if_pos he, alGet, if_pos he]
      rfl
    · rw [alGet, if_neg he, alGet, if_neg he, ih]

theorem alGet_map_inj {κ κ₂ α β : Type} [DecidableEq κ] [DecidableEq κ₂]
    (F : κ → κ₂) (g : α → β) (hF : ∀ a b, F a = F b → a = b) (l : List (κ × α)) (q : κ) :
    alGet (l.map fun e => (F e.1, g e.2)) (F q) = Option.map g (alGet l q) := by
  induction l with
  | nil => rfl
  | cons e rest ih =>
    obtain ⟨k', v⟩ := e
    rw [List.map_cons]
    show alGet ((F k', g v) :: List.map (fun e => (F e.1, g e.2)) rest) (F q) =
      Option.map g (alGet ((k', v) :: rest) q)
    by_cases he : k' = q
    · rw [alGet, if_pos (by rw [he]), alGet, if_pos he]
      rfl
    · rw [alGet, if_neg (fun hc => he (hF k' q hc)), alGet, if_neg he, ih]

theorem treeDepthL_cons_entry (e : Bytes × PyTree) (rest : List (Bytes × PyTree)) :
    treeDepthL (e :: rest) = max (entryDepth e) (treeDepthL rest) := by
  obtain ⟨n, t⟩ := e
  cases t with
  | blob h => rw [treeDepthL_blob, entryDepth]; omega
  | dir sub => rw [treeDepthL_dir, entryDepth]

theorem treeDepthL_perm {l₁ l₂ : List (Bytes × PyTree)} (hp : List.Perm l₁ l₂) :
    treeDepthL l₁ = treeDepthL l₂ := by
  induction hp with
  | nil => rfl
  | cons x _ ih => rw [treeDepthL_cons_entry, treeDepthL_cons_entry, ih]
  | swap x y l =>
    rw [treeDepthL_cons_entry, treeDepthL_cons_entry,
      treeDepthL_cons_entry, treeDepthL_cons_entry]
    omega
  | trans _ _ ih₁ ih₂ => exact ih₁.trans ih₂

theorem sortVal_blob (f : Nat) (h : Bytes) : sortVal f (PyTree.blob h) = PyTree.blob h :=
  rfl

theorem sortVal_dir (f : Nat) (sub : List (Bytes × PyTree)) :
    sortVal f (PyTree.dir sub) = PyTree.dir (sortTreeL f sub) := rfl

theorem sortTreeL_zero (cs : List (Bytes × PyTree)) : sortTreeL 0 cs = cs := rfl

theorem treeDepthL_sortTreeL_le :
    ∀ d : Nat, ∀ cs : List (Bytes × PyTree), treeDepthL cs < d →
      ∀ f, treeDepthL (sortTreeL f cs) ≤ treeDepthL cs := by
  intro d
  induction d with
  | zero => intro cs hd; omega
  | succ d ih =>
    intro cs hd f
    cases f with
    | zero => rw [sortTreeL_zero]
    | succ f =>
      rw [sortTreeL_succ, mapSortT_eq_map]
      have haux : ∀ l : List (Bytes × PyTree),
          (∀ n sub, (n, PyTree.dir sub) ∈ l → treeDepthL sub < d) →
          treeDepthL (l.map fun e => (e.1, sortVal f e.2)) ≤ treeDepthL l := by
        intro l
        induction l with
        | nil => intro _; rw [List.map_nil]
        | cons e rest ihl =>
          intro hsubs
          obtain ⟨n, t⟩ := e
          rw [List.map_cons]
          cases t with
          | blob h =>
            show treeDepthL ((n, PyTree.blob h) ::
                List.map (fun e => (e.1, sortVal f e.2)) rest) ≤
              treeDepthL ((n, PyTree.blob h) :: rest)
            rw [treeDepthL_blob, treeDepthL_blob]
            exact ihl fun n₂ sub₂ hm => hsubs n₂ sub₂ (by simp [hm])
          | dir sub =>
            show treeDepthL ((n, PyTree.dir (sortTreeL f sub)) ::
                List.map (fun e => (e.1, sortVal f e.2)) rest) ≤
              treeDepthL ((n, PyTree.dir sub) :: rest)
            rw [treeDepthL_dir, treeDepthL_dir]
            have h₁ : treeDepthL (sortTreeL f sub) ≤ treeDepthL sub :=
              ih sub (hsubs n sub (by simp)) f
            have h₂ := ihl fun n₂ sub₂ hm => hsubs n₂ sub₂ (by simp [hm])
            omega
      calc treeDepthL ((sortByKey cs).map fun e => (e.1, sortVal f e.2)) ≤
            treeDepthL (sortByKey cs) := by
              apply haux
              intro n sub hm
              have hmc : (n, PyTree.dir sub) ∈ cs := mem_sortByKey.mp hm
              have := treeDepthL_mem_dir hmc
              omega
          _ = treeDepthL cs := treeDepthL_perm (sortByKey_perm cs)

theorem treeWfL_sortTreeL :
    ∀ d : Nat, ∀ cs : List (Bytes × PyTree), treeDepthL cs < d → treeWfL cs = true →
      ∀ f, treeWfL (sortTreeL f cs) = true := by
  intro d
  induction d with
  | zero => intro cs hd; omega
  | succ d ih =>
    intro cs hd hwf f
    cases f with
    | zero => rw [sortTreeL_zero]; exact hwf
    | succ f =>
      rw [sortTreeL_succ, mapSortT_eq_map]
      obtain ⟨hnd, hall⟩ := (treeWfL_iff cs).mp hwf
      apply (treeWfL_iff _).mpr
      constructor
      · have hkeys : ((sortByKey cs).map fun e => (e.1, sortVal f e.2)).map Prod.fst =
            (sortByKey cs).map Prod.fst := by
          rw [List.map_map]
          rfl
        rw [hkeys]
        exact ((sortByKey_perm cs).map Prod.fst).nodup_iff.mpr hnd
      · intro e₂ he₂
        obtain ⟨e, he, heq⟩ := List.mem_map.mp he₂
        have hec : e ∈ cs := mem_sortByKey.mp he
        obtain ⟨hn, hv⟩ := hall e hec
        subst heq
        refine ⟨hn, ?_⟩
        cases hval : e.2 with
        | blob h =>
          rw [hval] at hv
          exact hv
        | dir sub =>
          rw [hval] at hv
          show treeWfL (sortTreeL f sub) = true
          apply ih sub ?_ hv f
          have := @treeDepthL_mem_dir cs e.1 sub (by
            rw [← hval]
            exact hec)
          omega

theorem treeGet_sortTreeL :
    ∀ d : Nat, ∀ cs : List (Bytes × PyTree), treeDepthL cs < d → treeWfL cs = true →
      ∀ f q, treeGet (sortTreeL f cs) q = treeGet cs q := by
  intro d
  induction d with
  | zero => intro cs hd; omega
  | succ d ih =>
    intro cs hd hwf f q
    cases f with
    | zero => rw [sortTreeL_zero]
    | succ f =>
      have hnd := ((treeWfL_iff cs).mp hwf).1
      have halg : ∀ x, alGet (sortTreeL (f + 1) cs) x =
          Option.map (sortVal f) (alGet cs x) := by
        intro x
        rw [sortTreeL_succ, mapSortT_eq_map, alGet_map_keyval,
          alGet_perm_nodup (sortByKey_perm cs)
            (((sortByKey_perm cs).map Prod.fst).nodup_iff.mpr hnd) x]
      cases q with
      | nil => rfl
      | cons x q₂ =>
        cases q₂ with
        | nil =>
          rw [treeGet, treeGet, treeNode_single, treeNode_single, halg x]
          rcases hg : alGet cs x with _ | t
          · rfl
          · cases t with
            | blob h => rfl
            | dir sub => rfl
        | cons y ys =>
          rw [treeGet, treeGet, treeNode_cons₂, treeNode_cons₂, halg x]
          rcases hg : alGet cs x with _ | t
          · rfl
          · cases t with
            | blob h => rfl
            | dir sub =>
              show treeGet (sortTreeL f sub) (y :: ys) = treeGet sub (y :: ys)
              apply ih sub ?_ (treeWfL_alGet hwf hg) f (y :: ys)
              have := treeDepthL_mem_dir (alGet_mem cs x (PyTree.dir sub) hg)
              omega

/-- A well-formed tree's depth is bounded by the length of its longest
non-empty node path. -/
theorem treeDepthL_le_of_nodes :
    ∀ d : Nat, ∀ cs : List (Bytes × PyTree), treeDepthL cs < d → treeWfL cs = true →
      ∀ L : Nat, (∀ q, treeNode cs q ≠ none → q.length ≤ L) → treeDepthL cs ≤ L := by
  intro d
  induction d with
  | zero => intro cs hd; omega
  | succ d ih =>
    intro cs
    induction cs with
    | nil =>
      intro _ _ L _
      rw [treeDepthL_nil]
      omega
    | cons e rest ihr =>
      intro hd hwf L hnodes
      obtain ⟨n, t⟩ := e
      obtain ⟨hn, hv, hk, hwr⟩ := treeWfL_cons_parts n t rest hwf
      have hd' : treeDepthL rest < d + 1 := by
        rw [treeDepthL_cons_entry] at hd
        omega
      have hrest : treeDepthL rest ≤ L := by
        apply ihr hd' hwr L
        intro q hq
        apply hnodes q
        cases q with
        | nil =>
          rw [treeNode_nil] at hq
          exact absurd rfl hq
        | cons m q₂ =>
          by_cases hm : m = n
          · subst hm
            rw [treeNode_head_none (alHasKey_false_alGet hk)] at hq
            exact absurd rfl hq
          · rw [treeNode_cons_ne (fun he => hm he.symm)]
            exact hq
      cases t with
      | blob h =>
        rw [treeDepthL_blob]
        exact hrest
      | dir sub =>
        rw [treeDepthL_dir]
        have h1 := hnodes [n] (by
          rw [treeNode_single, alGet_cons_self]
          simp)
        simp only [List.length_cons, List.length_nil] at h1
        have hsub : treeDepthL sub ≤ L - 1 := by
          apply ih sub ?_ hv (L - 1)
          · intro q hq
            cases q with
            | nil =>
              rw [treeNode_nil] at hq
              exact absurd rfl hq
            | cons y ys =>
              have h2 := hnodes (n :: y :: ys) (by
                rw [treeNode_step (alGet_cons_self n (PyTree.dir sub) rest) (y :: ys)
                  (by simp)]
                exact hq)
              simp only [List.length_cons] at h2 ⊢
              omega
          · rw [treeDepthL_dir] at hd
            omega
        omega

theorem mem_pyJoin {sep : Char} :
    ∀ {ls : List Bytes} {c : Char}, c ∈ pyJoin [sep] ls → c = sep ∨ ∃ e ∈ ls, c ∈ e := by
  intro ls
  induction ls with
  | nil =>
    intro c hc
    rw [show pyJoin [sep] ([] : List Bytes) = [] from rfl] at hc
    cases hc
  | cons a rest ih =>
    intro c hc
    cases rest with
    | nil =>
      rw [show pyJoin [sep] [a] = a from rfl] at hc
      exact Or.inr ⟨a, by simp, hc⟩
    | cons b rest₂ =>
      rw [show pyJoin [sep] (a :: b :: rest₂) = a ++ [sep] ++ pyJoin [sep] (b :: rest₂)
        from rfl] at hc
      rcases List.mem_append.mp hc with h1 | h1
      · rcases List.mem_append.mp h1 with h2 | h2
        · exact Or.inr ⟨a, by simp, h2⟩
        · exact Or.inl (by simpa using h2)
      · rcases ih h1 with h2 | h2
        · exact Or.inl h2
        · obtain ⟨e, he, hce⟩ := h2
          exact Or.inr ⟨e, by simp [he], hce⟩

theorem pathWf_components {p : Bytes} (hp : pathWf p = true) :
    ∀ e ∈ pySplitChar slashChar p, nameSafe e = true := by
  rw [pathWf, Bool.and_eq_true, List.all_eq_true] at hp
  exact hp.1

theorem pathWf_no_nl {p : Bytes} (hp : pathWf p = true) : ∀ c ∈ p, c ≠ nlChar := by
  intro c hc
  rw [← pyJoin_pySplitChar slashChar p] at hc
  rcases mem_pyJoin hc with h1 | h1
  · subst h1
    decide
  · obtain ⟨e, he, hce⟩ := h1
    exact (nameSafe_chars e (pathWf_components hp e he) c hce).2.2.2

theorem pySplitChar_inj {sep : Char} {a b : Bytes}
    (h : pySplitChar sep a = pySplitChar sep b) : a = b := by
  have ha := pyJoin_pySplitChar sep a
  have hb := pyJoin_pySplitChar sep b
  rw [← ha, ← hb, h]

theorem lineEntry_eq {l h p : Bytes} (hpl : parseIndexLineHash l = some (h, p)) :
    lineEntry l = (pySplitChar slashChar p, h) := by
  rw [lineEntry, hpl]

theorem buildTreeLines_eq_buildEntries :
    ∀ (lines : List Bytes) (acc : List (Bytes × PyTree)),
      (∀ l ∈ lines, (parseIndexLineHash l).isSome) →
      buildTreeLines lines acc = buildEntries (lines.map lineEntry) acc := by
  intro lines
  induction lines with
  | nil => intro acc _; rfl
  | cons l rest ih =>
    intro acc hp
    have hl := hp l (by simp)
    rcases hpl : parseIndexLineHash l with _ | e
    · rw [hpl] at hl
      cases hl
    · obtain ⟨h, p⟩ := e
      rw [List.map_cons, lineEntry_eq hpl, buildTreeLines, buildEntries]
      simp only [hpl]
      rcases hins : insertTreePath acc (pySplitChar slashChar p) h with _ | acc₂
      · rfl
      · exact ih acc₂ fun l₂ hl₂ => hp l₂ (by simp [hl₂])

theorem properPre_eq_true {α : Type} [DecidableEq α] {a b : List α} (hpre : a <+: b)
    (hlt : a.length < b.length) : properPre a b = true := by
  rw [properPre, Bool.and_eq_true, decide_eq_true_eq]
  exact ⟨List.isPrefixOf_iff_prefix.mpr hpre, hlt⟩

theorem indexWf_mem {d : List (Bytes × (Bytes × Nat × Nat))} (hwf : indexWf d = true)
    {e : Bytes × (Bytes × Nat × Nat)} (he : e ∈ d) :
    pathWf e.1 = true ∧ hashSafe e.2.1 = true := by
  simp only [indexWf, Bool.and_eq_true, List.all_eq_true] at hwf
  exact hwf.1.1 e he

theorem indexWf_nodup {d : List (Bytes × (Bytes × Nat × Nat))} (hwf : indexWf d = true) :
    (d.map Prod.fst).Nodup := by
  simp only [indexWf, Bool.and_eq_true, List.all_eq_true, decide_eq_true_eq] at hwf
  exact hwf.1.2

theorem indexWf_pair {d : List (Bytes × (Bytes × Nat × Nat))} (hwf : indexWf d = true)
    {e₁ e₂ : Bytes × (Bytes × Nat × Nat)} (h₁ : e₁ ∈ d) (h₂ : e₂ ∈ d)
    (hne : e₁.1 ≠ e₂.1) :
    properPre (pySplitChar slashChar e₁.1) (pySplitChar slashChar e₂.1) = false := by
  simp only [indexWf, Bool.and_eq_true, List.all_eq_true] at hwf
  have := hwf.2 e₁ h₁ e₂ h₂
  simp only [Bool.or_eq_true, decide_eq_true_eq, Bool.not_eq_true'] at this
  rcases this with h | h
  · exact absurd h hne
  · exact h

theorem index_line_no_nl (h : Bytes) (m s : Nat) (p : Bytes)
    (hh : hashSafe h = true) (hp : pathWf p = true) :
    ∀ c ∈ index_line h m s p, c ≠ nlChar := by
  intro c hc
  rw [index_line] at hc
  rcases List.mem_append.mp hc with h1 | h1
  · exact (hashSafe_chars h hh c h1).2.2.1
  · rcases List.mem_cons.mp h1 with h1 | h1
    · subst h1; decide
    · rcases List.mem_append.mp h1 with h2 | h2
      · have := digit_char_props c (natToDec_digit m c h2).1 (natToDec_digit m c h2).2
        exact this.2.2.2.2.1
      · rcases List.mem_cons.mp h2 with h3 | h3
        · subst h3; decide
        · rcases List.mem_append.mp h3 with h4 | h4
          · have := digit_char_props c (natToDec_digit s c h4).1 (natToDec_digit s c h4).2
            exact this.2.2.2.2.1
          · rcases List.mem_cons.mp h4 with h5 | h5
            · subst h5; decide
            · exact pathWf_no_nl hp c h5

/-- `build_tree_from_index` on the exact bytes `write_index` lays down for a
well-formed index: it succeeds, the tree is well-formed, its blob lookups are
the index's path-to-hash map (on split paths), and its nodes stay inside the
index's paths. -/
theorem build_tree_from_index_spec (d : List (Bytes × (Bytes × Nat × Nat)))
    (hwf : indexWf d = true) :
    ∃ t, build_tree_from_index (some (write_index_content d)) = some t ∧
      treeWfL t = true ∧
      (∀ q, treeGet t q =
        alGet ((sortByKey d).map fun e => (pySplitChar slashChar e.1, e.2.1)) q) ∧
      (∀ q, treeNode t q ≠ none → ∃ e ∈ d, q <+: pySplitChar slashChar e.1) := by
  have hmemd : ∀ e ∈ sortByKey d, pathWf e.1 = true ∧ hashSafe e.2.1 = true :=
    fun e he => indexWf_mem hwf (mem_sortByKey.mp he)
  have hlines : pySplitLines (write_index_content d) =
      (sortByKey d).map fun e => index_line e.2.1 e.2.2.1 e.2.2.2 e.1 := by
    rw [write_index_content,
      show ((sortByKey d).map fun e => index_line e.2.1 e.2.2.1 e.2.2.2 e.1 ++ [nlChar]) =
        (((sortByKey d).map fun e => index_line e.2.1 e.2.2.1 e.2.2.2 e.1).map
          fun l => l ++ [nlChar]) from by rw [List.map_map]; rfl]
    apply pySplitLines_concatNl
    intro l hl
    obtain ⟨e, he, heq⟩ := List.mem_map.mp hl
    subst heq
    exact index_line_no_nl _ _ _ _ (hmemd e he).2 (hmemd e he).1
  have hparse : ∀ e ∈ sortByKey d,
      parseIndexLineHash (index_line e.2.1 e.2.2.1 e.2.2.2 e.1) = some (e.2.1, e.1) :=
    fun e he => parseIndexLineHash_index_line _ _ _ _ (hmemd e he).2 (hmemd e he).1
  have hmap : ((sortByKey d).map fun e => index_line e.2.1 e.2.2.1 e.2.2.2 e.1).map
      lineEntry = (sortByKey d).map fun e => (pySplitChar slashChar e.1, e.2.1) := by
    rw [List.map_map]
    apply List.map_congr_left
    intro e he
    show lineEntry (index_line e.2.1 e.2.2.1 e.2.2.2 e.1) = _
    rw [lineEntry_eq (hparse e he)]
  have hfwfe : ∀ e₂ ∈ (sortByKey d).map fun e => (pySplitChar slashChar e.1, e.2.1),
      e₂.1 ≠ [] ∧ (∀ n ∈ e₂.1, nameSafe n = true) ∧ hashSafe e₂.2 = true := by
    intro e₂ he₂
    obtain ⟨e, he, heq⟩ := List.mem_map.mp he₂
    subst heq
    exact ⟨pySplitChar_ne_nil slashChar e.1,
      fun n hn => pathWf_components (hmemd e he).1 n hn, (hmemd e he).2⟩
  have hfpair : ∀ e₁ ∈ (sortByKey d).map fun e => (pySplitChar slashChar e.1, e.2.1),
      ∀ e₂ ∈ (sortByKey d).map fun e => (pySplitChar slashChar e.1, e.2.1),
      e₁.1 ≠ e₂.1 → ¬ e₁.1 <+: e₂.1 := by
    intro e₁ he₁ e₂ he₂ hne hpre
    obtain ⟨a₁, ha₁, heq₁⟩ := List.mem_map.mp he₁
    obtain ⟨a₂, ha₂, heq₂⟩ := List.mem_map.mp he₂
    subst heq₁
    subst heq₂
    simp only at hne hpre
    have hane : a₁.1 ≠ a₂.1 := fun he => hne (by rw [he])
    have hpp := indexWf_pair hwf (mem_sortByKey.mp ha₁) (mem_sortByKey.mp ha₂) hane
    have hplen := hpre.length_le
    by_cases hlen : (pySplitChar slashChar a₁.1).length = (pySplitChar slashChar a₂.1).length
    · exact hne (List.IsPrefix.eq_of_length hpre hlen)
    · rw [properPre_eq_true hpre (by omega)] at hpp
      cases hpp
  have hfnd : (((sortByKey d).map fun e => (pySplitChar slashChar e.1, e.2.1)).map
      Prod.fst).Nodup := by
    rw [List.map_map]
    show ((sortByKey d).map fun e => pySplitChar slashChar e.1).Nodup
    rw [show ((sortByKey d).map fun e => pySplitChar slashChar e.1) =
      ((sortByKey d).map Prod.fst).map (pySplitChar slashChar) from by
        rw [List.map_map]; rfl]
    apply List.Nodup.map (fun a b => pySplitChar_inj)
    exact ((sortByKey_perm d).map Prod.fst).nodup_iff.mpr (indexWf_nodup hwf)
  obtain ⟨t, hbuild, htwf, htget, htnode⟩ := buildEntries_spec
    ((sortByKey d).map fun e => (pySplitChar slashChar e.1, e.2.1))
    hfwfe hfpair hfnd
    ((sortByKey d).map fun e => (pySplitChar slashChar e.1, e.2.1)) [] []
    (by rw [List.nil_append]) treeWfL_nil
    (fun q => by rw [treeGet_nilcs]; rfl)
    (fun q hq => absurd (treeNode_nilcs q) hq)
  refine ⟨t, ?_, htwf, htget, ?_⟩
  · rw [build_tree_from_index, hlines,
      buildTreeLines_eq_buildEntries _ [] (by
        intro l hl
        obtain ⟨e, he, heq⟩ := List.mem_map.mp hl
        subst heq
        rw [hparse e he]
        rfl), hmap]
    exact hbuild
  · intro q hq
    obtain ⟨e₂, he₂, hpre⟩ := htnode q hq
    obtain ⟨e, he, heq⟩ := List.mem_map.mp he₂
    subst heq
    exact ⟨e, mem_sortByKey.mp he, hpre⟩

theorem objHeader_append_ne_nil (k content : Bytes) : objHeader k content ++ content ≠ [] := by
  intro hc
  rw [objHeader] at hc
  obtain ⟨h1, _⟩ := List.append_eq_nil.mp hc
  obtain ⟨_, h2⟩ := List.append_eq_nil.mp h1
  cases h2

theorem storeHashed_nil (o : Oracle) : storeHashed o [] := by
  intro e he
  cases he

theorem hash_object_fst_eq (o : Oracle) (st : Store) (content k : Bytes) :
    (hash_object o st content k true).1 =
      (o.hashFn (objHeader k content ++ content),
        o.comp (objHeader k content ++ content)) :: st := rfl

theorem hash_object_snd_eq (o : Oracle) (st : Store) (content k : Bytes) (w : Bool) :
    (hash_object o st content k w).2 = o.hashFn (objHeader k content ++ content) := by
  cases w <;> rfl

theorem hash_object_hashed (o : Oracle) (st : Store) (content k : Bytes) (w : Bool)
    (hh : storeHashed o st) : storeHashed o (hash_object o st content k w).1 := by
  cases w with
  | false => exact hh
  | true =>
    intro e he
    rw [hash_object_fst_eq] at he
    rcases List.mem_cons.mp he with he₁ | he₂
    · exact ⟨objHeader k content ++ content, he₁, objHeader_append_ne_nil k content⟩
    · exact hh e he₂

theorem storeConsistent_of_hashed (o : Oracle)
    (hinj : ∀ a b, o.hashFn a = o.hashFn b → a = b)
    (hsafe : ∀ a, a ≠ [] → hashSafe (o.hashFn a) = true)
    (st : Store) (hh : storeHashed o st) : storeConsistent st = true := by
  simp only [storeConsistent, List.all_eq_true, Bool.and_eq_true]
  intro e₁ he₁
  obtain ⟨d₁, heq₁, hne₁⟩ := hh e₁ he₁
  constructor
  · rw [heq₁]
    exact hsafe d₁ hne₁
  · intro e₂ he₂
    obtain ⟨d₂, heq₂, hne₂⟩ := hh e₂ he₂
    simp only [Bool.or_eq_true, decide_eq_true_eq]
    by_cases hk : e₁.1 = e₂.1
    · right
      rw [heq₁, heq₂] at hk ⊢
      have hd : d₁ = d₂ := hinj d₁ d₂ hk
      rw [hd]
    · exact Or.inl hk

theorem write_tree_hashed (o : Oracle) :
    ∀ f : Nat,
      (∀ st cs, storeHashed o st → storeHashed o (write_tree o f st cs).1) ∧
      (∀ st l, storeHashed o st → storeHashed o (writeTreeEntries o f st l).1) := by
  intro f
  induction f with
  | zero =>
    have htree : ∀ (st : Store) (cs : List (Bytes × PyTree)),
        storeHashed o st → storeHashed o (write_tree o 0 st cs).1 := by
      intro st cs hh
      rw [write_tree_zero]
      exact hh
    refine ⟨htree, ?_⟩
    intro st l
    induction l generalizing st with
    | nil =>
      intro hh
      rw [writeTreeEntries_nil]
      exact hh
    | cons e rest ih =>
      obtain ⟨n, t⟩ := e
      cases t with
      | blob h =>
        intro hh
        rw [writeTreeEntries_blob]
        exact ih st hh
      | dir sub =>
        intro hh
        rw [writeTreeEntries_dir]
        exact ih _ (htree st sub hh)
  | succ f ihf =>
    have htree : ∀ (st : Store) (cs : List (Bytes × PyTree)),
        storeHashed o st → storeHashed o (write_tree o (f + 1) st cs).1 := by
      intro st cs hh
      rw [write_tree_succ]
      exact hash_object_hashed o _ _ _ true (ihf.2 st (sortByKey cs) hh)
    refine ⟨htree, ?_⟩
    intro st l
    induction l generalizing st with
    | nil =>
      intro hh
      rw [writeTreeEntries_nil]
      exact hh
    | cons e rest ih =>
      obtain ⟨n, t⟩ := e
      cases t with
      | blob h =>
        intro hh
        rw [writeTreeEntries_blob]
        exact ih st hh
      | dir sub =>
        intro hh
        rw [writeTreeEntries_dir]
        exact ih _ (htree st sub hh)

theorem decVal_natToDec : ∀ n : Nat, decVal (natToDec n) = n := by
  intro n
  induction n using Nat.strong_induction_on with
  | _ n ih =>
    rw [natToDec]
    split
    · next h =>
      show (0 * 10 + ((Char.ofNat (48 + n)).toNat - 48)) = n
      have := char_digit_range n h
      have hv : (Char.ofNat (48 + n)).toNat = 48 + n := by
        interval_cases n <;> decide
      omega
    · next h =>
      rw [decVal, List.foldl_append]
      have hrec : List.foldl (fun a c => a * 10 + (c.toNat - 48)) 0 (natToDec (n / 10)) =
          n / 10 := ih (n / 10) (Nat.div_lt_self (by omega) (by omega))
      rw [hrec]
      show n / 10 * 10 + ((Char.ofNat (48 + n % 10)).toNat - 48) = n
      have hv : (Char.ofNat (48 + n % 10)).toNat = 48 + n % 10 := by
        have hm : n % 10 < 10 := Nat.mod_lt _ (by omega)
        interval_cases h₂ : n % 10 <;> simp [h₂]
      rw [hv]
      omega

theorem natToDec_inj {m n : Nat} (h : natToDec m = natToDec n) : m = n := by
  rw [← decVal_natToDec m, ← decVal_natToDec n, h]

theorem char_toNat_inj {a b : Char} (h : a.toNat = b.toNat) : a = b := by
  rw [← Char.ofNat_toNat a, ← Char.ofNat_toNat b, h]

theorem append_sep_inj {sep : Char} {a₁ a₂ t₁ t₂ : Bytes}
    (h₁ : ∀ c ∈ a₁, c ≠ sep) (h₂ : ∀ c ∈ a₂, c ≠ sep)
    (he : a₁ ++ sep :: t₁ = a₂ ++ sep :: t₂) : a₁ = a₂ ∧ t₁ = t₂ := by
  have e₁ := pySplitOnce_append sep a₁ t₁ h₁
  have e₂ := pySplitOnce_append sep a₂ t₂ h₂
  rw [he, e₂] at e₁
  cases e₁
  exact ⟨rfl, rfl⟩

theorem natToDec_ne_dot (n : Nat) : ∀ c ∈ natToDec n, c ≠ Char.ofNat 46 := by
  intro c hc he
  have := (natToDec_digit n c hc).1
  rw [he] at this
  revert this
  decide

theorem witOracle_hash_nil : witOracle.hashFn [] = [] := rfl

theorem witOracle_hash_cons (c : Char) (r : Bytes) :
    witOracle.hashFn (c :: r) = natToDec c.toNat ++ Char.ofNat 46 :: witOracle.hashFn r :=
  rfl

theorem witOracle_hash_ne_nil (c : Char) (r : Bytes) : witOracle.hashFn (c :: r) ≠ [] := by
  rw [witOracle_hash_cons]
  intro hc
  obtain ⟨_, h2⟩ := List.append_eq_nil.mp hc
  cases h2

theorem witOracle_hashFn_inj : ∀ a b : Bytes, witOracle.hashFn a = witOracle.hashFn b → a = b := by
  intro a
  induction a with
  | nil =>
    intro b h
    cases b with
    | nil => rfl
    | cons c₂ r₂ =>
      rw [witOracle_hash_nil] at h
      exact absurd h.symm (witOracle_hash_ne_nil c₂ r₂)
  | cons c r ih =>
    intro b h
    cases b with
    | nil =>
      rw [witOracle_hash_nil] at h
      exact absurd h (witOracle_hash_ne_nil c r)
    | cons c₂ r₂ =>
      rw [witOracle_hash_cons, witOracle_hash_cons] at h
      obtain ⟨hh, ht⟩ := append_sep_inj (natToDec_ne_dot c.toNat) (natToDec_ne_dot c₂.toNat) h
      rw [char_toNat_inj (natToDec_inj hh), ih r₂ ht]

theorem witOracle_hash_chars :
    ∀ a : Bytes, ∀ c ∈ witOracle.hashFn a,
      (48 ≤ c.toNat ∧ c.toNat ≤ 57) ∨ c = Char.ofNat 46 := by
  intro a
  induction a with
  | nil =>
    intro c hc
    rw [witOracle_hash_nil] at hc
    cases hc
  | cons c₂ r ih =>
    intro c hc
    rw [witOracle_hash_cons] at hc
    rcases List.mem_append.mp hc with h1 | h1
    · exact Or.inl (natToDec_digit c₂.toNat c h1)
    · rcases List.mem_cons.mp h1 with h2 | h2
      · exact Or.inr h2
      · exact ih c h2

theorem witOracle_hash_safe : ∀ a : Bytes, a ≠ [] → hashSafe (witOracle.hashFn a) = true := by
  intro a hne
  simp only [hashSafe, Bool.and_eq_true, List.all_eq_true, decide_eq_true_eq]
  constructor
  · cases a with
    | nil => exact absurd rfl hne
    | cons c r => exact witOracle_hash_ne_nil c r
  · intro c hc
    rcases witOracle_hash_chars a c hc with h | h
    · obtain ⟨h48, h57⟩ := h
      have hp := digit_char_props c h48 h57
      refine ⟨⟨?_, ?_⟩, ?_⟩
      · rw [hp.1]; rfl
      · exact hp.2.1
      · simp only [lineBreakChar, Bool.not_eq_true', Bool.or_eq_false_iff,
          decide_eq_false_iff_not]
        omega
    · subst h
      decide

/-- The head line of a split survives whatever happens further right. -/
theorem pySplitLines_head_append (l₁ rest : Bytes) (hne : l₁ ≠ [])
    (hnl : ∀ c ∈ l₁, c ≠ nlChar) :
    ∃ tl, pySplitLines (l₁ ++ nlChar :: rest) = l₁ :: tl := by
  have hsp : pySplitChar nlChar (l₁ ++ nlChar :: rest) = l₁ :: pySplitChar nlChar rest :=
    pySplitChar_append_sep nlChar l₁ rest hnl
  rw [pySplitLines]
  rw [if_neg (by
    intro hc
    rw [List.isEmpty_iff] at hc
    exact hne (List.append_eq_nil.mp hc).1)]
  rw [hsp]
  by_cases hlast : (l₁ :: pySplitChar nlChar rest).getLast? = some []
  · rw [if_pos hlast]
    rcases hps : pySplitChar nlChar rest with _ | ⟨p, ps⟩
    · exact absurd hps (pySplitChar_ne_nil nlChar rest)
    · exact ⟨(p :: ps).dropLast, rfl⟩
  · rw [if_neg hlast]
    exact ⟨pySplitChar nlChar rest, rfl⟩

theorem commitContent_shape (tree_hash author_line committer_line message : Bytes) :
    commitContent tree_hash author_line committer_line message =
      (bs (r"tree ") ++ tree_hash) ++ nlChar ::
        pyJoin [nlChar] [author_line, committer_line, [], message] := by
  rw [commitContent]
  show (bs (r"tree ") ++ tree_hash) ++ [nlChar] ++
      pyJoin [nlChar] [author_line, committer_line, [], message] = _
  simp

theorem findTreeLine_head (th : Bytes) (hth : hashSafe th = true) (tl : List Bytes) :
    findTreeLine ((bs (r"tree ") ++ th) :: tl) = some th := by
  rw [findTreeLine]
  have hcond : pyStartsWith (bs (r"tree ")) (bs (r"tree ") ++ th) = true :=
    List.isPrefixOf_iff_prefix.mpr ⟨th, rfl⟩
  rw [if_pos hcond]
  have hshape : bs (r"tree ") ++ th = bs (r"tree") ++ spaceChar :: th := by
    show (bs (r"tree") ++ [spaceChar]) ++ th = _
    simp
  rw [hshape, pySplitChar_append_sep spaceChar _ th (by decide),
    pySplitChar_no_sep spaceChar th (fun c hc => (hashSafe_chars th hth c hc).2.1)]
  rfl

/-- Reading back the tree hash of a freshly stored parentless commit. -/
theorem get_commit_tree_hash_commit (o : Oracle) (st : Store) (th a cm m : Bytes)
    (hz : zlibFaithful o) (hsafe : ∀ x, x ≠ [] → hashSafe (o.hashFn x) = true)
    (hth : hashSafe th = true) :
    get_commit_tree_hash o
        (hash_object o st (commitContent th a cm m) (bs (r"commit")) true).1
        (hash_object o st (commitContent th a cm m) (bs (r"commit")) true).2 =
      some (some th) := by
  have hcne : (hash_object o st (commitContent th a cm m) (bs (r"commit")) true).2 ≠ [] := by
    rw [hash_object_snd_eq]
    exact hashSafe_ne_nil _
      (hsafe _ (objHeader_append_ne_nil (bs (r"commit")) (commitContent th a cm m)))
  rw [get_commit_tree_hash, if_neg hcne]
  have hread : read_object o
      (hash_object o st (commitContent th a cm m) (bs (r"commit")) true).1
      (hash_object o st (commitContent th a cm m) (bs (r"commit")) true).2 =
      some (bs (r"commit"), commitContent th a cm m) :=
    read_after_write_roundtrip o st (commitContent th a cm m) (bs (r"commit")) hz
      (Or.inr (Or.inr rfl))
  simp only [hread]
  rw [if_pos trivial]
  rw [commitContent_shape]
  obtain ⟨tl, htl⟩ := pySplitLines_head_append (bs (r"tree ") ++ th) _
    (by simp [bs])
    (by
      intro c hc
      rcases List.mem_append.mp hc with h1 | h1
      · exact (by decide : ∀ x ∈ bs (r"tree "), x ≠ nlChar) c h1
      · exact (hashSafe_chars th hth c h1).2.2.1)
  rw [htl, findTreeLine_head th hth tl]

/-- C5: for every well-formed index, building the nested tree, writing it as
tree objects, wrapping the root hash in a commit and reading the commit's
file set returns exactly the flat path-to-hash map of the index (for any
faithful codec, any collision-free hash with well-formed digests, and any
fuel above the longest path's component count). -/
theorem index_commit_files_roundtrip (o : Oracle) (hz : zlibFaithful o)
    (hinj : ∀ a b : Bytes, o.hashFn a = o.hashFn b → a = b)
    (hsafe : ∀ x : Bytes, x ≠ [] → hashSafe (o.hashFn x) = true)
    (d : List (Bytes × (Bytes × Nat × Nat))) (hwf : indexWf d = true)
    (author committer message : Bytes) (f : Nat) (hf0 : 0 < f)
    (hfuel : ∀ e ∈ d, (pySplitChar slashChar e.1).length < f) :
    ∃ res,
      index_to_commit_files o f (some (write_index_content d)) author committer message =
        some res ∧
      ∀ q, alGet res q = alGet (d.map fun e => (e.1, e.2.1)) q := by
  obtain ⟨t, hbuild, htwf, htget, htnode⟩ := build_tree_from_index_spec d hwf
  have hdepth : treeDepthL t < f := by
    have hb : treeDepthL t ≤ f - 1 := by
      apply treeDepthL_le_of_nodes (treeDepthL t + 1) t (Nat.lt_succ_self _) htwf (f - 1)
      intro q hq
      obtain ⟨e, he, hpre⟩ := htnode q hq
      have h₁ := hpre.length_le
      have h₂ := hfuel e he
      omega
    omega
  have hth_ex : ∃ dt : Bytes, (write_tree o f [] t).2 = o.hashFn dt ∧ dt ≠ [] := by
    cases f with
    | zero => omega
    | succ g =>
      rw [write_tree_succ, hash_object_snd_eq]
      exact ⟨_, rfl, objHeader_append_ne_nil _ _⟩
  obtain ⟨dt, hthdt, hdtne⟩ := hth_ex
  have hth_safe : hashSafe (write_tree o f [] t).2 = true := by
    rw [hthdt]
    exact hsafe dt hdtne
  have hth_ne : (write_tree o f [] t).2 ≠ [] := hashSafe_ne_nil _ hth_safe
  have hw1hashed : storeHashed o (write_tree o f [] t).1 :=
    (write_tree_hashed o f).1 [] t (storeHashed_nil o)
  have hstc_hashed : storeHashed o (hash_object o (write_tree o f [] t).1
      (commitContent (write_tree o f [] t).2 author committer message)
      (bs (r"commit")) true).1 :=
    hash_object_hashed o _ _ _ true hw1hashed
  have hcons := storeConsistent_of_hashed o hinj hsafe _ hstc_hashed
  have hmem : ∀ e ∈ (write_tree o f [] t).1,
      e ∈ (hash_object o (write_tree o f [] t).1
        (commitContent (write_tree o f [] t).2 author committer message)
        (bs (r"commit")) true).1 := by
    intro e he
    rw [hash_object_fst_eq]
    exact List.mem_cons_of_mem _ he
  have hread := (write_read_spec o hz f).1 [] t
    (hash_object o (write_tree o f [] t).1
      (commitContent (write_tree o f [] t).2 author committer message)
      (bs (r"commit")) true).1
    f [] [] htwf hdepth hdepth hcons hmem
  have hcth := get_commit_tree_hash_commit o (write_tree o f [] t).1
    (write_tree o f [] t).2 author committer message hz hsafe hth_safe
  have hch_safe : hashSafe (hash_object o (write_tree o f [] t).1
      (commitContent (write_tree o f [] t).2 author committer message)
      (bs (r"commit")) true).2 = true := by
    rw [hash_object_snd_eq]
    exact hsafe _ (objHeader_append_ne_nil _ _)
  have hch_ne : (hash_object o (write_tree o f [] t).1
      (commitContent (write_tree o f [] t).2 author committer message)
      (bs (r"commit")) true).2 ≠ [] := hashSafe_ne_nil _ hch_safe
  have hic : index_to_commit o f (some (write_index_content d)) author committer message =
      some (hash_object o (write_tree o f [] t).1
        (commitContent (write_tree o f [] t).2 author committer message)
        (bs (r"commit")) true) := by
    rw [index_to_commit, hbuild]
  refine ⟨flattenF [] (sortTreeL f t) [], ?_, ?_⟩
  · rw [index_to_commit_files, hic]
    show get_commit_files o _ f (some _) = _
    rw [get_commit_files]
    rw [if_neg hch_ne]
    simp only [hcth]
    rw [if_neg hth_ne]
    exact hread
  · intro q
    have hWT : treeWfL (sortTreeL f t) = true :=
      treeWfL_sortTreeL (treeDepthL t + 1) t (Nat.lt_succ_self _) htwf f
    rw [flattenF_alGet (treeDepthL (sortTreeL f t) + 1) (sortTreeL f t)
      (Nat.lt_succ_self _) hWT [] [] q]
    rw [flatLook_strip_some (stripPre_nilPre q)]
    rw [treeGet_sortTreeL (treeDepthL t + 1) t (Nat.lt_succ_self _) htwf f
      (pySplitChar slashChar q)]
    rw [htget (pySplitChar slashChar q)]
    rw [alGet_map_inj (pySplitChar slashChar) Prod.fst (fun a b => pySplitChar_inj)
      (sortByKey d) q]
    rw [alGet_perm_nodup (sortByKey_perm d)
      (((sortByKey_perm d).map Prod.fst).nodup_iff.mpr (indexWf_nodup hwf)) q]
    rw [alGet_map_keyval Prod.fst d q]
    rcases halg : alGet d q with _ | v
    · rfl
    · rfl

/-- Witness for C5 at a concrete two-entry index (a name with a space and a
nested directory), with the identity codec and the injective decimal-dump
hash standing in for zlib and SHA-1. -/
theorem index_commit_files_roundtrip_wit :
    zlibFaithful witOracle ∧ indexWf witIndex = true ∧ 0 < 3 ∧
      (∀ e ∈ witIndex, (pySplitChar slashChar e.1).length < 3) ∧
      ∃ res,
        index_to_commit_files witOracle 3 (some (write_index_content witIndex))
          (bs (r"author x")) (bs (r"committer y")) (bs (r"m")) = some res ∧
        ∀ q, alGet res q = alGet (witIndex.map fun e => (e.1, e.2.1)) q :=
  ⟨fun _ => rfl, by decide, by decide, by decide,
    index_commit_files_roundtrip witOracle (fun _ => rfl) witOracle_hashFn_inj
      witOracle_hash_safe witIndex (by decide) (bs (r"author x")) (bs (r"committer y"))
      (bs (r"m")) 3 (by decide) (by decide)⟩

/-- C6 counterexample: with the object already present in the store (after a
first persisting call), a second `hash_object` with `persist` still issues a
fresh write of the same path — there is no existence check — and its trace
contains no rename of a temporary file, only a direct `open(path, 'wb')`
write. -/
theorem hash_object_no_existence_check_cx :
    alGet (hash_object witOracle [] (bs (r"hi")) (bs (r"blob")) true).1
        (hash_object witOracle [] (bs (r"hi")) (bs (r"blob")) true).2 ≠ none ∧
    (hash_object witOracle (hash_object witOracle [] (bs (r"hi")) (bs (r"blob")) true).1
        (bs (r"hi")) (bs (r"blob")) true).1 ≠
      (hash_object witOracle [] (bs (r"hi")) (bs (r"blob")) true).1 ∧
    (∃ p d, FsOp.writeFile p d ∈ hash_object_ops witOracle (bs (r"hi")) (bs (r"blob")) true) ∧
    ∀ op ∈ hash_object_ops witOracle (bs (r"hi")) (bs (r"blob")) true,
      ∀ src dst, op ≠ FsOp.rename src dst := by
  refine ⟨?_, ?_, ?_, ?_⟩
  · rw [hash_object_fst_eq, hash_object_snd_eq, alGet_cons_self]
    intro hc
    cases hc
  · rw [hash_object_fst_eq _ ((hash_object witOracle [] (bs (r"hi")) (bs (r"blob")) true).1)]
    intro hc
    have := congrArg List.length hc
    simp at this
  · refine ⟨objPath (witOracle.hashFn (objHeader (bs (r"blob")) (bs (r"hi")) ++ bs (r"hi"))),
      witOracle.comp (objHeader (bs (r"blob")) (bs (r"hi")) ++ bs (r"hi")), ?_⟩
    rw [hash_object_ops, if_pos rfl]
    simp
  · intro op hop src dst
    rw [hash_object_ops, if_pos rfl] at hop
    rcases List.mem_cons.mp hop with he | he
    · subst he
      intro hc
      cases hc
    · rcases List.mem_cons.mp he with he₂ | he₂
      · subst he₂
        intro hc
        cases hc
      · cases he₂

/-- C6 (amended): `hash_object` returns the hash unconditionally; with
`persist` it always stores the compressed object under
`.pit/objects/<prefix>/<rest>` — with no existence check, so also when the
object is already present — by a plain `makedirs` plus one direct
`open(path, 'wb')` write, never a temporary file or a rename; without
`persist` it touches nothing. -/
theorem hash_object_always_direct_write (o : Oracle) (st : Store) (content k : Bytes) :
    (hash_object o st content k false).1 = st ∧
    (hash_object o st content k false).2 = o.hashFn (objHeader k content ++ content) ∧
    (hash_object o st content k true).1 =
      (o.hashFn (objHeader k content ++ content),
        o.comp (objHeader k content ++ content)) :: st ∧
    (hash_object o st content k true).2 = o.hashFn (objHeader k content ++ content) ∧
    hash_object_ops o content k false = [] ∧
    hash_object_ops o content k true =
      [FsOp.mkdir (pyPathJoin (pyPathJoin (bs (r".pit")) (bs (r"objects")))
          ((o.hashFn (objHeader k content ++ content)).take 2)),
        FsOp.writeFile (objPath (o.hashFn (objHeader k content ++ content)))
          (o.comp (objHeader k content ++ content))] ∧
    ∀ op ∈ hash_object_ops o content k true, ∀ src dst, op ≠ FsOp.rename src dst := by
  refine ⟨rfl, rfl, rfl, rfl, rfl, by rw [hash_object_ops, if_pos rfl], ?_⟩
  intro op hop src dst
  rw [hash_object_ops, if_pos rfl] at hop
  rcases List.mem_cons.mp hop with he | he
  · subst he
    intro hc
    cases hc
  · rcases List.mem_cons.mp he with he₂ | he₂
    · subst he₂
      intro hc
      cases hc
    · cases he₂

theorem lcaLoop_succ (P : Bytes → List Bytes) (f : Nat)
    (visited queue1 queue2 anc1 anc2 : List Bytes) :
    lcaLoop P (f + 1) visited queue1 queue2 anc1 anc2 =
      if queue1 = [] ∧ queue2 = [] then none
      else
        match queue1 with
        | current1 :: q1rest =>
          if current1 ∈ anc2 then some current1
          else
            match lcaVisit P visited q1rest anc1 current1 with
            | (visited₂, queue1₂, anc1₂) =>
              match queue2 with
              | current2 :: q2rest =>
                if current2 ∈ anc1₂ then some current2
                else
                  match lcaVisit P visited₂ q2rest anc2 current2 with
                  | (visited₃, queue2₃, anc2₃) =>
                    lcaLoop P f visited₃ queue1₂ queue2₃ anc1₂ anc2₃
              | [] => lcaLoop P f visited₂ queue1₂ [] anc1₂ anc2
        | [] =>
          match queue2 with
          | current2 :: q2rest =>
            if current2 ∈ anc1 then some current2
            else
              match lcaVisit P visited q2rest anc2 current2 with
              | (visited₃, queue2₃, anc2₃) =>
                lcaLoop P f visited₃ [] queue2₃ anc1 anc2₃
          | [] => none := rfl

theorem addNew_spec :
    ∀ (ps anc queue : List Bytes),
      (∀ x ∈ (addNew anc queue ps).1, x ∈ anc ∨ x ∈ ps) ∧
      (∀ x ∈ anc, x ∈ (addNew anc queue ps).1) ∧
      (∀ x ∈ (addNew anc queue ps).2, x ∈ queue ∨ x ∈ ps) ∧
      (∀ x ∈ ps, x ∈ (addNew anc queue ps).1) := by
  intro ps
  induction ps with
  | nil =>
    intro anc queue
    exact ⟨fun x hx => Or.inl hx, fun x hx => hx, fun x hx => Or.inl hx,
      fun x hx => absurd hx (List.not_mem_nil x)⟩
  | cons p ps ih =>
    intro anc queue
    rw [addNew]
    by_cases hp : p ∈ anc
    · rw [if_pos hp]
      obtain ⟨h1, h2, h3, h4⟩ := ih anc queue
      refine ⟨?_, h2, ?_, ?_⟩
      · intro x hx
        rcases h1 x hx with h | h
        · exact Or.inl h
        · exact Or.inr (by simp [h])
      · intro x hx
        rcases h3 x hx with h | h
        · exact Or.inl h
        · exact Or.inr (by simp [h])
      · intro x hx
        rcases List.mem_cons.mp hx with he | he
        · subst he
          exact h2 x hp
        · exact h4 x he
    · rw [if_neg hp]
      obtain ⟨h1, h2, h3, h4⟩ := ih (p :: anc) (queue ++ [p])
      refine ⟨?_, ?_, ?_, ?_⟩
      · intro x hx
        rcases h1 x hx with h | h
        · rcases List.mem_cons.mp h with he | he
          · exact Or.inr (by simp [he])
          · exact Or.inl he
        · exact Or.inr (by simp [h])
      · intro x hx
        exact h2 x (by simp [hx])
      · intro x hx
        rcases h3 x hx with h | h
        · rcases List.mem_append.mp h with he | he
          · exact Or.inl he
          · have hxp : x = p := by simpa using he
            exact Or.inr (by simp [hxp])
        · exact Or.inr (by simp [h])
      · intro x hx
        rcases List.mem_cons.mp hx with he | he
        · subst he
          exact h2 x (by simp)
        · exact h4 x he

theorem lcaVisit_anc (P : Bytes → List Bytes) (visited queue anc : List Bytes)
    (current : Bytes) :
    ∀ x ∈ (lcaVisit P visited queue anc current).2.2, x ∈ anc ∨ x ∈ P current := by
  rw [lcaVisit]
  by_cases hv : current ∈ visited
  · rw [if_pos hv]
    exact fun x hx => Or.inl hx
  · rw [if_neg hv]
    rcases han : addNew anc queue (P current) with ⟨anc₂, queue₂⟩
    intro x hx
    have := (addNew_spec (P current) anc queue).1 x (by rw [han]; exact hx)
    exact this

theorem lcaVisit_anc_mono (P : Bytes → List Bytes) (visited queue anc : List Bytes)
    (current : Bytes) :
    ∀ x ∈ anc, x ∈ (lcaVisit P visited queue anc current).2.2 := by
  rw [lcaVisit]
  by_cases hv : current ∈ visited
  · rw [if_pos hv]
    exact fun x hx => hx
  · rw [if_neg hv]
    rcases han : addNew anc queue (P current) with ⟨anc₂, queue₂⟩
    intro x hx
    have := (addNew_spec (P current) anc queue).2.1 x hx
    rw [han] at this
    exact this

theorem lcaVisit_queue (P : Bytes → List Bytes) (visited queue anc : List Bytes)
    (current : Bytes) :
    ∀ x ∈ (lcaVisit P visited queue anc current).2.1,
      x ∈ queue ∨ x ∈ (lcaVisit P visited queue anc current).2.2 := by
  rw [lcaVisit]
  by_cases hv : current ∈ visited
  · rw [if_pos hv]
    exact fun x hx => Or.inl hx
  · rw [if_neg hv]
    rcases han : addNew anc queue (P current) with ⟨anc₂, queue₂⟩
    intro x hx
    obtain ⟨_, _, h3, h4⟩ := addNew_spec (P current) anc queue
    rw [han] at h3 h4
    rcases h3 x hx with h | h
    · exact Or.inl h
    · exact Or.inr (h4 x h)

theorem lcaLoop_sound (P : Bytes → List Bytes) (a b : Bytes) :
    ∀ fuel : Nat, ∀ visited queue1 queue2 anc1 anc2 c,
      (∀ x ∈ anc1, Reach P a x) → (∀ x ∈ anc2, Reach P b x) →
      (∀ x ∈ queue1, x ∈ anc1) → (∀ x ∈ queue2, x ∈ anc2) →
      lcaLoop P fuel visited queue1 queue2 anc1 anc2 = some c →
      Reach P a c ∧ Reach P b c := by
  intro fuel
  induction fuel with
  | zero =>
    intro visited queue1 queue2 anc1 anc2 c _ _ _ _ hres
    cases hres
  | succ f ih =>
    intro visited queue1 queue2 anc1 anc2 c ha1 ha2 hq1 hq2 hres
    rw [lcaLoop_succ] at hres
    by_cases hqe : queue1 = [] ∧ queue2 = []
    · rw [if_pos hqe] at hres
      cases hres
    · rw [if_neg hqe] at hres
      rcases queue1 with _ | ⟨current1, q1rest⟩
      · rcases queue2 with _ | ⟨current2, q2rest⟩
        · exact Option.noConfusion hres
        · have hres₂ :
              (if current2 ∈ anc1 then some current2
                else
                  match lcaVisit P visited q2rest anc2 current2 with
                  | (visited₃, queue2₃, anc2₃) =>
                    lcaLoop P f visited₃ [] queue2₃ anc1 anc2₃) = some c := hres
          by_cases hc2 : current2 ∈ anc1
          · rw [if_pos hc2] at hres₂
            cases hres₂
            exact ⟨ha1 c hc2, ha2 c (hq2 c (by simp))⟩
          · rw [if_neg hc2] at hres₂
            rcases hlv : lcaVisit P visited q2rest anc2 current2 with
              ⟨visited₃, queue2₃, anc2₃⟩
            rw [hlv] at hres₂
            have hres₃ : lcaLoop P f visited₃ [] queue2₃ anc1 anc2₃ = some c := hres₂
            apply ih visited₃ [] queue2₃ anc1 anc2₃ c ha1 ?_
              (fun x hx => absurd hx (List.not_mem_nil x)) ?_ hres₃
            · intro x hx
              have h₂ := lcaVisit_anc P visited q2rest anc2 current2
              rw [hlv] at h₂
              rcases h₂ x hx with h | h
              · exact ha2 x h
              · exact Reach.step (ha2 current2 (hq2 current2 (by simp))) h
            · intro x hx
              have h₂ := lcaVisit_queue P visited q2rest anc2 current2
              rw [hlv] at h₂
              rcases h₂ x hx with h | h
              · have h₃ := lcaVisit_anc_mono P visited q2rest anc2 current2
                rw [hlv] at h₃
                exact h₃ x (hq2 x (by simp [h]))
              · exact h
      · rcases queue2 with _ | ⟨current2, q2rest⟩
        · have hres₂ :
              (if current1 ∈ anc2 then some current1
                else
                  match lcaVisit P visited q1rest anc1 current1 with
                  | (visited₂, queue1₂, anc1₂) =>
                    lcaLoop P f visited₂ queue1₂ [] anc1₂ anc2) = some c := hres
          by_cases hc1 : current1 ∈ anc2
          · rw [if_pos hc1] at hres₂
            cases hres₂
            exact ⟨ha1 c (hq1 c (by simp)), ha2 c hc1⟩
          · rw [if_neg hc1] at hres₂
            rcases hlv1 : lcaVisit P visited q1rest anc1 current1 with
              ⟨visited₂, queue1₂, anc1₂⟩
            rw [hlv1] at hres₂
            have hres₃ : lcaLoop P f visited₂ queue1₂ [] anc1₂ anc2 = some c := hres₂
            apply ih visited₂ queue1₂ [] anc1₂ anc2 c ?_ ha2 ?_
              (fun x hx => absurd hx (List.not_mem_nil x)) hres₃
            · intro x hx
              have h₂ := lcaVisit_anc P visited q1rest anc1 current1
              rw [hlv1] at h₂
              rcases h₂ x hx with h | h
              · exact ha1 x h
              · exact Reach.step (ha1 current1 (hq1 current1 (by simp))) h
            · intro x hx
              have h₂ := lcaVisit_queue P visited q1rest anc1 current1
              rw [hlv1] at h₂
              rcases h₂ x hx with h | h
              · have h₃ := lcaVisit_anc_mono P visited q1rest anc1 current1
                rw [hlv1] at h₃
                exact h₃ x (hq1 x (by simp [h]))
              · exact h
        · have hres₂ :
              (if current1 ∈ anc2 then some current1
                else
                  match lcaVisit P visited q1rest anc1 current1 with
                  | (visited₂, queue1₂, anc1₂) =>
                    if current2 ∈ anc1₂ then some current2
                    else
                      match lcaVisit P visited₂ q2rest anc2 current2 with
                      | (visited₃, queue2₃, anc2₃) =>
                        lcaLoop P f visited₃ queue1₂ queue2₃ anc1₂ anc2₃) = some c := hres
          by_cases hc1 : current1 ∈ anc2
          · rw [if_pos hc1] at hres₂
            cases hres₂
            exact ⟨ha1 c (hq1 c (by simp)), ha2 c hc1⟩
          · rw [if_neg hc1] at hres₂
            rcases hlv1 : lcaVisit P visited q1rest anc1 current1 with
              ⟨visited₂, queue1₂, anc1₂⟩
            rw [hlv1] at hres₂
            have ha1₂ : ∀ x ∈ anc1₂, Reach P a x := by
              intro x hx
              have h₂ := lcaVisit_anc P visited q1rest anc1 current1
              rw [hlv1] at h₂
              rcases h₂ x hx with h | h
              · exact ha1 x h
              · exact Reach.step (ha1 current1 (hq1 current1 (by simp))) h
            have hq1₂ : ∀ x ∈ queue1₂, x ∈ anc1₂ := by
              intro x hx
              have h₂ := lcaVisit_queue P visited q1rest anc1 current1
              rw [hlv1] at h₂
              rcases h₂ x hx with h | h
              · have h₃ := lcaVisit_anc_mono P visited q1rest anc1 current1
                rw [hlv1] at h₃
                exact h₃ x (hq1 x (by simp [h]))
              · exact h
            have hres₃ :
                (if current2 ∈ anc1₂ then some current2
                  else
                    match lcaVisit P visited₂ q2rest anc2 current2 with
                    | (visited₃, queue2₃, anc2₃) =>
                      lcaLoop P f visited₃ queue1₂ queue2₃ anc1₂ anc2₃) = some c := hres₂
            by_cases hc2 : current2 ∈ anc1₂
            · rw [if_pos hc2] at hres₃
              cases hres₃
              exact ⟨ha1₂ c hc2, ha2 c (hq2 c (by simp))⟩
            · rw [if_neg hc2] at hres₃
              rcases hlv2 : lcaVisit P visited₂ q2rest anc2 current2 with
                ⟨visited₃, queue2₃, anc2₃⟩
              rw [hlv2] at hres₃
              have hres₄ : lcaLoop P f visited₃ queue1₂ queue2₃ anc1₂ anc2₃ = some c :=
                hres₃
              apply ih visited₃ queue1₂ queue2₃ anc1₂ anc2₃ c ha1₂ ?_ hq1₂ ?_ hres₄
              · intro x hx
                have h₂ := lcaVisit_anc P visited₂ q2rest anc2 current2
                rw [hlv2] at h₂
                rcases h₂ x hx with h | h
                · exact ha2 x h
                · exact Reach.step (ha2 current2 (hq2 current2 (by simp))) h
              · intro x hx
                have h₂ := lcaVisit_queue P visited₂ q2rest anc2 current2
                rw [hlv2] at h₂
                rcases h₂ x hx with h | h
                · have h₃ := lcaVisit_anc_mono P visited₂ q2rest anc2 current2
                  rw [hlv2] at h₃
                  exact h₃ x (hq2 x (by simp [h]))
                · exact h

/-- C9: `_find_common_ancestor` returns `a` immediately on `lca(a, a)`, and
whenever the breadth-first search returns a commit `c` rather than `None`,
`c` is reachable from both arguments along parent edges. -/
theorem find_common_ancestor_spec (P : Bytes → List Bytes) (fuel : Nat) :
    (∀ a, find_common_ancestor P fuel a a = some a) ∧
    ∀ a b c, find_common_ancestor P fuel a b = some c →
      Reach P a c ∧ Reach P b c := by
  constructor
  · intro a
    rw [find_common_ancestor, if_pos rfl]
  · intro a b c hres
    rw [find_common_ancestor] at hres
    by_cases hab : a = b
    · rw [if_pos hab] at hres
      cases hres
      subst hab
      exact ⟨Reach.refl a, Reach.refl a⟩
    · rw [if_neg hab] at hres
      apply lcaLoop_sound P a b fuel [] [a] [b] [a] [b] c ?_ ?_ ?_ ?_ hres
      · intro x hx
        have : x = a := by simpa using hx
        subst this
        exact Reach.refl x
      · intro x hx
        have : x = b := by simpa using hx
        subst this
        exact Reach.refl x
      · exact fun x hx => hx
      · exact fun x hx => hx

/-- Witness for C9: on the two-branch graph the search returns the shared
parent, which the theorem certifies reachable from both sides. -/
theorem find_common_ancestor_spec_wit :
    find_common_ancestor witParents 3 (bs (r"a")) (bs (r"a")) = some (bs (r"a")) ∧
    find_common_ancestor witParents 3 (bs (r"a")) (bs (r"b")) = some (bs (r"r")) ∧
    (Reach witParents (bs (r"a")) (bs (r"r")) ∧ Reach witParents (bs (r"b")) (bs (r"r"))) :=
  ⟨(find_common_ancestor_spec witParents 3).1 (bs (r"a")), by decide,
    (find_common_ancestor_spec witParents 3).2 (bs (r"a")) (bs (r"b")) (bs (r"r"))
      (by decide)⟩

theorem pyStrip_append_nl (l : Bytes) (h : ∀ c ∈ l, isPySpace c = false) :
    pyStrip (l ++ [nlChar]) = l := by
  cases hl : l with
  | nil => decide
  | cons c₀ rest₀ =>
    rw [← hl]
    rw [pyStrip]
    have hfront : (l ++ [nlChar]).dropWhile isPySpace = l ++ [nlChar] := by
      rw [hl, List.cons_append, dropWhile_cons_safe c₀ _ (h c₀ (by rw [hl]; simp))]
    rw [hfront, List.reverse_append]
    rw [show ([nlChar] : Bytes).reverse ++ l.reverse = nlChar :: l.reverse from by simp]
    rw [show (nlChar :: l.reverse).dropWhile isPySpace = l.reverse.dropWhile isPySpace from by
      rw [List.dropWhile_cons_of_pos (by decide)]]
    rcases hlr : l.reverse with _ | ⟨c, t⟩
    · rw [← l.reverse_reverse, hlr] at hl
      cases hl
    · have hc : isPySpace c = false := by
        apply h
        apply List.mem_reverse.mp
        rw [hlr]
        simp
      rw [dropWhile_cons_safe c t hc, ← hlr, l.reverse_reverse]

theorem s1_add (o : Oracle) (mtime : Nat) :
    add_run_single o s1_r0 (bs (r"a.txt")) mtime = some (s1_r1 o mtime) := rfl

theorem s1_head_commit_r1 (o : Oracle) (mtime : Nat) :
    get_head_commit (s1_r1 o mtime) = none := rfl

theorem s1_current_branch_r1 (o : Oracle) (mtime : Nat) :
    get_current_branch (s1_r1 o mtime) = some (bs (r"master")) := rfl

theorem s1_index_content_eq (o : Oracle) (mtime : Nat) :
    write_index_content (s1_index o mtime) =
      List.flatten ([index_line (s1_blob_hash o) mtime 2 (bs (r"a.txt"))].map
        fun e => e ++ [nlChar]) := rfl

theorem s1_build (o : Oracle)
    (hsafe : ∀ x : Bytes, x ≠ [] → hashSafe (o.hashFn x) = true) (mtime : Nat) :
    build_tree_from_index (some (write_index_content (s1_index o mtime))) =
      some [(bs (r"a.txt"), PyTree.blob (s1_blob_hash o))] := by
  have hbh : hashSafe (s1_blob_hash o) = true :=
    hsafe _ (objHeader_append_ne_nil _ _)
  have hpw : pathWf (bs (r"a.txt")) = true := by decide
  have hlines : pySplitLines (write_index_content (s1_index o mtime)) =
      [index_line (s1_blob_hash o) mtime 2 (bs (r"a.txt"))] := by
    rw [s1_index_content_eq]
    exact pySplitLines_concatNl _ (by
      intro e he
      rw [List.mem_singleton] at he
      subst he
      exact index_line_no_nl _ _ _ _ hbh hpw)
  have hparse := parseIndexLineHash_index_line (s1_blob_hash o) mtime 2 (bs (r"a.txt"))
    hbh hpw
  show buildTreeLines (pySplitLines (write_index_content (s1_index o mtime))) [] = _
  rw [hlines]
  simp only [buildTreeLines, hparse]
  rw [show pySplitChar slashChar (bs (r"a.txt")) = [bs (r"a.txt")] from by decide]
  rw [insertTreePath_single]
  rfl

theorem s1_write_tree (o : Oracle) :
    write_tree o 2 [(s1_blob_hash o, o.comp s1_blob_data)]
        [(bs (r"a.txt"), PyTree.blob (s1_blob_hash o))] =
      ((s1_tree_hash o, o.comp (s1_tree_data o)) ::
          [(s1_blob_hash o, o.comp s1_blob_data)],
        s1_tree_hash o) := by
  rw [write_tree_succ]
  rw [show sortByKey [(bs (r"a.txt"), PyTree.blob (s1_blob_hash o))] =
    [(bs (r"a.txt"), PyTree.blob (s1_blob_hash o))] from rfl]
  rw [writeTreeEntries_blob, writeTreeEntries_nil]
  rfl

theorem s1_r1_indexFile (o : Oracle) (mtime : Nat) :
    (s1_r1 o mtime).indexFile = some (write_index_content (s1_index o mtime)) := rfl

theorem s1_r1_store (o : Oracle) (mtime : Nat) :
    (s1_r1 o mtime).store = [(s1_blob_hash o, o.comp s1_blob_data)] := rfl

theorem s1_r1_config (o : Oracle) (mtime : Nat) :
    (s1_r1 o mtime).config = some (bs (r"u"), bs (r"u@x")) := rfl

theorem s1_r1_branches (o : Oracle) (mtime : Nat) :
    (s1_r1 o mtime).branches = [(bs (r"master"), [])] := rfl

theorem s1_commit (o : Oracle)
    (hsafe : ∀ x : Bytes, x ≠ [] → hashSafe (o.hashFn x) = true) (mtime ts : Nat)
    (tz : Bytes) :
    commit_run o (s1_r1 o mtime) (bs (r"m")) ts tz 2 =
      some (s1_r2 o mtime ts tz, s1_commit_hash o ts tz) := by
  have hicne : write_index_content (s1_index o mtime) ≠ [] := by
    rw [s1_index_content_eq]
    simp
  have hnoconfig : ¬((bs (r"u")) = [] ∨ (bs (r"u@x")) = []) := by decide
  show create_commit o (s1_r1 o mtime) (bs (r"m")) [] ts tz 2 = _
  simp only [create_commit, s1_r1_indexFile, if_neg hicne, s1_build o hsafe mtime,
    s1_r1_config, if_neg hnoconfig, s1_r1_store, s1_write_tree o,
    s1_current_branch_r1, s1_r1_branches]
  rfl

theorem objData_shape (k x : Bytes) :
    objHeader k x ++ x = (k ++ spaceChar :: natToDec x.length) ++ nullChar :: x := by
  simp [objHeader, List.append_assoc]

theorem natToDec_nn_ns (n : Nat) : ∀ c ∈ natToDec n, c ≠ nullChar ∧ c ≠ spaceChar := by
  intro c hc
  have := digit_char_props c (natToDec_digit n c hc).1 (natToDec_digit n c hc).2
  exact ⟨this.2.1, this.2.2.1⟩

theorem s1_blob_head : s1_blob_data.headD nullChar = Char.ofNat 98 := rfl

theorem s1_tree_head (o : Oracle) : (s1_tree_data o).headD nullChar = Char.ofNat 116 := rfl

theorem s1_commit_head (o : Oracle) (ts : Nat) (tz : Bytes) :
    (s1_commit_data o ts tz).headD nullChar = Char.ofNat 99 := rfl

theorem s1_hashes_distinct (o : Oracle)
    (hinj : ∀ a b : Bytes, o.hashFn a = o.hashFn b → a = b) (ts : Nat) (tz : Bytes) :
    s1_blob_hash o ≠ s1_tree_hash o ∧
      s1_blob_hash o ≠ s1_commit_hash o ts tz ∧
      s1_tree_hash o ≠ s1_commit_hash o ts tz := by
  refine ⟨?_, ?_, ?_⟩
  · intro he
    have hcong := congrArg (fun l : Bytes => l.headD nullChar) (hinj _ _ he)
    rw [show (fun l : Bytes => l.headD nullChar) s1_blob_data = Char.ofNat 98 from rfl,
      show (fun l : Bytes => l.headD nullChar) (s1_tree_data o) = Char.ofNat 116 from rfl]
      at hcong
    exact absurd hcong (by decide)
  · intro he
    have hcong := congrArg (fun l : Bytes => l.headD nullChar) (hinj _ _ he)
    rw [show (fun l : Bytes => l.headD nullChar) s1_blob_data = Char.ofNat 98 from rfl,
      show (fun l : Bytes => l.headD nullChar) (s1_commit_data o ts tz) = Char.ofNat 99
        from rfl] at hcong
    exact absurd hcong (by decide)
  · intro he
    have hcong := congrArg  (fun l : Bytes => l.headD nullChar) (hinj _ _ he)
    rw [show (fun l : Bytes => l.headD nullChar) (s1_tree_data o) = Char.ofNat 116 from rfl,
      show (fun l : Bytes => l.headD nullChar) (s1_commit_data o ts tz) = Char.ofNat 99
        from rfl] at hcong
    exact absurd hcong (by decide)

theorem s1_store_hashed (o : Oracle) (mtime ts : Nat) (tz : Bytes) :
    storeHashed o (s1_r2 o mtime ts tz).store := by
  intro e he
  rcases List.mem_cons.mp he with h | h
  · exact ⟨s1_commit_data o ts tz, h, objHeader_append_ne_nil _ _⟩
  · rcases List.mem_cons.mp h with h₂ | h₂
    · exact ⟨s1_tree_data o, h₂, objHeader_append_ne_nil _ _⟩
    · rcases List.mem_cons.mp h₂ with h₃ | h₃
      · exact ⟨s1_blob_data, h₃, objHeader_append_ne_nil _ _⟩
      · cases h₃

theorem s1_store_consistent (o : Oracle)
    (hinj : ∀ a b : Bytes, o.hashFn a = o.hashFn b → a = b)
    (hsafe : ∀ x : Bytes, x ≠ [] → hashSafe (o.hashFn x) = true)
    (mtime ts : Nat) (tz : Bytes) :
    storeConsistent (s1_r2 o mtime ts tz).store = true :=
  storeConsistent_of_hashed o hinj hsafe _ (s1_store_hashed o mtime ts tz)

theorem s1_read_blob (o : Oracle) (hz : zlibFaithful o)
    (hinj : ∀ a b : Bytes, o.hashFn a = o.hashFn b → a = b)
    (hsafe : ∀ x : Bytes, x ≠ [] → hashSafe (o.hashFn x) = true)
    (mtime ts : Nat) (tz : Bytes) :
    read_object o (s1_r2 o mtime ts tz).store (s1_blob_hash o) =
      some (bs (r"blob"), bs (r"hi")) := by
  apply read_object_mem_wf o _ _ (bs (r"blob")) (natToDec 2) (bs (r"hi")) hz
    (s1_store_consistent o hinj hsafe mtime ts tz) ?_ (by decide) (natToDec_nn_ns 2)
  rw [show ((bs (r"blob") ++ spaceChar :: natToDec 2) ++ nullChar :: bs (r"hi")) =
    s1_blob_data from (objData_shape (bs (r"blob")) (bs (r"hi"))).symm]
  simp [s1_r2]

theorem s1_read_tree (o : Oracle) (hz : zlibFaithful o)
    (hinj : ∀ a b : Bytes, o.hashFn a = o.hashFn b → a = b)
    (hsafe : ∀ x : Bytes, x ≠ [] → hashSafe (o.hashFn x) = true)
    (mtime ts : Nat) (tz : Bytes) :
    read_object o (s1_r2 o mtime ts tz).store (s1_tree_hash o) =
      some (bs (r"tree"), s1_tree_content o) := by
  apply read_object_mem_wf o _ _ (bs (r"tree")) (natToDec (s1_tree_content o).length)
    (s1_tree_content o) hz (s1_store_consistent o hinj hsafe mtime ts tz) ?_ (by decide)
    (natToDec_nn_ns _)
  rw [show ((bs (r"tree") ++ spaceChar :: natToDec (s1_tree_content o).length) ++
      nullChar :: s1_tree_content o) = s1_tree_data o from
    (objData_shape (bs (r"tree")) (s1_tree_content o)).symm]
  simp [s1_r2]

theorem s1_read_commit (o : Oracle) (hz : zlibFaithful o)
    (hinj : ∀ a b : Bytes, o.hashFn a = o.hashFn b → a = b)
    (hsafe : ∀ x : Bytes, x ≠ [] → hashSafe (o.hashFn x) = true)
    (mtime ts : Nat) (tz : Bytes) :
    read_object o (s1_r2 o mtime ts tz).store (s1_commit_hash o ts tz) =
      some (bs (r"commit"), s1_commit_content o ts tz) := by
  apply read_object_mem_wf o _ _ (bs (r"commit"))
    (natToDec (s1_commit_content o ts tz).length) (s1_commit_content o ts tz) hz
    (s1_store_consistent o hinj hsafe mtime ts tz) ?_ (by decide) (natToDec_nn_ns _)
  rw [show ((bs (r"commit") ++ spaceChar :: natToDec (s1_commit_content o ts tz).length) ++
      nullChar :: s1_commit_content o ts tz) = s1_commit_data o ts tz from
    (objData_shape (bs (r"commit")) (s1_commit_content o ts tz)).symm]
  simp [s1_r2]

theorem s1_branch_commit (o : Oracle)
    (hsafe : ∀ x : Bytes, x ≠ [] → hashSafe (o.hashFn x) = true)
    (mtime ts : Nat) (tz : Bytes) :
    get_branch_commit (s1_r2 o mtime ts tz) (bs (r"master")) =
      some (s1_commit_hash o ts tz) := by
  have hch : hashSafe (s1_commit_hash o ts tz) = true :=
    hsafe _ (objHeader_append_ne_nil _ _)
  show some (pyStrip (s1_commit_hash o ts tz ++ [nlChar])) = _
  rw [pyStrip_append_nl _ (fun c hc => (hashSafe_chars _ hch c hc).1)]

theorem s1_head_commit_r2 (o : Oracle)
    (hsafe : ∀ x : Bytes, x ≠ [] → hashSafe (o.hashFn x) = true)
    (mtime ts : Nat) (tz : Bytes) :
    get_head_commit (s1_r2 o mtime ts tz) = some (s1_commit_hash o ts tz) := by
  have hch : hashSafe (s1_commit_hash o ts tz) = true :=
    hsafe _ (objHeader_append_ne_nil _ _)
  show (if (s1_commit_hash o ts tz ++ [nlChar]) = [] then none
    else some (pyStrip (s1_commit_hash o ts tz ++ [nlChar]))) = _
  rw [if_neg (by simp), pyStrip_append_nl _ (fun c hc => (hashSafe_chars _ hch c hc).1)]

theorem s1_files (o : Oracle) (hz : zlibFaithful o)
    (hinj : ∀ a b : Bytes, o.hashFn a = o.hashFn b → a = b)
    (hsafe : ∀ x : Bytes, x ≠ [] → hashSafe (o.hashFn x) = true)
    (mtime ts : Nat) (tz : Bytes) :
    get_commit_files o (s1_r2 o mtime ts tz).store 2 (some (s1_commit_hash o ts tz)) =
      some [(bs (r"a.txt"), s1_blob_hash o)] := by
  have hth_safe : hashSafe (s1_tree_hash o) = true :=
    hsafe _ (objHeader_append_ne_nil _ _)
  have hch_safe : hashSafe (s1_commit_hash o ts tz) = true :=
    hsafe _ (objHeader_append_ne_nil _ _)
  have hcth : get_commit_tree_hash o (s1_r2 o mtime ts tz).store
      (s1_commit_hash o ts tz) = some (some (s1_tree_hash o)) :=
    get_commit_tree_hash_commit o
      [(s1_tree_hash o, o.comp (s1_tree_data o)), (s1_blob_hash o, o.comp s1_blob_data)]
      (s1_tree_hash o) (bs (r"author ") ++ s1_author ts tz)
      (bs (r"committer ") ++ s1_author ts tz) (bs (r"m")) hz hsafe hth_safe
  have htwf : treeWfL [(bs (r"a.txt"), PyTree.blob (s1_blob_hash o))] = true := by
    rw [treeWfL_cons_blob]
    simp only [Bool.and_eq_true]
    exact ⟨⟨⟨by decide, hsafe _ (objHeader_append_ne_nil _ _)⟩, by decide⟩, treeWfL_nil⟩
  have hdep : treeDepthL [(bs (r"a.txt"), PyTree.blob (s1_blob_hash o))] < 2 := by
    rw [treeDepthL_blob, treeDepthL_nil]
    omega
  have hread := (write_read_spec o hz 2).1 [(s1_blob_hash o, o.comp s1_blob_data)]
    [(bs (r"a.txt"), PyTree.blob (s1_blob_hash o))] (s1_r2 o mtime ts tz).store 2 [] []
    htwf hdep hdep (s1_store_consistent o hinj hsafe mtime ts tz) ?hmem
  case hmem =>
    intro e he
    rw [s1_write_tree o] at he
    exact List.mem_cons_of_mem _ he
  rw [s1_write_tree o] at hread
  have hflat : flattenF []
      (sortTreeL 2 [(bs (r"a.txt"), PyTree.blob (s1_blob_hash o))]) [] =
      [(bs (r"a.txt"), s1_blob_hash o)] := by
    rw [show sortTreeL 2 [(bs (r"a.txt"), PyTree.blob (s1_blob_hash o))] =
      [(bs (r"a.txt"), PyTree.blob (s1_blob_hash o))] from rfl]
    rw [flattenF_blob, flattenF_nil]
    rfl
  show (if s1_commit_hash o ts tz = [] then some [] else
    match get_commit_tree_hash o (s1_r2 o mtime ts tz).store (s1_commit_hash o ts tz) with
    | none => none
    | some none => some []
    | some (some th) =>
      if th = [] then some []
      else read_tree_recursive o (s1_r2 o mtime ts tz).store 2 th [] []) = _
  rw [if_neg (hashSafe_ne_nil _ hch_safe)]
  simp only [hcth]
  rw [if_neg (hashSafe_ne_nil _ hth_safe)]
  rw [show read_tree_recursive o (s1_r2 o mtime ts tz).store 2 (s1_tree_hash o) [] [] =
    some (flattenF [] (sortTreeL 2 [(bs (r"a.txt"), PyTree.blob (s1_blob_hash o))]) [])
    from hread]
  rw [hflat]

/-- C1 (code bug): scenario S1 fails at its very first step - `init.py`
imports only `sys`, so `run` raises `NameError` on `os.path.join`, prints
the error and exits 1, creating no repository at all.  From the
hand-initialized state the rest of the scenario does behave as claimed
(`add` then `commit -m "m"` leave exactly three objects - blob, tree,
commit - with `master`/HEAD at the commit and
`get_commit_files(HEAD) = {"a.txt": blob_hash}`), so the claim is false of
the program solely because `init` never succeeds. -/
theorem scenario_s1_init_bug (o : Oracle) (hz : zlibFaithful o)
    (hinj : ∀ a b : Bytes, o.hashFn a = o.hashFn b → a = b)
    (hsafe : ∀ x : Bytes, x ≠ [] → hashSafe (o.hashFn x) = true)
    (mtime ts : Nat) (tz : Bytes) :
    (∀ wd, init_run wd = none) ∧
    ∃ r1 r2 ch,
      add_run_single o (hand_init [(bs (r"a.txt"), bs (r"hi"))]) (bs (r"a.txt")) mtime =
        some r1 ∧
      commit_run o r1 (bs (r"m")) ts tz 2 = some (r2, ch) ∧
      r2.store.length = 3 ∧
      (r2.store.map Prod.fst).Nodup ∧
      read_object o r2.store (s1_blob_hash o) = some (bs (r"blob"), bs (r"hi")) ∧
      read_object o r2.store (s1_tree_hash o) = some (bs (r"tree"), s1_tree_content o) ∧
      read_object o r2.store ch = some (bs (r"commit"), s1_commit_content o ts tz) ∧
      get_branch_commit r2 (bs (r"master")) = some ch ∧
      get_head_commit r2 = some ch ∧
      get_commit_files o r2.store 2 (get_head_commit r2) =
        some [(bs (r"a.txt"), s1_blob_hash o)] := by
  refine ⟨fun wd => ?_, ?_⟩
  · simp only [init_run]
    rw [if_neg (by decide)]
  obtain ⟨hbt, hbc, htc⟩ := s1_hashes_distinct o hinj ts tz
  refine ⟨s1_r1 o mtime, s1_r2 o mtime ts tz, s1_commit_hash o ts tz,
    s1_add o mtime, s1_commit o hsafe mtime ts tz, rfl, ?_,
    s1_read_blob o hz hinj hsafe mtime ts tz,
    s1_read_tree o hz hinj hsafe mtime ts tz,
    s1_read_commit o hz hinj hsafe mtime ts tz,
    s1_branch_commit o hsafe mtime ts tz,
    s1_head_commit_r2 o hsafe mtime ts tz, ?_⟩
  · show ([s1_commit_hash o ts tz, s1_tree_hash o, s1_blob_hash o]).Nodup
    simp only [List.nodup_cons, List.mem_cons, List.mem_singleton, List.not_mem_nil,
      List.nodup_nil]
    refine ⟨?_, ?_, ?_⟩
    · intro hc
      rcases hc with h | h | h
      · exact htc h.symm
      · exact hbc h.symm
      · exact h
    · intro hc
      rcases hc with h | h
      · exact hbt h.symm
      · exact h
    · trivial
  · rw [s1_head_commit_r2 o hsafe mtime ts tz]
    exact s1_files o hz hinj hsafe mtime ts tz

/-- Witness for C1: `init` fails outright, and the rest of the S1 pipeline
behaves as described, at the concrete stand-in oracle. -/
theorem scenario_s1_init_bug_wit :
    init_run [(bs (r"a.txt"), bs (r"hi"))] = none ∧
    zlibFaithful witOracle ∧
      ∃ r1 r2 ch,
        add_run_single witOracle (hand_init [(bs (r"a.txt"), bs (r"hi"))])
            (bs (r"a.txt")) 7 = some r1 ∧
        commit_run witOracle r1 (bs (r"m")) 11 (bs (r"+0000")) 2 = some (r2, ch) ∧
        r2.store.length = 3 ∧
        (r2.store.map Prod.fst).Nodup ∧
        read_object witOracle r2.store (s1_blob_hash witOracle) =
          some (bs (r"blob"), bs (r"hi")) ∧
        read_object witOracle r2.store (s1_tree_hash witOracle) =
          some (bs (r"tree"), s1_tree_content witOracle) ∧
        read_object witOracle r2.store ch =
          some (bs (r"commit"), s1_commit_content witOracle 11 (bs (r"+0000"))) ∧
        get_branch_commit r2 (bs (r"master")) = some ch ∧
        get_head_commit r2 = some ch ∧
        get_commit_files witOracle r2.store 2 (get_head_commit r2) =
          some [(bs (r"a.txt"), s1_blob_hash witOracle)] :=
  ⟨(scenario_s1_init_bug witOracle (fun _ => rfl) witOracle_hashFn_inj
      witOracle_hash_safe 7 11 (bs (r"+0000"))).1 _,
    fun _ => rfl,
    (scenario_s1_init_bug witOracle (fun _ => rfl) witOracle_hashFn_inj
      witOracle_hash_safe 7 11 (bs (r"+0000"))).2⟩

theorem natToDec_ne_nil (n : Nat) : natToDec n ≠ [] := by
  rw [natToDec]
  split
  · simp
  · simp

theorem pyInt_natToDec (n : Nat) : pyInt (natToDec n) = n := by
  rw [pyInt, if_pos ⟨natToDec_ne_nil n, natToDec_digit n⟩]
  exact decVal_natToDec n

theorem dictEq_self {κ α : Type} [DecidableEq κ] [DecidableEq α] (l : List (κ × α))
    (hnd : (l.map Prod.fst).Nodup) : dictEq l l = true := by
  simp only [dictEq, List.all_eq_true, decide_eq_true_eq, Bool.and_eq_true]
  exact ⟨fun p hp => alGet_of_mem_nodup hp hnd, fun p hp => alGet_of_mem_nodup hp hnd⟩

theorem index_line_strip (h : Bytes) (m s : Nat) (p : Bytes)
    (hh : hashSafe h = true) (hp : pathWf p = true) :
    pyStrip (index_line h m s p) = index_line h m s p := by
  have hhead : isPySpace ((index_line h m s p).headD nullChar) = false := by
    rw [index_line, headD_append_left _ _ _ (hashSafe_ne_nil h hh)]
    cases h with
    | nil => exact absurd rfl (hashSafe_ne_nil [] hh)
    | cons c t => exact (hashSafe_chars _ hh c (by simp)).1
  have hlast : isPySpace (pyLast (index_line h m s p)) = false := by
    rw [index_line]
    rw [show h ++ spaceChar :: (natToDec m ++ spaceChar :: (natToDec s ++ spaceChar :: p)) =
      (h ++ spaceChar :: (natToDec m ++ spaceChar :: (natToDec s ++ [spaceChar]))) ++ p by
        simp]
    rw [pyLast_append_right _ _ (pathWf_ne_nil p hp)]
    exact pathWf_getLast p hp
  exact pyStrip_eq_self _ hhead hlast

theorem index_line_split (h : Bytes) (m s : Nat) (p : Bytes)
    (hh : hashSafe h = true) :
    pySplitChar spaceChar (index_line h m s p) =
      h :: natToDec m :: natToDec s :: pySplitChar spaceChar p := by
  rw [index_line,
    pySplitChar_append_sep spaceChar h _ (fun c hc => (hashSafe_chars h hh c hc).2.1),
    pySplitChar_append_sep spaceChar _ _ (natToDec_ne_space m),
    pySplitChar_append_sep spaceChar _ _ (natToDec_ne_space s)]

theorem s1_lines (o : Oracle)
    (hsafe : ∀ x : Bytes, x ≠ [] → hashSafe (o.hashFn x) = true) (mtime : Nat) :
    pySplitLines (write_index_content (s1_index o mtime)) =
      [index_line (s1_blob_hash o) mtime 2 (bs (r"a.txt"))] := by
  rw [s1_index_content_eq]
  exact pySplitLines_concatNl _ (by
    intro e he
    rw [List.mem_singleton] at he
    subst he
    exact index_line_no_nl _ _ _ _ (hsafe _ (objHeader_append_ne_nil _ _)) (by decide))

theorem s1_current_files (o : Oracle) (hz : zlibFaithful o)
    (hinj : ∀ a b : Bytes, o.hashFn a = o.hashFn b → a = b)
    (hsafe : ∀ x : Bytes, x ≠ [] → hashSafe (o.hashFn x) = true)
    (mtime ts : Nat) (tz : Bytes) :
    checkout_current_files o (s1_r2 o mtime ts tz) 2 =
      some [(bs (r"a.txt"), s1_blob_hash o)] := by
  rw [checkout_current_files, s1_head_commit_r2 o hsafe mtime ts tz]
  show (if s1_commit_hash o ts tz = [] then some [] else
    get_commit_files o (s1_r2 o mtime ts tz).store 2 (some (s1_commit_hash o ts tz))) = _
  rw [if_neg (show ¬(s1_commit_hash o ts tz = []) from
    hashSafe_ne_nil _ (hsafe _ (objHeader_append_ne_nil _ _)))]
  exact s1_files o hz hinj hsafe mtime ts tz

theorem s1_spec_clean (o : Oracle) (hz : zlibFaithful o)
    (hinj : ∀ a b : Bytes, o.hashFn a = o.hashFn b → a = b)
    (hsafe : ∀ x : Bytes, x ≠ [] → hashSafe (o.hashFn x) = true)
    (mtime ts : Nat) (tz : Bytes) :
    spec_clean o (s1_r2 o mtime ts tz) 2 = some true := by
  have hbh : hashSafe (s1_blob_hash o) = true := hsafe _ (objHeader_append_ne_nil _ _)
  have hread : read_index (s1_r2 o mtime ts tz).indexFile =
      [(bs (r"a.txt"), (s1_blob_hash o, mtime, 2))] := by
    show read_index_lines
      (pySplitLines (write_index_content (s1_index o mtime))) [] = _
    rw [s1_lines o hsafe mtime]
    rw [show read_index_lines [index_line (s1_blob_hash o) mtime 2 (bs (r"a.txt"))] [] =
      (let parts := pySplitChar spaceChar
        (pyStrip (index_line (s1_blob_hash o) mtime 2 (bs (r"a.txt"))))
      if 4 ≤ parts.length then
        read_index_lines [] (alSet [] (pyJoin [spaceChar] (parts.drop 3))
          (parts.headD [], pyInt ((parts.drop 1).headD []),
            pyInt ((parts.drop 2).headD [])))
      else if 2 ≤ parts.length then
        read_index_lines [] (alSet [] (pyJoin [spaceChar] (parts.drop 1))
          (parts.headD [], 0, 0))
      else read_index_lines [] []) from rfl]
    rw [index_line_strip _ _ _ _ hbh (by decide),
      index_line_split _ _ _ _ hbh,
      show pySplitChar spaceChar (bs (r"a.txt")) = [bs (r"a.txt")] from by decide]
    rw [if_pos (by simp)]
    rw [show pyInt ((((s1_blob_hash o) :: natToDec mtime :: natToDec 2 ::
        [bs (r"a.txt")]).drop 1).headD []) = mtime from by
      rw [show (((s1_blob_hash o) :: natToDec mtime :: natToDec 2 ::
        [bs (r"a.txt")]).drop 1).headD [] = natToDec mtime from rfl]
      exact pyInt_natToDec mtime]
    rw [show pyInt ((((s1_blob_hash o) :: natToDec mtime :: natToDec 2 ::
        [bs (r"a.txt")]).drop 2).headD []) = 2 from by
      rw [show (((s1_blob_hash o) :: natToDec mtime :: natToDec 2 ::
        [bs (r"a.txt")]).drop 2).headD [] = natToDec 2 from rfl]
      exact pyInt_natToDec 2]
    rfl
  have hread₂ : hashes_of (read_index (s1_r2 o mtime ts tz).indexFile) =
      [(bs (r"a.txt"), s1_blob_hash o)] := by
    rw [hread]
    rfl
  have hne : ¬((hash_object o (s1_r2 o mtime ts tz).store (bs (r"hi")) (bs (r"blob"))
      false).2 ≠ s1_blob_hash o) := fun hc => hc rfl
  have hany : ([(bs (r"a.txt"), s1_blob_hash o)].any fun e =>
      match alGet (s1_r2 o mtime ts tz).workdir e.1 with
      | some content =>
        decide ((hash_object o (s1_r2 o mtime ts tz).store content (bs (r"blob"))
          false).2 ≠ e.2)
      | none => true) = false := by
    simp only [List.any_cons, List.any_nil, Bool.or_false]
    exact decide_eq_false hne
  simp only [spec_clean, s1_current_files o hz hinj hsafe mtime ts tz, hread₂]
  rw [dictEq_self _ (by simp), hany]
  rfl

theorem s1_is_clean_false (o : Oracle) (hz : zlibFaithful o)
    (hinj : ∀ a b : Bytes, o.hashFn a = o.hashFn b → a = b)
    (hsafe : ∀ x : Bytes, x ≠ [] → hashSafe (o.hashFn x) = true)
    (mtime ts : Nat) (tz : Bytes) :
    is_clean o (s1_r2 o mtime ts tz) 2 = some false := by
  have hbh : hashSafe (s1_blob_hash o) = true := hsafe _ (objHeader_append_ne_nil _ _)
  have h2dec : natToDec 2 = [Char.ofNat 50] := by
    rw [natToDec]
    rw [dif_pos (by omega)]
  have hkey : natToDec mtime ++ spaceChar :: (natToDec 2 ++ spaceChar :: bs (r"a.txt")) ≠
      bs (r"a.txt") := by
    intro he
    have := congrArg List.length he
    simp only [List.length_append, List.length_cons] at this
    rw [show (bs (r"a.txt")).length = 5 from rfl,
      show (natToDec 2).length = 1 from by rw [h2dec]; rfl] at this
    omega
  have hload : load_index (s1_r2 o mtime ts tz).indexFile =
      some [(natToDec mtime ++ spaceChar :: (natToDec 2 ++ spaceChar :: bs (r"a.txt")),
        s1_blob_hash o)] := by
    show loadIndexLines
      (pySplitLines (write_index_content (s1_index o mtime))) [] = _
    rw [s1_lines o hsafe mtime]
    rw [show loadIndexLines [index_line (s1_blob_hash o) mtime 2 (bs (r"a.txt"))] [] =
      (match pySplitOnce spaceChar
        (pyStrip (index_line (s1_blob_hash o) mtime 2 (bs (r"a.txt")))) with
      | none => none
      | some (h, p) => loadIndexLines [] (alSet [] p h)) from rfl]
    rw [index_line_strip _ _ _ _ hbh (by decide)]
    rw [show pySplitOnce spaceChar (index_line (s1_blob_hash o) mtime 2 (bs (r"a.txt"))) =
      some (s1_blob_hash o,
        natToDec mtime ++ spaceChar :: (natToDec 2 ++ spaceChar :: bs (r"a.txt"))) from by
      rw [index_line]
      exact pySplitOnce_append spaceChar _ _
        (fun c hc => (hashSafe_chars _ hbh c hc).2.1)]
    rfl
  have h₁ : alGet [(natToDec mtime ++ spaceChar :: (natToDec 2 ++ spaceChar ::
      bs (r"a.txt")), s1_blob_hash o)] (bs (r"a.txt")) = none := by
    rw [alGet, if_neg hkey]
    rfl
  have hdict : dictEq [(bs (r"a.txt"), s1_blob_hash o)]
      [(natToDec mtime ++ spaceChar :: (natToDec 2 ++ spaceChar :: bs (r"a.txt")),
        s1_blob_hash o)] = false := by
    rw [dictEq]
    rw [show ([(bs (r"a.txt"), s1_blob_hash o)].all fun p =>
        decide (alGet [(natToDec mtime ++ spaceChar :: (natToDec 2 ++ spaceChar ::
          bs (r"a.txt")), s1_blob_hash o)] p.1 = some p.2)) = false from by
      simp only [List.all_cons, List.all_nil, Bool.and_true]
      rw [h₁]
      rfl]
    rw [Bool.false_and]
  simp only [is_clean, s1_current_files o hz hinj hsafe mtime ts tz, hload, hdict]
  rfl

/-- C2 (code bug): at the state scenario S1 leaves behind — the index is in
the current four-field format and records exactly the HEAD tree, with every
file unmodified on disk — the spec's clean-tree predicate holds, but
checkout's `is_clean` returns false: `load_index` parses only the legacy
two-field format, so the four-field line's path is read as
`"<mtime> <size> <path>"` and the HEAD-versus-index comparison fails. -/
theorem is_clean_rejects_current_format (o : Oracle) (hz : zlibFaithful o)
    (hinj : ∀ a b : Bytes, o.hashFn a = o.hashFn b → a = b)
    (hsafe : ∀ x : Bytes, x ≠ [] → hashSafe (o.hashFn x) = true)
    (mtime ts : Nat) (tz : Bytes) :
    add_run_single o (hand_init [(bs (r"a.txt"), bs (r"hi"))]) (bs (r"a.txt")) mtime =
      some (s1_r1 o mtime) ∧
    commit_run o (s1_r1 o mtime) (bs (r"m")) ts tz 2 =
      some (s1_r2 o mtime ts tz, s1_commit_hash o ts tz) ∧
    spec_clean o (s1_r2 o mtime ts tz) 2 = some true ∧
    is_clean o (s1_r2 o mtime ts tz) 2 = some false :=
  ⟨s1_add o mtime, s1_commit o hsafe mtime ts tz,
    s1_spec_clean o hz hinj hsafe mtime ts tz,
    s1_is_clean_false o hz hinj hsafe mtime ts tz⟩

/-- Witness for C2's divergence theorem at the concrete oracle. -/
theorem is_clean_rejects_current_format_wit :
    zlibFaithful witOracle ∧
      spec_clean witOracle (s1_r2 witOracle 7 11 (bs (r"+0000"))) 2 = some true ∧
      is_clean witOracle (s1_r2 witOracle 7 11 (bs (r"+0000"))) 2 = some false :=
  ⟨fun _ => rfl,
    (is_clean_rejects_current_format witOracle (fun _ => rfl) witOracle_hashFn_inj
      witOracle_hash_safe 7 11 (bs (r"+0000"))).2.2⟩

theorem alGet_alDel {κ α : Type} [DecidableEq κ] (l : List (κ × α)) (k q : κ)
    (hnd : (l.map Prod.fst).Nodup) :
    alGet (alDel l k) q = if q = k then none else alGet l q := by
  induction l with
  | nil =>
    by_cases hq : q = k
    · rw [if_pos hq]
      rfl
    · rw [if_neg hq]
      rfl
  | cons e rest ih =>
    obtain ⟨k₂, v⟩ := e
    simp only [List.map_cons, List.nodup_cons] at hnd
    by_cases hk : k₂ = k
    · subst hk
      rw [alDel, if_pos rfl]
      by_cases hq : q = k₂
      · subst hq
        rw [if_pos rfl]
        exact alGet_eq_none_of_not_mem_keys rest q hnd.1
      · rw [if_neg hq, alGet, if_neg (fun he => hq he.symm)]
    · rw [alDel, if_neg hk]
      by_cases hq : q = k
      · rw [if_pos hq, alGet, if_neg (fun he => hk (he.trans hq)), ih hnd.2,
          if_pos hq]
      · rw [if_neg hq, alGet, alGet]
        by_cases hq₂ : k₂ = q
        · rw [if_pos hq₂, if_pos hq₂]
        · rw [if_neg hq₂, if_neg hq₂, ih hnd.2, if_neg hq]

theorem mem_of_mem_alDel {κ α : Type} [DecidableEq κ] {l : List (κ × α)} {k : κ}
    {e : κ × α} (h : e ∈ alDel l k) : e ∈ l := by
  induction l with
  | nil => cases h
  | cons e₂ rest ih =>
    rw [alDel] at h
    split at h
    · exact List.mem_cons_of_mem _ h
    · rcases List.mem_cons.mp h with h₂ | h₂
      · exact h₂ ▸ List.mem_cons_self _ _
      · exact List.mem_cons_of_mem _ (ih h₂)

theorem alDel_keys_nodup {κ α : Type} [DecidableEq κ] (l : List (κ × α)) (k : κ)
    (hnd : (l.map Prod.fst).Nodup) : ((alDel l k).map Prod.fst).Nodup := by
  induction l with
  | nil => exact hnd
  | cons e rest ih =>
    obtain ⟨k₂, v⟩ := e
    simp only [List.map_cons, List.nodup_cons] at hnd
    rw [alDel]
    by_cases hk : k₂ = k
    · rw [if_pos hk]
      exact hnd.2
    · rw [if_neg hk]
      simp only [List.map_cons, List.nodup_cons]
      refine ⟨?_, ih hnd.2⟩
      intro hc
      apply hnd.1
      obtain ⟨e₂, he₂, heq⟩ := List.mem_map.mp hc
      exact List.mem_map.mpr ⟨e₂, mem_of_mem_alDel he₂, heq⟩

theorem applyDeletes_nil_target (F wd : List (Bytes × Bytes))
    (hnd : (wd.map Prod.fst).Nodup) :
    ((applyDeletes F [] wd).map Prod.fst).Nodup ∧
    ∀ p, alGet (applyDeletes F [] wd) p =
      if p ∈ F.map Prod.fst then none else alGet wd p := by
  induction F generalizing wd with
  | nil =>
    refine ⟨hnd, ?_⟩
    intro p
    rw [if_neg (by simp)]
    rfl
  | cons e F₂ ih =>
    have hstep : applyDeletes (e :: F₂) [] wd = applyDeletes F₂ [] (alDel wd e.1) := by
      rw [applyDeletes, List.foldl_cons]
      rw [show alHasKey ([] : List (Bytes × Bytes)) e.1 = false from rfl]
      rfl
    rw [hstep]
    obtain ⟨ihnd, ihget⟩ := ih (alDel wd e.1) (alDel_keys_nodup wd e.1 hnd)
    refine ⟨ihnd, ?_⟩
    intro p
    rw [ihget p]
    by_cases hmem : p ∈ F₂.map Prod.fst
    · rw [if_pos hmem, if_pos (by simp [hmem])]
    · rw [if_neg hmem, alGet_alDel wd e.1 p hnd]
      by_cases hpe : p = e.1
      · rw [if_pos hpe, if_pos (by simp [hpe])]
      · rw [if_neg hpe, if_neg (by
          simp only [List.map_cons, List.mem_cons]
          intro hc
          rcases hc with h | h
          · exact hpe h
          · exact hmem h)]

/-- C10 (implicit): checking out a branch whose ref file exists but is empty
(the state `init` leaves `master` in before the first commit), from a clean
state: the checkout is accepted, the empty hash makes the target tree empty,
every file of the current HEAD tree is deleted from the working directory
(other files untouched), the index is rewritten empty, and HEAD is repointed
at the target branch; the store and refs are unchanged. -/
theorem checkout_empty_branch_spec (o : Oracle) (r : Repo) (target : Bytes) (fuel : Nat)
    (F : List (Bytes × Bytes))
    (hclean : is_clean o r fuel = some true)
    (hbr : get_branch_commit r target = some [])
    (hcur : checkout_current_files o r fuel = some F)
    (hnd : (r.workdir.map Prod.fst).Nodup) :
    ∃ r₂, perform_checkout o r target fuel = some r₂ ∧
      r₂.headFile = some (bs (r"ref: refs/heads/") ++ target ++ [nlChar]) ∧
      r₂.indexFile = some [] ∧
      (∀ p, p ∈ F.map Prod.fst → alGet r₂.workdir p = none) ∧
      (∀ p, p ∉ F.map Prod.fst → alGet r₂.workdir p = alGet r.workdir p) ∧
      r₂.store = r.store ∧ r₂.branches = r.branches := by
  have hct : checkout_target_files o r target fuel = some [] := by
    rw [checkout_target_files, hbr]
    rfl
  have hupd : update_working_directory o r.store F [] r.workdir =
      some (applyDeletes F [] r.workdir) := rfl
  refine ⟨{ r with
            workdir := applyDeletes F [] r.workdir
            indexFile := some (update_index_content [])
            headFile := some (bs (r"ref: refs/heads/") ++ target ++ [nlChar]) },
    ?_, rfl, rfl, ?_, ?_, rfl, rfl⟩
  · simp only [perform_checkout, hclean, hct, hcur, hupd]
  · intro p hp
    rw [(applyDeletes_nil_target F r.workdir hnd).2 p, if_pos hp]
  · intro p hp
    rw [(applyDeletes_nil_target F r.workdir hnd).2 p, if_neg hp]

/-- Witness for C10: checking out the empty branch `dev` from a fresh clean
repository. -/
theorem checkout_empty_branch_spec_wit :
    is_clean witOracle witC10Repo 1 = some true ∧
      get_branch_commit witC10Repo (bs (r"dev")) = some [] ∧
      checkout_current_files witOracle witC10Repo 1 = some [] ∧
      ([] : List Bytes).Nodup ∧
      ∃ r₂, perform_checkout witOracle witC10Repo (bs (r"dev")) 1 = some r₂ ∧
        r₂.headFile = some (bs (r"ref: refs/heads/") ++ bs (r"dev") ++ [nlChar]) ∧
        r₂.indexFile = some [] ∧
        (∀ p, p ∈ ([] : List (Bytes × Bytes)).map Prod.fst → alGet r₂.workdir p = none) ∧
        (∀ p, p ∉ ([] : List (Bytes × Bytes)).map Prod.fst →
          alGet r₂.workdir p = alGet witC10Repo.workdir p) ∧
        r₂.store = witC10Repo.store ∧ r₂.branches = witC10Repo.branches :=
  ⟨by decide, by decide, by decide, by decide,
    checkout_empty_branch_spec witOracle witC10Repo (bs (r"dev")) 1 []
      (by decide) (by decide) (by decide) (by decide)⟩

/-- C7 (code bug): `checkout.update_index` and the merge index writers emit
the LEGACY two-field `"<hash> <path>"` form (which the central reader then
parses with zeroed stats), and checkout's own `load_index` cannot read the
current four-field format back: it returns `"<mtime> <size> <path>"` as the
path. -/
theorem index_writers_emit_legacy (h : Bytes) (hh : hashSafe h = true) (m s : Nat) :
    update_index_content [(bs (r"a.txt"), h)] =
      h ++ spaceChar :: bs (r"a.txt") ++ [nlChar] ∧
    merge_write_index [(bs (r"a.txt"), h)] =
      h ++ spaceChar :: bs (r"a.txt") ++ [nlChar] ∧
    read_index (some (h ++ spaceChar :: bs (r"a.txt") ++ [nlChar])) =
      [(bs (r"a.txt"), (h, 0, 0))] ∧
    load_index (some (index_line h m s (bs (r"a.txt")) ++ [nlChar])) =
      some [(natToDec m ++ spaceChar :: (natToDec s ++ spaceChar :: bs (r"a.txt")), h)] := by
  have hnn : ∀ c ∈ h ++ spaceChar :: bs (r"a.txt"), c ≠ nlChar := by
    intro c hc
    rcases List.mem_append.mp hc with h₁ | h₁
    · exact (hashSafe_chars h hh c h₁).2.2.1
    · rcases List.mem_cons.mp h₁ with h₂ | h₂
      · subst h₂
        decide
      · exact (by decide : ∀ x ∈ bs (r"a.txt"), x ≠ nlChar) c h₂
  have hstripline : pyStrip (h ++ spaceChar :: bs (r"a.txt")) =
      h ++ spaceChar :: bs (r"a.txt") := by
    apply pyStrip_eq_self
    · rw [headD_append_left _ _ _ (hashSafe_ne_nil h hh)]
      cases h with
      | nil => exact absurd rfl (hashSafe_ne_nil [] hh)
      | cons c t => exact (hashSafe_chars _ hh c (by simp)).1
    · rw [show h ++ spaceChar :: bs (r"a.txt") = h ++ (spaceChar :: bs (r"a.txt"))
        from rfl]
      rw [pyLast_append_right _ _ (by simp)]
      decide
  refine ⟨?_, ?_, ?_, ?_⟩
  · simp [update_index_content, sortByKey, insertSorted]
  · simp [merge_write_index, sortByKey, insertSorted]
  · have hlines : pySplitLines (h ++ spaceChar :: bs (r"a.txt") ++ [nlChar]) =
        [h ++ spaceChar :: bs (r"a.txt")] := by
      rw [show h ++ spaceChar :: bs (r"a.txt") ++ [nlChar] =
        List.flatten ([h ++ spaceChar :: bs (r"a.txt")].map fun e => e ++ [nlChar])
        from by simp]
      exact pySplitLines_concatNl _ (by
        intro e he
        rw [List.mem_singleton] at he
        subst he
        exact hnn)
    show read_index_lines
      (pySplitLines (h ++ spaceChar :: bs (r"a.txt") ++ [nlChar])) [] = _
    rw [hlines]
    rw [show read_index_lines [h ++ spaceChar :: bs (r"a.txt")] [] =
      (let parts := pySplitChar spaceChar (pyStrip (h ++ spaceChar :: bs (r"a.txt")))
      if 4 ≤ parts.length then
        read_index_lines [] (alSet [] (pyJoin [spaceChar] (parts.drop 3))
          (parts.headD [], pyInt ((parts.drop 1).headD []),
            pyInt ((parts.drop 2).headD [])))
      else if 2 ≤ parts.length then
        read_index_lines [] (alSet [] (pyJoin [spaceChar] (parts.drop 1))
          (parts.headD [], 0, 0))
      else read_index_lines [] []) from rfl]
    rw [hstripline]
    rw [pySplitChar_append_sep spaceChar h _
      (fun c hc => (hashSafe_chars h hh c hc).2.1)]
    rw [show pySplitChar spaceChar (bs (r"a.txt")) = [bs (r"a.txt")] from by decide]
    rw [if_neg (by simp), if_pos (by simp)]
    rfl
  · have hlines : pySplitLines (index_line h m s (bs (r"a.txt")) ++ [nlChar]) =
        [index_line h m s (bs (r"a.txt"))] := by
      rw [show index_line h m s (bs (r"a.txt")) ++ [nlChar] =
        List.flatten ([index_line h m s (bs (r"a.txt"))].map fun e => e ++ [nlChar])
        from by simp]
      exact pySplitLines_concatNl _ (by
        intro e he
        rw [List.mem_singleton] at he
        subst he
        exact index_line_no_nl _ _ _ _ hh (by decide))
    show loadIndexLines
      (pySplitLines (index_line h m s (bs (r"a.txt")) ++ [nlChar])) [] = _
    rw [hlines]
    rw [show loadIndexLines [index_line h m s (bs (r"a.txt"))] [] =
      (match pySplitOnce spaceChar (pyStrip (index_line h m s (bs (r"a.txt")))) with
      | none => none
      | some (h₂, p) => loadIndexLines [] (alSet [] p h₂)) from rfl]
    rw [index_line_strip _ _ _ _ hh (by decide)]
    rw [show pySplitOnce spaceChar (index_line h m s (bs (r"a.txt"))) =
      some (h, natToDec m ++ spaceChar :: (natToDec s ++ spaceChar :: bs (r"a.txt")))
      from by
      rw [index_line]
      exact pySplitOnce_append spaceChar _ _
        (fun c hc => (hashSafe_chars _ hh c hc).2.1)]
    rfl

/-- Witness for C7's divergence theorem at a concrete hash and stats. -/
theorem index_writers_emit_legacy_wit :
    hashSafe (bs (r"h1")) = true ∧
      update_index_content [(bs (r"a.txt"), bs (r"h1"))] =
        bs (r"h1") ++ spaceChar :: bs (r"a.txt") ++ [nlChar] ∧
      load_index (some (index_line (bs (r"h1")) 5 2 (bs (r"a.txt")) ++ [nlChar])) =
        some [(natToDec 5 ++ spaceChar :: (natToDec 2 ++ spaceChar :: bs (r"a.txt")),
          bs (r"h1"))] :=
  ⟨by decide,
    (index_writers_emit_legacy (bs (r"h1")) (by decide) 5 2).1,
    (index_writers_emit_legacy (bs (r"h1")) (by decide) 5 2).2.2.2⟩

/-- C3 (code bug): when the head and merge commits both hold a path at
different blob hashes unknown to the ancestor, the merge surfaces failure
(exit 1, no commit: the store, refs and HEAD are untouched) and writes the
conflict-marker file into the working tree - but `.pit/MERGE_HEAD` is NOT
written: no statement in `merge.py` touches it, so it keeps its prior value
instead of holding the "theirs" hash the spec requires. -/
theorem merge_conflict_no_merge_head
    (o : Oracle) (r : Repo) (fuel : Nat)
    (aH hH mH p h1 h2 d1 d2 bm cb : Bytes) (ts : Nat) (tz : Bytes) (tf : Nat)
    (idx₀ : List (Bytes × Bytes))
    (hfa : get_commit_files o r.store fuel (some aH) = some [])
    (hfh : get_commit_files o r.store fuel (some hH) = some [(p, h1)])
    (hfm : get_commit_files o r.store fuel (some mH) = some [(p, h2)])
    (hidx : load_index r.indexFile = some idx₀)
    (hne : h1 ≠ h2) (h1nn : h1 ≠ []) (h2nn : h2 ≠ [])
    (hr1 : read_object o r.store h1 = some (bs (r"blob"), d1))
    (hr2 : read_object o r.store h2 = some (bs (r"blob"), d2)) :
    ∃ r₂, merge_run_tail o r fuel aH hH mH bm cb ts tz tf = some (none, r₂) ∧
      r₂.mergeHead = r.mergeHead ∧
      r₂.store = r.store ∧
      r₂.indexFile = r.indexFile ∧
      r₂.headFile = r.headFile ∧
      r₂.branches = r.branches ∧
      r₂.workdir = alSet r.workdir p (pyJoin [nlChar]
        [bs (r"<<<<<<< HEAD"), d1, bs (r"======="), d2, bs (r">>>>>>> ") ++ p]) := by
  have hmf : merge_file o r p none (some h1) (some h2) =
      some (MergeRes.conflict, r) := by
    simp only [merge_file]
    rw [if_neg (show ¬((some h1 : Option Bytes) = some h2) from
      fun hc => hne (Option.some.inj hc))]
    rw [if_neg (show ¬((some h1 : Option Bytes) = none ∧
      (some h2 : Option Bytes) = none) from by simp)]
    rw [if_neg (show ¬((some h1 : Option Bytes) = none) from by simp)]
    rw [if_neg (show ¬((some h2 : Option Bytes) = none) from by simp)]
    rw [if_pos (show (some h1 : Option Bytes) ≠ some h2 from
      fun hc => hne (Option.some.inj hc))]
  have hcc : create_conflict_file o r p (some h1) (some h2) =
      some { r with workdir := alSet r.workdir p (pyJoin [nlChar]
        [bs (r"<<<<<<< HEAD"), d1, bs (r"======="), d2,
          bs (r">>>>>>> ") ++ p]) } := by
    simp only [create_conflict_file, conflict_side]
    rw [if_neg h1nn, hr1, if_neg h2nn, hr2]
    rfl
  have hg1 : alGet ([] : List (Bytes × Bytes)) p = none := rfl
  have hg2 : alGet [(p, h1)] p = some h1 := by simp [alGet]
  have hg3 : alGet [(p, h2)] p = some h2 := by simp [alGet]
  have hded : dedupPaths [p, p] = [p] := by simp [dedupPaths]
  have hap : sortedPaths (([] : List (Bytes × Bytes)).map Prod.fst ++
      ([(p, h1)] : List (Bytes × Bytes)).map Prod.fst ++
      ([(p, h2)] : List (Bytes × Bytes)).map Prod.fst) = [p] := by
    show sortedPaths [p, p] = [p]
    show (sortByKey ((dedupPaths [p, p]).map fun q => (q, ()))).map Prod.fst = [p]
    rw [hded]
    rfl
  have hloop : mergeFilesLoop o [] [(p, h1)] [(p, h2)] [p] [] r =
      some ([p], { r with workdir := alSet r.workdir p (pyJoin [nlChar]
        [bs (r"<<<<<<< HEAD"), d1, bs (r"======="), d2,
          bs (r">>>>>>> ") ++ p]) }) := by
    simp only [mergeFilesLoop]
    rw [hg1, hg2, hg3, hmf]
    show (match create_conflict_file o r p (some h1) (some h2) with
      | none => none
      | some r₃ => some (([] : List Bytes) ++ [p], r₃)) = _
    rw [hcc]
    rfl
  have hp : perform_three_way_merge o r fuel aH hH mH =
      some (false, { r with workdir := alSet r.workdir p (pyJoin [nlChar]
        [bs (r"<<<<<<< HEAD"), d1, bs (r"======="), d2,
          bs (r">>>>>>> ") ++ p]) }) := by
    simp only [perform_three_way_merge, hfa, hfh, hfm, hidx]
    rw [hap, hloop]
    rfl
  refine ⟨{ r with workdir := alSet r.workdir p (pyJoin [nlChar]
    [bs (r"<<<<<<< HEAD"), d1, bs (r"======="), d2, bs (r">>>>>>> ") ++ p]) },
    ?_, rfl, rfl, rfl, rfl, rfl, rfl⟩
  simp only [merge_run_tail, hp]

theorem witM_rtr1 (th line : Bytes)
    (hread : read_object witOracle witMergeStore th = some (bs (r"tree"), line)) :
    read_tree_recursive witOracle witMergeStore 1 th [] [] =
      readTreeLines witOracle witMergeStore 0 (pySplitLines line) [] [] := by
  rw [read_tree_recursive]
  rw [hread]
  rfl

theorem witM_rtl_one (b : Bytes)
    (hline : pySplit3 spaceChar (pyReplaceChar tabChar spaceChar b) =
      some (bs (r"100644"), bs (r"blob"), bs (r"b1"), bs (r"a.txt"))) :
    readTreeLines witOracle witMergeStore 0 [b] [] [] =
      readTreeLines witOracle witMergeStore 0 [] []
        [(bs (r"a.txt"), bs (r"b1"))] := by
  rw [readTreeLines.eq_2]
  rw [hline]
  rfl

theorem witM_rtl_one2 (b : Bytes)
    (hline : pySplit3 spaceChar (pyReplaceChar tabChar spaceChar b) =
      some (bs (r"100644"), bs (r"blob"), bs (r"b2"), bs (r"a.txt"))) :
    readTreeLines witOracle witMergeStore 0 [b] [] [] =
      readTreeLines witOracle witMergeStore 0 [] []
        [(bs (r"a.txt"), bs (r"b2"))] := by
  rw [readTreeLines.eq_2]
  rw [hline]
  rfl

theorem witM_rtl_nil (files : List (Bytes × Bytes)) :
    readTreeLines witOracle witMergeStore 0 [] [] files = some files := by
  rw [readTreeLines]

theorem witM_files_head :
    get_commit_files witOracle witMergeStore 1 (some (bs (r"chh"))) =
      some [(bs (r"a.txt"), bs (r"b1"))] := by
  have h0 : get_commit_files witOracle witMergeStore 1 (some (bs (r"chh"))) =
      read_tree_recursive witOracle witMergeStore 1 (bs (r"t1")) [] [] := rfl
  rw [h0, witM_rtr1 (bs (r"t1")) (bs (r"100644 blob b1 a.txt")) (by decide)]
  rw [show pySplitLines (bs (r"100644 blob b1 a.txt")) =
    [bs (r"100644 blob b1 a.txt")] from by decide]
  rw [witM_rtl_one (bs (r"100644 blob b1 a.txt")) (by decide)]
  rw [witM_rtl_nil]

theorem witM_files_merge :
    get_commit_files witOracle witMergeStore 1 (some (bs (r"cmm"))) =
      some [(bs (r"a.txt"), bs (r"b2"))] := by
  have h0 : get_commit_files witOracle witMergeStore 1 (some (bs (r"cmm"))) =
      read_tree_recursive witOracle witMergeStore 1 (bs (r"t2")) [] [] := rfl
  rw [h0, witM_rtr1 (bs (r"t2")) (bs (r"100644 blob b2 a.txt")) (by decide)]
  rw [show pySplitLines (bs (r"100644 blob b2 a.txt")) =
    [bs (r"100644 blob b2 a.txt")] from by decide]
  rw [witM_rtl_one2 (bs (r"100644 blob b2 a.txt")) (by decide)]
  rw [witM_rtl_nil]

/-- Witness for C3: on the concrete two-branch repository the conflicting
merge fails without a commit, writes the marker file, and leaves
`MERGE_HEAD` absent (where the spec demands the merge commit hash `cmm`). -/
theorem merge_conflict_no_merge_head_wit :
    witMergeRepo.mergeHead = none ∧
    ∃ r₂, merge_run_tail witOracle witMergeRepo 1 (bs (r"ca")) (bs (r"chh"))
        (bs (r"cmm")) (bs (r"dev")) (bs (r"master")) 0 [] 1 = some (none, r₂) ∧
      r₂.mergeHead = witMergeRepo.mergeHead ∧
      r₂.store = witMergeRepo.store ∧
      r₂.indexFile = witMergeRepo.indexFile ∧
      r₂.headFile = witMergeRepo.headFile ∧
      r₂.branches = witMergeRepo.branches ∧
      r₂.workdir = alSet witMergeRepo.workdir (bs (r"a.txt")) (pyJoin [nlChar]
        [bs (r"<<<<<<< HEAD"), bs (r"one"), bs (r"======="), bs (r"two"),
          bs (r">>>>>>> ") ++ bs (r"a.txt")]) :=
  ⟨rfl, merge_conflict_no_merge_head witOracle witMergeRepo 1 (bs (r"ca"))
    (bs (r"chh")) (bs (r"cmm")) (bs (r"a.txt")) (bs (r"b1")) (bs (r"b2"))
    (bs (r"one")) (bs (r"two")) (bs (r"dev")) (bs (r"master")) 0 [] 1 []
    (by decide) witM_files_head witM_files_merge rfl (by decide) (by decide)
    (by decide) (by decide) (by decide)⟩

/-- C8 (code bug): in a repository with no HEAD commit yet and one staged
file, `stash push` succeeds (and mutates nothing but the store and the
stash log, since the no-HEAD branch skips the reset), yet the immediately
following `stash pop` refuses - `_is_clean` sees the staged file as a
difference from the (empty) HEAD and returns unchanged without restoring
anything or dropping the stack entry.  The push+pop round trip therefore
does not succeed, the stash stack is left non-empty, and the popped state
is whatever the push left. -/
theorem stash_push_pop_not_roundtrip
    (o : Oracle) (r : Repo) (fuel tfuel ts : Nat) (tz : Bytes)
    (mtimeOf sizeOf : Bytes → Nat) (p h content : Bytes) (m s : Nat)
    (hsafe : ∀ x : Bytes, x ≠ [] → hashSafe (o.hashFn x) = true)
    (hhead : get_head_commit r = none)
    (hlog : r.stashLog = none)
    (hri : read_index r.indexFile = [(p, (h, m, s))])
    (hwd : r.workdir = [(p, content)])
    (hps : pySplitChar slashChar p = [p])
    (hpig : is_ignored_default p = false) :
    ∃ r₂, stash_push o r fuel tfuel ts tz mtimeOf sizeOf none = some r₂ ∧
      stash_pop o r₂ fuel mtimeOf sizeOf = some r₂ ∧
      stash_is_clean o r₂ fuel = some false ∧
      r₂.stashLog ≠ none ∧ r₂.stashLog ≠ some [] ∧
      r₂.indexFile = r.indexFile ∧ r₂.workdir = r.workdir ∧
      r₂.headFile = r.headFile ∧ r₂.branches = r.branches := by
  have hbt : ∀ (hv : Bytes) (mv sv : Nat),
      build_tree_from_dict [(p, (hv, mv, sv))] = some [(p, PyTree.blob hv)] := by
    intro hv mv sv
    show buildDictEntries [(p, (hv, mv, sv))] [] = _
    simp only [buildDictEntries]
    rw [hps]
    rfl
  have hsc : ∀ (st : Store) (th : Bytes) (pr : List Bytes) (msgv : Bytes),
      hashSafe (create_stash_commit o st th pr msgv r.config ts tz).2 = true := by
    intro st th pr msgv
    simp only [create_stash_commit]
    rw [hash_object_snd_eq]
    exact hsafe _ (objHeader_append_ne_nil _ _)
  have hpush : ∃ st₂ sh, stash_push o r fuel tfuel ts tz mtimeOf sizeOf none =
      some { r with store := st₂, stashLog := some (sh ++ [nlChar]) } ∧
      hashSafe sh = true := by
    simp only [stash_push, hhead, hri, hlog, hbt, hwd, stashScan, hpig,
      List.map_cons, List.map_nil, Bool.false_eq_true, if_false,
      List.not_mem_nil, List.mem_singleton, List.filter, alHasKey, alGet, alSet,
      false_or, or_true, if_true, ite_true, eq_self_iff_true,
      Option.isSome_some, Bool.not_false, List.nil_append]
    exact ⟨_, _, rfl, hsc _ _ _ _⟩
  obtain ⟨st₂, sh, hpush, hsh⟩ := hpush
  have hshne : sh ≠ [] := hashSafe_ne_nil sh hsh
  have hhead₂ : get_head_commit
      { r with store := st₂, stashLog := some (sh ++ [nlChar]) } = none := hhead
  have hri₂ : read_index
      ({ r with store := st₂, stashLog := some (sh ++ [nlChar]) } : Repo).indexFile =
      [(p, (h, m, s))] := hri
  have hclean : stash_is_clean o
      { r with store := st₂, stashLog := some (sh ++ [nlChar]) } fuel = some false := by
    simp only [stash_is_clean, hhead₂, hri₂, hashes_of, compare_states, sortPathList,
      List.map_cons, List.map_nil, List.filter, alHasKey, alGet, Option.isSome,
      Bool.not_false, sortByKey, List.foldl_cons, List.foldl_nil, insertSorted]
    rw [if_pos (Or.inl (by simp))]
  have hlines : pySplitLines (sh ++ [nlChar]) = [sh] := by
    rw [show sh ++ [nlChar] = List.flatten ([sh].map fun e => e ++ [nlChar]) from by simp]
    exact pySplitLines_concatNl _ (by
      intro e he
      rw [List.mem_singleton] at he
      subst he
      intro c hc
      exact (hashSafe_chars _ hsh c hc).2.2.1)
  have hpop : stash_pop o { r with store := st₂, stashLog := some (sh ++ [nlChar]) }
      fuel mtimeOf sizeOf =
      some { r with store := st₂, stashLog := some (sh ++ [nlChar]) } := by
    simp only [stash_pop, hlines, hclean]
    rw [if_neg (show ¬([sh] : List Bytes) = [] from by simp)]
  exact ⟨{ r with store := st₂, stashLog := some (sh ++ [nlChar]) },
    hpush, hpop, hclean, by simp, by simp, rfl, rfl, rfl, rfl⟩

/-- Witness for C8 at the concrete fresh repository. -/
theorem stash_push_pop_not_roundtrip_wit :
    get_head_commit witStashRepo = none ∧
    ∃ r₂, stash_push witOracle witStashRepo 1 1 0 [] (fun _ => 0) (fun _ => 0)
        none = some r₂ ∧
      stash_pop witOracle r₂ 1 (fun _ => 0) (fun _ => 0) = some r₂ ∧
      stash_is_clean witOracle r₂ 1 = some false ∧
      r₂.stashLog ≠ none ∧ r₂.stashLog ≠ some [] ∧
      r₂.indexFile = witStashRepo.indexFile ∧ r₂.workdir = witStashRepo.workdir ∧
      r₂.headFile = witStashRepo.headFile ∧ r₂.branches = witStashRepo.branches :=
  ⟨by decide, stash_push_pop_not_roundtrip witOracle witStashRepo 1 1 0 []
    (fun _ => 0) (fun _ => 0) (bs (r"b.txt")) (bs (r"hb")) (bs (r"new")) 5 3
    witOracle_hash_safe (by decide) rfl (by decide) rfl (by decide) (by decide)⟩

end Pit

